import Mathlib

/-!
Segmented deque (repository nndbnb/lab2-3)

A shallow embedding of `src/dynamicarray.cpp` (class `DynamicArray`), of the richer
`SegmentedDeque` of `src/архив/segmdeque — копия2.cpp` and, in the namespace `Basic`, of the
methods of the basic `SegmentedDeque` of `src/segmdeque.cpp` that differ from it, followed by
theorems about them.

Conventions of the embedding.
* C++ `int` values are `Int`; the sizes stored in a `DynamicArray` are `Nat` (the code never
  makes them negative).  Arithmetic overflow of `int` is not modelled: no claim depends on it.
* A C++ exception is an `Except.error`; the value names the C++ exception class and message.
  Dereferencing a null `head`/`tail` or reading outside the allocated buffer is undefined
  behaviour in C++; the embedding stops with `Err.undefinedBehaviour` there.
* The doubly linked chain `head .. tail` of `Segment` nodes is the list `segs` (head first);
  a `Segment*` is a position in that list, `next`/`prev` are the neighbouring positions.
* A mutating method `void f(args)` of an object `d` is a function `f d args` that returns the
  object after the call; a method that also returns a value returns a pair.
-/

namespace Lab

/-- Exceptions of the C++ code, by class and message. -/
inductive Err where
  /-- The exception `std::out_of_range("Index out of range")`. -/
  | indexOutOfRange
  /-- The exception `std::out_of_range("Deque is empty")`. -/
  | dequeEmpty
  /-- The exception `std::out_of_range("Invalid indices")`. -/
  | invalidIndices
  /-- The exception `std::invalid_argument("Size cannot be negative")`. -/
  | sizeNegative
  /-- The exception `std::invalid_argument("Segment size must be positive")`. -/
  | segmentSizeNotPositive
  /-- Not an exception: the C++ code would have undefined behaviour here. -/
  | undefinedBehaviour
  deriving DecidableEq

/-- The classes of the C++ standard library whose objects the code throws. -/
inductive ExceptionClass where
  /-- The class `std::out_of_range`. -/
  | outOfRange
  /-- The class `std::invalid_argument`. -/
  | invalidArgument
  deriving DecidableEq

/-- The class of the object thrown: what a `catch` clause can tell apart. -/
def Err.exceptionClass : Err → Option ExceptionClass
  | .indexOutOfRange => some .outOfRange
  | .dequeEmpty => some .outOfRange
  | .invalidIndices => some .outOfRange
  | .sizeNegative => some .invalidArgument
  | .segmentSizeNotPositive => some .invalidArgument
  | .undefinedBehaviour => none

/-- Counted loop `for (i = lo; i < lo + n; ++i) s = body(i, s)`, stopping at the first throw. -/
def forUp {σ : Type} : Nat → Int → (Int → σ → Except Err σ) → σ → Except Err σ
  | 0, _, _, s => pure s
  | n + 1, lo, body, s => do
    let s1 ← body lo s
    forUp n (lo + 1) body s1

/-- The loop of `forUp` together with the state it leaves: `none` and the state after the last
iteration, or the exception of the iteration that threw and the state at that point (the
bodies used here throw from a bounds check that precedes their only write, so an iteration
that throws changes nothing). -/
def forUpCall {σ : Type} : Nat → Int → (Int → σ → Except Err σ) → σ → Option Err × σ
  | 0, _, _, s => (none, s)
  | n + 1, lo, body, s =>
    match body lo s with
    | .error e => (some e, s)
    | .ok s1 => forUpCall n (lo + 1) body s1

/-- Counted loop `for (i = hi; i > hi - n; --i) s = body(i, s)`, stopping at the first throw. -/
def forDown {σ : Type} : Nat → Int → (Int → σ → Except Err σ) → σ → Except Err σ
  | 0, _, _, s => pure s
  | n + 1, hi, body, s => do
    let s1 ← body hi s
    forDown n (hi - 1) body s1

/-- Counted loop without exceptions: `for (i = lo; i < lo + n; ++i) s = body(i, s)`. -/
def iterUp {σ : Type} : Nat → Nat → (Nat → σ → σ) → σ → σ
  | 0, _, _, s => s
  | n + 1, lo, body, s => iterUp n (lo + 1) body (body lo s)

/-! ## `DynamicArray` (src/dynamicarray.cpp) -/

/-- Class `DynamicArray<T>`: `data` is the heap buffer (its length is the field `capacity`),
`size` the number of slots in use. -/
structure DynamicArray (T : Type) where
  data : List T
  size : Nat

namespace DynamicArray

variable {T : Type} [Inhabited T]

/-- Field `capacity`: the length of the allocated buffer. -/
def capacity (a : DynamicArray T) : Nat := a.data.length

/-- Method `GetCapacity`. -/
def GetCapacity (a : DynamicArray T) : Int := a.capacity

/-- Method `GetSize`. -/
def GetSize (a : DynamicArray T) : Int := a.size

/-- Default constructor `DynamicArray()`: a buffer `new T[1]`, size 0.  A slot of a fresh
`new T[n]` holds `default` (a default-constructed `T`). -/
def ctor : DynamicArray T := { data := [default], size := 0 }

/-- Method `reallocate`: a fresh buffer of `max new_capacity size` slots that keeps the first
`size` elements; nothing happens when the capacity would not change. -/
def reallocate (a : DynamicArray T) (new_capacity : Int) : DynamicArray T :=
  let nc : Int := if new_capacity < a.size then a.size else new_capacity
  if nc = a.capacity then a
  else
    { data := (List.range nc.toNat).map
        (fun i => if i < a.size then a.data.getD i default else default),
      size := a.size }

/-- Method `Reserve`. -/
def Reserve (a : DynamicArray T) (new_capacity : Int) : DynamicArray T :=
  if new_capacity > a.capacity then a.reallocate new_capacity else a

/-- Method `Resize`: only `size` changes unless the buffer has to grow; the slots between the
old and the new size keep whatever the buffer holds. -/
def Resize (a : DynamicArray T) (new_size : Int) : Except Err (DynamicArray T) :=
  if new_size < 0 then throw Err.sizeNegative
  else
    let a1 := if new_size > a.capacity then a.reallocate (max new_size (a.capacity * 2)) else a
    pure { a1 with size := new_size.toNat }

/-- Method `Get`. -/
def Get (a : DynamicArray T) (index : Int) : Except Err T :=
  if index < 0 ∨ index ≥ a.size then throw Err.indexOutOfRange
  else
    match a.data[index.toNat]? with
    | some v => pure v
    | none => throw Err.undefinedBehaviour

/-- Method `Set`. -/
def Set (a : DynamicArray T) (index : Int) (value : T) : Except Err (DynamicArray T) :=
  if index < 0 ∨ index ≥ a.size then throw Err.indexOutOfRange
  else if index.toNat < a.data.length then
    pure { a with data := a.data.set index.toNat value }
  else throw Err.undefinedBehaviour

/-- Method `Append`: doubles the buffer when it is full, then `data[size++] = item`. -/
def Append (a : DynamicArray T) (item : T) : DynamicArray T :=
  let a1 := if a.size = a.capacity
    then a.reallocate (if a.capacity ≠ 0 then (a.capacity : Int) * 2 else 1) else a
  { data := a1.data.set a1.size item, size := a1.size + 1 }

/-- Body of the inner loop of `SortInPlace`:
`if (!comp(data[j], data[j + 1])) std::swap(data[j], data[j + 1])`. -/
def swapStep (comp : T → T → Bool) (j : Nat) (data : List T) : List T :=
  match data[j]?, data[j + 1]? with
  | some x, some y => if !comp x y then (data.set j y).set (j + 1) x else data
  | _, _ => data

/-- Method `SortInPlace`: the bubble sort
`for i in [0, size) for j in [0, size - i - 1) swapStep`. -/
def SortInPlace (a : DynamicArray T) (comp : T → T → Bool) : DynamicArray T :=
  { a with data :=
      iterUp a.size 0 (fun i data => iterUp (a.size - i - 1) 0 (swapStep comp) data) a.data }

/-- One pass of the bubble sort over the first `n + 1` elements of a list: what `n` successive
calls of `swapStep` at the positions `0, 1, ..., n - 1` compute. -/
def bubble (comp : T → T → Bool) : Nat → List T → List T
  | n + 1, x :: y :: rest =>
    if comp x y then x :: bubble comp n (y :: rest) else y :: bubble comp n (x :: rest)
  | _, l => l

/-- A comparator that is a strict total order: irreflexive, transitive, and any two different
values are comparable. -/
def StrictTotal (comp : T → T → Bool) : Prop :=
  (∀ a, comp a a = false)
    ∧ (∀ a b c, comp a b = true → comp b c = true → comp a c = true)
    ∧ (∀ a b, a ≠ b → comp a b = true ∨ comp b a = true)

/-- The whole bubble sort on a list of `s` elements: the passes `i, i + 1, ...` (`k` of them),
pass `i` being one `bubble` over the first `s - i` elements. -/
def bubbleSort (comp : T → T → Bool) (s : Nat) : Nat → Nat → List T → List T
  | 0, _, l => l
  | k + 1, i, l => bubbleSort comp s k (i + 1) (bubble comp (s - i - 1) l)

/-- Two elements tie under a comparator when it answers alike in both directions: both
`true` for a non-strict comparator such as `<=`, both `false` for a strict one such as `<`. -/
def ties (comp : T → T → Bool) (a b : T) : Bool := comp a b == comp b a

/-- Copy assignment `operator=` for `this != &other`: the old buffer is deleted and a fresh
buffer of `other.capacity` slots receives the first `other.size` elements of `other`. -/
def operatorAssign (_a other : DynamicArray T) : DynamicArray T :=
  { data := (List.range other.capacity).map
      (fun i => if i < other.size then other.data.getD i default else default),
    size := other.size }

/-- The logical content of the array: the first `size` slots of the buffer. -/
def elems (a : DynamicArray T) : List T := a.data.take a.size

/-- Class invariant of `DynamicArray`: the slots in use lie inside the buffer. -/
def WF (a : DynamicArray T) : Prop := a.size ≤ a.data.length

instance (a : DynamicArray T) : Decidable a.WF := by unfold WF; infer_instance

/-- The array on which `Append` stores: the receiver, reallocated when it is full. -/
def grown (a : DynamicArray T) : DynamicArray T :=
  if a.size = a.capacity
    then a.reallocate (if a.capacity ≠ 0 then (a.capacity : Int) * 2 else 1) else a

end DynamicArray

/-! ## `SegmentedDeque` (src/архив/segmdeque — копия2.cpp) -/

/-- Node `Segment`: its buffer `data`; the links `next`/`prev` are the position in the chain. -/
structure Segment (T : Type) where
  data : DynamicArray T

/-- Constructor `Segment(int capacity)`: `data()` followed by `data.Reserve(capacity)`. -/
def Segment.ctor {T : Type} [Inhabited T] (capacity : Int) : Segment T :=
  { data := (DynamicArray.ctor).Reserve capacity }

/-- Class `SegmentedDeque<T>`: the chain from `head` to `tail`, `segmentCapacity` and
`totalSize`. -/
structure SegmentedDeque (T : Type) where
  segs : List (Segment T)
  segmentCapacity : Int
  totalSize : Int

namespace SegmentedDeque

variable {T : Type} [Inhabited T]

/-- Constructor `SegmentedDeque(int segmentSize)`. -/
def ctor (segmentSize : Int) : Except Err (SegmentedDeque T) :=
  if segmentSize ≤ 0 then throw Err.segmentSizeNotPositive
  else pure { segs := [], segmentCapacity := segmentSize, totalSize := 0 }

/-- Method `GetLength`. -/
def GetLength (d : SegmentedDeque T) : Int := d.totalSize

/-- Method `IsEmpty`. -/
def IsEmpty (d : SegmentedDeque T) : Bool := decide (d.totalSize = 0)

/-- Method `ensureCapacity`.  With `totalSize == 0` both `head` and `tail` are pointed at a
fresh segment, whatever the chain was; otherwise a fresh segment is linked after a full tail. -/
def ensureCapacity (d : SegmentedDeque T) : Except Err (SegmentedDeque T) :=
  if d.totalSize = 0 then pure { d with segs := [Segment.ctor d.segmentCapacity] }
  else
    match d.segs.getLast? with
    | none => throw Err.undefinedBehaviour
    | some tail =>
      if tail.data.GetSize < d.segmentCapacity then pure d
      else pure { d with segs := d.segs ++ [Segment.ctor d.segmentCapacity] }

/-- The while loop of `findSegmentAndIndex`: `k` counts the segments already passed. -/
def findLoop : List (Segment T) → Nat → Int → Except Err (Nat × Int)
  | [], _, _ => throw Err.indexOutOfRange
  | current :: rest, k, remaining =>
    let currentSize := current.data.GetSize
    if remaining < currentSize then pure (k, remaining)
    else findLoop rest (k + 1) (remaining - currentSize)

/-- Method `findSegmentAndIndex`: the position of the owning segment and the offset in it. -/
def findSegmentAndIndex (d : SegmentedDeque T) (index : Int) : Except Err (Nat × Int) :=
  if index < 0 ∨ index ≥ d.totalSize then throw Err.indexOutOfRange
  else findLoop d.segs 0 index

/-- Method `Get`. -/
def Get (d : SegmentedDeque T) (index : Int) : Except Err T := do
  let (k, idx) ← d.findSegmentAndIndex index
  match d.segs[k]? with
  | none => throw Err.undefinedBehaviour
  | some segment => segment.data.Get idx

/-- Method `GetFirst`. -/
def GetFirst (d : SegmentedDeque T) : Except Err T :=
  if d.totalSize = 0 then throw Err.dequeEmpty
  else
    match d.segs.head? with
    | none => throw Err.undefinedBehaviour
    | some head => head.data.Get 0

/-- Method `GetLast`. -/
def GetLast (d : SegmentedDeque T) : Except Err T :=
  if d.totalSize = 0 then throw Err.dequeEmpty
  else
    match d.segs.getLast? with
    | none => throw Err.undefinedBehaviour
    | some tail => tail.data.Get (tail.data.GetSize - 1)

/-- Method `AppendInPlace`: `ensureCapacity(); tail->data.Append(item); totalSize++`. -/
def AppendInPlace (d : SegmentedDeque T) (item : T) : Except Err (SegmentedDeque T) := do
  let d1 ← d.ensureCapacity
  match d1.segs.getLast? with
  | none => throw Err.undefinedBehaviour
  | some tail =>
    pure { d1 with
      segs := d1.segs.dropLast ++ [{ data := tail.data.Append item }],
      totalSize := d1.totalSize + 1 }

/-- The block that opens a slot at `idx` and stores `item` there, written out three times in
the source (in `PrependInPlace` with `idx = 0` and twice in `InsertAtInPlace`):
`a.Resize(a.GetSize() + 1); for (i = a.GetSize() - 1; i > idx; --i) a.Set(i, a.Get(i - 1));
a.Set(idx, item)`. -/
def shiftInsert (a : DynamicArray T) (idx : Int) (item : T) : Except Err (DynamicArray T) := do
  let a1 ← a.Resize (a.GetSize + 1)
  let a2 ← forDown (a1.GetSize - 1 - idx).toNat (a1.GetSize - 1)
    (fun i b => do
      let v ← b.Get (i - 1)
      b.Set i v) a1
  a2.Set idx item

/-- Method `PrependInPlace`. -/
def PrependInPlace (d : SegmentedDeque T) (item : T) : Except Err (SegmentedDeque T) :=
  if d.totalSize = 0 then do
    let d1 ← d.ensureCapacity
    match d1.segs with
    | [] => throw Err.undefinedBehaviour
    | head :: rest =>
      pure { d1 with
        segs := { data := head.data.Append item } :: rest,
        totalSize := d1.totalSize + 1 }
  else
    match d.segs with
    | [] => throw Err.undefinedBehaviour
    | head :: rest =>
      if head.data.GetSize < d.segmentCapacity then do
        let data1 ← shiftInsert head.data 0 item
        pure { d with segs := { data := data1 } :: rest, totalSize := d.totalSize + 1 }
      else
        let newSegment : Segment T := Segment.ctor d.segmentCapacity
        pure { d with
          segs := { data := newSegment.data.Append item } :: head :: rest,
          totalSize := d.totalSize + 1 }

/-- Loop `for (i = lo; i < lo + n; ++i) target.Append(source.Get(i))`. -/
def appendRange (source : DynamicArray T) (n : Nat) (lo : Int) (target : DynamicArray T) :
    Except Err (DynamicArray T) :=
  forUp n lo (fun i t => do
    let v ← source.Get i
    pure (t.Append v)) target

/-- Method `InsertAtInPlace`.  In the split branch the new segment is linked right after the
located one; `mid = segmentCapacity / 2` is C++ integer division. -/
def InsertAtInPlace (d : SegmentedDeque T) (item : T) (index : Int) :
    Except Err (SegmentedDeque T) :=
  if index < 0 ∨ index > d.totalSize then throw Err.indexOutOfRange
  else if index = 0 then d.PrependInPlace item
  else if index = d.totalSize then d.AppendInPlace item
  else do
    let (k, idx) ← d.findSegmentAndIndex index
    match d.segs[k]? with
    | none => throw Err.undefinedBehaviour
    | some segment =>
      if segment.data.GetSize < d.segmentCapacity then do
        let data1 ← shiftInsert segment.data idx item
        pure { d with segs := d.segs.set k { data := data1 }, totalSize := d.totalSize + 1 }
      else do
        let newSegment : Segment T := Segment.ctor d.segmentCapacity
        let mid : Int := d.segmentCapacity.tdiv 2
        if idx ≤ mid then do
          let newData ← appendRange segment.data (d.segmentCapacity - mid).toNat mid
            newSegment.data
          let data1 ← segment.data.Resize mid
          let data2 ← shiftInsert data1 idx item
          pure { d with
            segs := d.segs.take k ++ [{ data := data2 }, { data := newData }]
              ++ d.segs.drop (k + 1),
            totalSize := d.totalSize + 1 }
        else do
          let newData1 ← appendRange segment.data (idx - mid).toNat mid newSegment.data
          let newData2 := newData1.Append item
          let newData3 ← appendRange segment.data (d.segmentCapacity - idx).toNat idx newData2
          let data1 ← segment.data.Resize mid
          pure { d with
            segs := d.segs.take k ++ [{ data := data1 }, { data := newData3 }]
              ++ d.segs.drop (k + 1),
            totalSize := d.totalSize + 1 }

/-- The block that closes the gap at `idx`, written out in `PopFront` (with `idx = 0`) and in
`RemoveAt`: `for (i = idx; i < a.GetSize() - 1; ++i) a.Set(i, a.Get(i + 1));
a.Resize(a.GetSize() - 1)`. -/
def shiftRemove (a : DynamicArray T) (idx : Int) : Except Err (DynamicArray T) := do
  let a1 ← forUp (a.GetSize - 1 - idx).toNat idx
    (fun i b => do
      let v ← b.Get (i + 1)
      b.Set i v) a
  a1.Resize (a1.GetSize - 1)

/-- Method `PopFront`: the value removed and the deque after the call. -/
def PopFront (d : SegmentedDeque T) : Except Err (T × SegmentedDeque T) :=
  if d.totalSize = 0 then throw Err.dequeEmpty
  else
    match d.segs with
    | [] => throw Err.undefinedBehaviour
    | head :: rest => do
      let result ← head.data.Get 0
      let data1 ← shiftRemove head.data 0
      let totalSize := d.totalSize - 1
      let segs1 := if data1.GetSize = 0 ∧ rest.isEmpty = false then rest else { data := data1 } :: rest
      let segs2 := if totalSize = 0 then [] else segs1
      pure (result, { d with segs := segs2, totalSize := totalSize })

/-- Method `PopBack`: the value removed and the deque after the call. -/
def PopBack (d : SegmentedDeque T) : Except Err (T × SegmentedDeque T) :=
  if d.totalSize = 0 then throw Err.dequeEmpty
  else
    match d.segs.getLast? with
    | none => throw Err.undefinedBehaviour
    | some tail => do
      let result ← tail.data.Get (tail.data.GetSize - 1)
      let data1 ← tail.data.Resize (tail.data.GetSize - 1)
      let totalSize := d.totalSize - 1
      let front := d.segs.dropLast
      let segs1 := if data1.GetSize = 0 ∧ front.isEmpty = false then front else front ++ [{ data := data1 }]
      let segs2 := if totalSize = 0 then [] else segs1
      pure (result, { d with segs := segs2, totalSize := totalSize })

/-- The call `PopFront()` as the caller sees it: the value returned or the exception thrown,
and the object after the call.  The statements are those of `PopFront`, in order, with the
object followed through them: the check `totalSize == 0` and `head->data.Get(0)` come before
the first assignment, the shifting loop and `Resize` work on the head buffer. -/
def PopFrontCall (d : SegmentedDeque T) : Except Err T × SegmentedDeque T :=
  if d.totalSize = 0 then (throw Err.dequeEmpty, d)
  else
    match d.segs with
    | [] => (throw Err.undefinedBehaviour, d)
    | head :: rest =>
      match head.data.Get 0 with
      | .error e => (.error e, d)
      | .ok result =>
        match forUpCall (head.data.GetSize - 1 - 0).toNat 0
            (fun i b => do
              let v ← b.Get (i + 1)
              b.Set i v) head.data with
        | (some e, a1) => (.error e, { d with segs := { data := a1 } :: rest })
        | (none, a1) =>
          match a1.Resize (a1.GetSize - 1) with
          | .error e => (.error e, { d with segs := { data := a1 } :: rest })
          | .ok data1 =>
            let totalSize := d.totalSize - 1
            let segs1 := if data1.GetSize = 0 ∧ rest.isEmpty = false then rest else { data := data1 } :: rest
            let segs2 := if totalSize = 0 then [] else segs1
            (.ok result, { d with segs := segs2, totalSize := totalSize })

/-- The call `PopBack()` as the caller sees it: the value returned or the exception thrown, and
the object after the call.  The check `totalSize == 0`, `tail->data.Get(size - 1)` and the
check of `Resize` all come before the first assignment. -/
def PopBackCall (d : SegmentedDeque T) : Except Err T × SegmentedDeque T :=
  if d.totalSize = 0 then (throw Err.dequeEmpty, d)
  else
    match d.segs.getLast? with
    | none => (throw Err.undefinedBehaviour, d)
    | some tail =>
      match tail.data.Get (tail.data.GetSize - 1) with
      | .error e => (.error e, d)
      | .ok result =>
        match tail.data.Resize (tail.data.GetSize - 1) with
        | .error e => (.error e, d)
        | .ok data1 =>
          let totalSize := d.totalSize - 1
          let front := d.segs.dropLast
          let segs1 := if data1.GetSize = 0 ∧ front.isEmpty = false then front else front ++ [{ data := data1 }]
          let segs2 := if totalSize = 0 then [] else segs1
          (.ok result, { d with segs := segs2, totalSize := totalSize })

/-- Method `RemoveAt`: the value removed and the deque after the call.  A segment emptied by
the removal is unlinked. -/
def RemoveAt (d : SegmentedDeque T) (index : Int) : Except Err (T × SegmentedDeque T) :=
  if index < 0 ∨ index ≥ d.totalSize then throw Err.indexOutOfRange
  else if index = 0 then d.PopFront
  else if index = d.totalSize - 1 then d.PopBack
  else do
    let (k, idx) ← d.findSegmentAndIndex index
    match d.segs[k]? with
    | none => throw Err.undefinedBehaviour
    | some segment =>
      let result ← segment.data.Get idx
      let data1 ← shiftRemove segment.data idx
      let segs1 := if data1.GetSize = 0 then d.segs.eraseIdx k else d.segs.set k { data := data1 }
      pure (result, { d with segs := segs1, totalSize := d.totalSize - 1 })

/-- Method `Clear`: every node is deleted, `head = tail = nullptr`, `totalSize = 0`. -/
def Clear (d : SegmentedDeque T) : SegmentedDeque T :=
  { d with segs := [], totalSize := 0 }

/-- The while loop of `mergeSegments`; the first node of the argument is `current`.  A merge
appends the successor's elements to `current`, unlinks the successor and stays on `current`. -/
def mergeLoop (segmentCapacity : Int) : List (Segment T) → Except Err (List (Segment T))
  | [] => pure []
  | [current] => pure [current]
  | current :: next :: rest =>
    if current.data.GetSize + next.data.GetSize ≤ segmentCapacity then do
      let data1 ← appendRange next.data next.data.size 0 current.data
      mergeLoop segmentCapacity ({ data := data1 } :: rest)
    else do
      let rest1 ← mergeLoop segmentCapacity (next :: rest)
      pure (current :: rest1)
termination_by l => l.length

/-- Method `mergeSegments`. -/
def mergeSegments (d : SegmentedDeque T) : Except Err (SegmentedDeque T) := do
  let segs1 ← mergeLoop d.segmentCapacity d.segs
  pure { d with segs := segs1 }

/-- Method `Optimize`. -/
def Optimize (d : SegmentedDeque T) : Except Err (SegmentedDeque T) := d.mergeSegments

/-- Method `Reserve`: counts the nodes, then calls `ensureCapacity` once for every missing
segment (`/` is C++ integer division). -/
def Reserve (d : SegmentedDeque T) (expectedSize : Int) : Except Err (SegmentedDeque T) :=
  let segmentsNeeded : Int := (expectedSize + d.segmentCapacity - 1).tdiv d.segmentCapacity
  let currentSegments : Int := d.segs.length
  forUp (segmentsNeeded - currentSegments).toNat currentSegments
    (fun _ s => s.ensureCapacity) d

/-- First loop of `SortInPlace`: every element of every segment is appended to `tempArray`. -/
def collect : List (Segment T) → DynamicArray T → Except Err (DynamicArray T)
  | [], tempArray => pure tempArray
  | current :: rest, tempArray => do
    let temp1 ← appendRange current.data current.data.size 0 tempArray
    collect rest temp1

/-- Inner loop of the redistribution in `SortInPlace`, with `n` iterations of `i` left:
`for (; i < segmentSize && tempIndex < tempArray.GetSize(); ++i)
current->data.Append(tempArray.Get(tempIndex++))`. -/
def refill (tempArray : DynamicArray T) : Nat → DynamicArray T × Int →
    Except Err (DynamicArray T × Int)
  | 0, st => pure st
  | n + 1, (a, tempIndex) =>
    if tempIndex < tempArray.GetSize then do
      let v ← tempArray.Get tempIndex
      refill tempArray n (a.Append v, tempIndex + 1)
    else pure (a, tempIndex)

/-- Outer loop of the redistribution in `SortInPlace`:
`while (current != nullptr && tempIndex < tempArray.GetSize())`; every segment visited is
emptied with `Resize(0)` and filled again up to its old size. -/
def redistribute (tempArray : DynamicArray T) : List (Segment T) → Int →
    Except Err (List (Segment T))
  | [], _ => pure []
  | current :: rest, tempIndex =>
    if tempIndex < tempArray.GetSize then do
      let segmentSize := current.data.GetSize
      let data0 ← current.data.Resize 0
      let (data1, tempIndex1) ← refill tempArray segmentSize.toNat (data0, tempIndex)
      let rest1 ← redistribute tempArray rest tempIndex1
      pure ({ data := data1 } :: rest1)
    else pure (current :: rest)

/-- Method `SortInPlace`. -/
def SortInPlace (d : SegmentedDeque T) (comparator : T → T → Bool) :
    Except Err (SegmentedDeque T) :=
  if d.totalSize ≤ 1 then pure d
  else do
    let tempArray ← collect d.segs DynamicArray.ctor
    let sorted := tempArray.SortInPlace comparator
    let segs1 ← redistribute sorted d.segs 0
    pure { d with segs := segs1 }

/-- The copy loop shared by the copy constructor and `operator=`: every element of every
segment of the donor chain is passed to `AppendInPlace` of the receiver. -/
def copyLoop : List (Segment T) → SegmentedDeque T → Except Err (SegmentedDeque T)
  | [], d => pure d
  | current :: rest, d => do
    let d1 ← forUp current.data.size 0 (fun i s => do
      let v ← current.data.Get i
      s.AppendInPlace v) d
    copyLoop rest d1

/-- Copy constructor `SegmentedDeque(const SegmentedDeque&)`. -/
def copyCtor (other : SegmentedDeque T) : Except Err (SegmentedDeque T) :=
  copyLoop other.segs { segs := [], segmentCapacity := other.segmentCapacity, totalSize := 0 }

/-- Method `operator=` for `this != &other` (self-assignment returns at once and changes
nothing): `Clear(); segmentCapacity = other.segmentCapacity;` and the copy loop. -/
def operatorAssign (d other : SegmentedDeque T) : Except Err (SegmentedDeque T) :=
  copyLoop other.segs { d.Clear with segmentCapacity := other.segmentCapacity }

/-- Method `GetSubsequence` (inclusive bounds): a new deque of the same `segmentCapacity` that
receives `Get(i)` for `i = startIndex, ..., endIndex` through `AppendInPlace`. -/
def GetSubsequence (d : SegmentedDeque T) (startIndex endIndex : Int) :
    Except Err (SegmentedDeque T) :=
  if startIndex < 0 ∨ endIndex ≥ d.totalSize ∨ startIndex > endIndex then
    throw Err.invalidIndices
  else do
    let subseq ← SegmentedDeque.ctor d.segmentCapacity
    forUp (endIndex - startIndex + 1).toNat startIndex (fun i s => do
      let v ← d.Get i
      s.AppendInPlace v) subseq

/-- Interface `Sequence<T>` as the deque uses it on an argument (`ContainsSubsequence`,
`Concat`): the virtual methods `GetLength` and `Get`. -/
structure Sequence (T : Type) where
  GetLength : Int
  Get : Int → Except Err T

/-- A deque seen through the interface `Sequence<T>`. -/
def toSequence (d : SegmentedDeque T) : Sequence T :=
  { GetLength := d.GetLength, Get := d.Get }

/-- Inner loop of `ContainsSubsequence` at the start offset `i`, with `n` values of `j` left:
`if (Get(i + j) != subseq.Get(j)) { match = false; break; }`; the result is `match`. -/
def matchLoop [DecidableEq T] (d : SegmentedDeque T) (subseq : Sequence T) (i : Int) :
    Nat → Int → Except Err Bool
  | 0, _ => pure true
  | n + 1, j => do
    let a ← d.Get (i + j)
    let b ← subseq.Get j
    if a ≠ b then pure false else matchLoop d subseq i n (j + 1)

/-- Outer loop of `ContainsSubsequence`, with `n` start offsets left: returns `true` at the
first offset where the inner loop ends with `match == true`, and `false` after the last. -/
def searchLoop [DecidableEq T] (d : SegmentedDeque T) (subseq : Sequence T) :
    Nat → Int → Except Err Bool
  | 0, _ => pure false
  | n + 1, i => do
    let m ← matchLoop d subseq i subseq.GetLength.toNat 0
    if m then pure true else searchLoop d subseq n (i + 1)

/-- Method `ContainsSubsequence`. -/
def ContainsSubsequence [DecidableEq T] (d : SegmentedDeque T) (subseq : Sequence T) :
    Except Err Bool :=
  if subseq.GetLength = 0 then pure true
  else if subseq.GetLength > d.totalSize then pure false
  else searchLoop d subseq (d.totalSize - subseq.GetLength + 1).toNat 0

/-- Method `Append` (copy-returning): `new SegmentedDeque<T>(*this)` and `AppendInPlace` on
the copy. -/
def Append (d : SegmentedDeque T) (item : T) : Except Err (SegmentedDeque T) := do
  let newDeque ← copyCtor d
  newDeque.AppendInPlace item

/-- Method `Prepend` (copy-returning). -/
def Prepend (d : SegmentedDeque T) (item : T) : Except Err (SegmentedDeque T) := do
  let newDeque ← copyCtor d
  newDeque.PrependInPlace item

/-- Method `InsertAt` (copy-returning). -/
def InsertAt (d : SegmentedDeque T) (item : T) (index : Int) :
    Except Err (SegmentedDeque T) := do
  let newDeque ← copyCtor d
  newDeque.InsertAtInPlace item index

/-- Method `Concat`: a copy of the receiver that then receives `other->Get(i)` for
`i = 0, ..., other->GetLength() - 1` through `AppendInPlace`. -/
def Concat (d : SegmentedDeque T) (other : Sequence T) : Except Err (SegmentedDeque T) := do
  let newDeque ← copyCtor d
  forUp other.GetLength.toNat 0 (fun i s => do
    let v ← other.Get i
    s.AppendInPlace v) newDeque

/-- The loops of `Map`: `newDeque->AppendInPlace(mapper(current->data.Get(i)))` for every
element of every segment. -/
def mapLoop (mapper : T → T) :
    List (Segment T) → SegmentedDeque T → Except Err (SegmentedDeque T)
  | [], newDeque => pure newDeque
  | current :: rest, newDeque => do
    let d1 ← forUp current.data.size 0 (fun i s => do
      let v ← current.data.Get i
      s.AppendInPlace (mapper v)) newDeque
    mapLoop mapper rest d1

/-- Method `Map`. -/
def Map (d : SegmentedDeque T) (mapper : T → T) : Except Err (SegmentedDeque T) := do
  let newDeque ← SegmentedDeque.ctor d.segmentCapacity
  mapLoop mapper d.segs newDeque

/-- The loops of `Where`: `T item = current->data.Get(i); if (predicate(item))
newDeque->AppendInPlace(item);` for every element of every segment. -/
def whereLoop (predicate : T → Bool) :
    List (Segment T) → SegmentedDeque T → Except Err (SegmentedDeque T)
  | [], newDeque => pure newDeque
  | current :: rest, newDeque => do
    let d1 ← forUp current.data.size 0 (fun i s => do
      let item ← current.data.Get i
      if predicate item then s.AppendInPlace item else pure s) newDeque
    whereLoop predicate rest d1

/-- Method `Where`. -/
def Where (d : SegmentedDeque T) (predicate : T → Bool) : Except Err (SegmentedDeque T) := do
  let newDeque ← SegmentedDeque.ctor d.segmentCapacity
  whereLoop predicate d.segs newDeque

/-- The loops of `Reduce`: `result = reducer(result, current->data.Get(i))` for every element
of every segment. -/
def reduceLoop (reducer : T → T → T) : List (Segment T) → T → Except Err T
  | [], result => pure result
  | current :: rest, result => do
    let r1 ← forUp current.data.size 0 (fun i acc => do
      let v ← current.data.Get i
      pure (reducer acc v)) result
    reduceLoop reducer rest r1

/-- Method `Reduce`. -/
def Reduce (d : SegmentedDeque T) (reducer : T → T → T) (initial : T) : Except Err T :=
  reduceLoop reducer d.segs initial

/-! ### The basic variant (src/segmdeque.cpp)

The class has the same fields; `ensureCapacity`, `findSegmentAndIndex`, the constructor, `Get`,
`GetLength`, `AppendInPlace` and `Clear` have the same text in both files and are the
definitions above.  `PrependInPlace`, `InsertAtInPlace` and `SortInPlace` differ. -/

namespace Basic

/-- Method `ensureCapacityFront`. -/
def ensureCapacityFront (d : SegmentedDeque T) : Except Err (SegmentedDeque T) :=
  if d.totalSize = 0 then pure { d with segs := [Segment.ctor d.segmentCapacity] }
  else
    match d.segs with
    | [] => throw Err.undefinedBehaviour
    | head :: rest =>
      if head.data.GetSize < d.segmentCapacity then pure d
      else pure { d with segs := Segment.ctor d.segmentCapacity :: head :: rest }

/-- Method `PrependInPlace` of the basic variant: an empty head takes the item by `Append`;
otherwise the head buffer is rebuilt in `newData` (the item, then the old elements) and
assigned back. -/
def PrependInPlace (d : SegmentedDeque T) (item : T) : Except Err (SegmentedDeque T) := do
  let d1 ← ensureCapacityFront d
  match d1.segs with
  | [] => throw Err.undefinedBehaviour
  | head :: rest =>
    if head.data.GetSize = 0 then
      pure { d1 with
        segs := { data := head.data.Append item } :: rest,
        totalSize := d1.totalSize + 1 }
    else do
      let newData0 : DynamicArray T := (DynamicArray.ctor).Append item
      let newData ← appendRange head.data head.data.size 0 newData0
      pure { d1 with
        segs := { data := head.data.operatorAssign newData } :: rest,
        totalSize := d1.totalSize + 1 }

/-- Method `InsertAtInPlace` of the basic variant (it has no range check of its own).  A full
segment is split at the insertion offset: the elements before it and the item stay, the
elements from it on go to the new segment linked right after. -/
def InsertAtInPlace (d : SegmentedDeque T) (item : T) (index : Int) :
    Except Err (SegmentedDeque T) :=
  if index = 0 then Basic.PrependInPlace d item
  else if index = d.totalSize then d.AppendInPlace item
  else do
    let (k, idx) ← d.findSegmentAndIndex index
    match d.segs[k]? with
    | none => throw Err.undefinedBehaviour
    | some segment =>
      if segment.data.GetSize < d.segmentCapacity then do
        let newData0 ← appendRange segment.data idx.toNat 0 DynamicArray.ctor
        let newData1 := newData0.Append item
        let newData ← appendRange segment.data (segment.data.GetSize - idx).toNat idx newData1
        pure { d with
          segs := d.segs.set k { data := segment.data.operatorAssign newData },
          totalSize := d.totalSize + 1 }
      else do
        let newSegment : Segment T := Segment.ctor d.segmentCapacity
        let newData0 ← appendRange segment.data idx.toNat 0 DynamicArray.ctor
        let newData1 := newData0.Append item
        let newData2 ← appendRange segment.data (segment.data.GetSize - idx).toNat idx
          DynamicArray.ctor
        pure { d with
          segs := d.segs.take k
            ++ [{ data := segment.data.operatorAssign newData1 },
                { data := newSegment.data.operatorAssign newData2 }]
            ++ d.segs.drop (k + 1),
          totalSize := d.totalSize + 1 }

/-- Method `SortInPlace` of the basic variant: collect, sort, `Clear()`, and `AppendInPlace`
of every element of the sorted array. -/
def SortInPlace (d : SegmentedDeque T) (comparator : T → T → Bool) :
    Except Err (SegmentedDeque T) := do
  let tempArray ← collect d.segs DynamicArray.ctor
  let sorted := tempArray.SortInPlace comparator
  forUp sorted.size 0 (fun i s => do
    let v ← sorted.Get i
    s.AppendInPlace v) d.Clear

end Basic

/-- A call of one of the four mutating methods that both variants have. -/
inductive Op (T : Type) where
  | appendInPlace (item : T)
  | prependInPlace (item : T)
  | insertAtInPlace (item : T) (index : Int)
  | sortInPlace (comparator : T → T → Bool)

/-- Test driver: the calls `ops`, in order, on a deque of the richer variant. -/
def runRich : List (Op T) → SegmentedDeque T → Except Err (SegmentedDeque T)
  | [], d => pure d
  | .appendInPlace item :: rest, d => do
    let d1 ← d.AppendInPlace item
    runRich rest d1
  | .prependInPlace item :: rest, d => do
    let d1 ← d.PrependInPlace item
    runRich rest d1
  | .insertAtInPlace item index :: rest, d => do
    let d1 ← d.InsertAtInPlace item index
    runRich rest d1
  | .sortInPlace comparator :: rest, d => do
    let d1 ← d.SortInPlace comparator
    runRich rest d1

/-- Test driver: the calls `ops`, in order, on a deque of the basic variant. -/
def runBasic : List (Op T) → SegmentedDeque T → Except Err (SegmentedDeque T)
  | [], d => pure d
  | .appendInPlace item :: rest, d => do
    let d1 ← d.AppendInPlace item
    runBasic rest d1
  | .prependInPlace item :: rest, d => do
    let d1 ← Basic.PrependInPlace d item
    runBasic rest d1
  | .insertAtInPlace item index :: rest, d => do
    let d1 ← Basic.InsertAtInPlace d item index
    runBasic rest d1
  | .sortInPlace comparator :: rest, d => do
    let d1 ← Basic.SortInPlace d comparator
    runBasic rest d1

/-- Every `insertAtInPlace` of `ops` has `0 <= index <= length` for the length the deque has
at that call, when it has `n` elements before the first call. -/
def OpsValid : Int → List (Op T) → Prop
  | _, [] => True
  | n, .appendInPlace _ :: rest => OpsValid (n + 1) rest
  | n, .prependInPlace _ :: rest => OpsValid (n + 1) rest
  | n, .insertAtInPlace _ index :: rest => 0 ≤ index ∧ index ≤ n ∧ OpsValid (n + 1) rest
  | n, .sortInPlace _ :: rest => OpsValid n rest

/-- States reached from a freshly constructed deque by successful calls of the public
mutating operations; the donor of an assignment is itself such a state.  The flag tells
whether `Reserve` is among the operations allowed. -/
inductive ReachableBy (withReserve : Bool) : SegmentedDeque T → Prop
  | ctor (segmentSize : Int) (d : SegmentedDeque T) :
      SegmentedDeque.ctor segmentSize = .ok d → ReachableBy withReserve d
  | appendInPlace (d d1 : SegmentedDeque T) (item : T) :
      ReachableBy withReserve d → d.AppendInPlace item = .ok d1 → ReachableBy withReserve d1
  | prependInPlace (d d1 : SegmentedDeque T) (item : T) :
      ReachableBy withReserve d → d.PrependInPlace item = .ok d1 → ReachableBy withReserve d1
  | insertAtInPlace (d d1 : SegmentedDeque T) (item : T) (index : Int) :
      ReachableBy withReserve d → d.InsertAtInPlace item index = .ok d1 →
      ReachableBy withReserve d1
  | popFront (d d1 : SegmentedDeque T) (v : T) :
      ReachableBy withReserve d → d.PopFront = .ok (v, d1) → ReachableBy withReserve d1
  | popBack (d d1 : SegmentedDeque T) (v : T) :
      ReachableBy withReserve d → d.PopBack = .ok (v, d1) → ReachableBy withReserve d1
  | removeAt (d d1 : SegmentedDeque T) (index : Int) (v : T) :
      ReachableBy withReserve d → d.RemoveAt index = .ok (v, d1) → ReachableBy withReserve d1
  | clear (d : SegmentedDeque T) : ReachableBy withReserve d → ReachableBy withReserve d.Clear
  | optimize (d d1 : SegmentedDeque T) :
      ReachableBy withReserve d → d.Optimize = .ok d1 → ReachableBy withReserve d1
  | reserve (d d1 : SegmentedDeque T) (expectedSize : Int) :
      withReserve = true → ReachableBy withReserve d → d.Reserve expectedSize = .ok d1 →
      ReachableBy withReserve d1
  | sortInPlace (d d1 : SegmentedDeque T) (comparator : T → T → Bool) :
      ReachableBy withReserve d → d.SortInPlace comparator = .ok d1 →
      ReachableBy withReserve d1
  | assign (d other d1 : SegmentedDeque T) :
      ReachableBy withReserve d → ReachableBy withReserve other →
      d.operatorAssign other = .ok d1 → ReachableBy withReserve d1

/-- States reachable from a freshly constructed deque by the public mutating operations
`AppendInPlace`, `PrependInPlace`, `InsertAtInPlace`, `PopFront`, `PopBack`, `RemoveAt`, `Clear`,
`Optimize`, `Reserve`, `SortInPlace` and assignment. -/
def Reachable (d : SegmentedDeque T) : Prop := ReachableBy true d

/-- The contents of the segments, head first. -/
def layout (d : SegmentedDeque T) : List (List T) := d.segs.map (fun s => s.data.elems)

/-- The element sequence: the concatenation of the segment buffers from head to tail. -/
def toList (d : SegmentedDeque T) : List T := d.layout.flatten

/-- Sum of the sizes of the segments on the chain. -/
def sizeSum (segs : List (Segment T)) : Nat := (segs.map (fun s => s.data.size)).sum

/-- The concatenation of the buffers of a chain. -/
def flat (segs : List (Segment T)) : List T := (segs.map (fun s => s.data.elems)).flatten

/-- Every buffer of the chain is a valid `DynamicArray` holding at most `cap` elements. -/
def SegsOK (cap : Int) (segs : List (Segment T)) : Prop :=
  ∀ s ∈ segs, s.data.WF ∧ (s.data.size : Int) ≤ cap

/-- Structural invariant of a deque: a positive `segmentCapacity`, `totalSize` equal to the sum
of the segment sizes, valid buffers within capacity. -/
def Inv (d : SegmentedDeque T) : Prop :=
  1 ≤ d.segmentCapacity ∧ d.totalSize = sizeSum d.segs ∧ SegsOK d.segmentCapacity d.segs

/-- Every segment of the chain holds at least one element. -/
def AllNonEmpty (segs : List (Segment T)) : Prop := ∀ s ∈ segs, 0 < s.data.size

/-- Every segment of the chain other than the last holds at least one element. -/
def FrontNonEmpty (segs : List (Segment T)) : Prop := ∀ s ∈ segs.dropLast, 0 < s.data.size

/-- What every mutating operation keeps when it takes `d` to `d1`: the structural invariant
and the two occupancy properties. -/
def Keeps (d d1 : SegmentedDeque T) : Prop :=
  d1.Inv ∧ (FrontNonEmpty d.segs → FrontNonEmpty d1.segs)
    ∧ (AllNonEmpty d.segs → AllNonEmpty d1.segs)

instance (cap : Int) (segs : List (Segment T)) : Decidable (SegsOK cap segs) := by
  unfold SegsOK; infer_instance

instance (d : SegmentedDeque T) : Decidable d.Inv := by unfold Inv; infer_instance

/-- No two neighbouring segments of the chain fit together in one segment. -/
def NoMerge (cap : Int) : List (Segment T) → Prop
  | a :: b :: rest => cap < a.data.GetSize + b.data.GetSize ∧ NoMerge cap (b :: rest)
  | _ => True

/-- Every segment of the chain other than the last holds exactly `cap` elements. -/
def FullFront (cap : Int) (segs : List (Segment T)) : Prop :=
  ∀ s ∈ segs.dropLast, s.data.GetSize = cap

/-- Test driver: `AppendInPlace` of every element of `xs`, in order. -/
def appendAll (d : SegmentedDeque T) : List T → Except Err (SegmentedDeque T)
  | [] => pure d
  | x :: xs => do
    let d1 ← d.AppendInPlace x
    appendAll d1 xs

/-- Test driver: `n` calls of `PopFront`; the values returned, in the order of the calls. -/
def popFrontN : Nat → SegmentedDeque T → Except Err (List T × SegmentedDeque T)
  | 0, d => pure ([], d)
  | n + 1, d => do
    let (v, d1) ← d.PopFront
    let (vs, d2) ← popFrontN n d1
    pure (v :: vs, d2)

/-- The deque `SegmentedDeque<int> dq(3)` right after construction. -/
def stateNew3 : SegmentedDeque Int := { segs := [], segmentCapacity := 3, totalSize := 0 }

/-- The deque of capacity 3 after `AppendInPlace` of 1, 2, 3, 4, 5: segments `[1,2,3]`, `[4,5]`. -/
def stateFive : SegmentedDeque Int :=
  { segs := [{ data := { data := [1, 2, 3], size := 3 } },
             { data := { data := [4, 5, 0], size := 2 } }],
    segmentCapacity := 3, totalSize := 5 }

/-- The deque of capacity 3 after `AppendInPlace` of 1, 2, 3: one full segment. -/
def stateFull : SegmentedDeque Int :=
  { segs := [{ data := { data := [1, 2, 3], size := 3 } }],
    segmentCapacity := 3, totalSize := 3 }

/-- The deque `stateFull` after `Reserve(4)`: an empty segment follows the full one. -/
def stateFullReserved : SegmentedDeque Int :=
  { segs := [{ data := { data := [1, 2, 3], size := 3 } },
             { data := { data := [0, 0, 0], size := 0 } }],
    segmentCapacity := 3, totalSize := 3 }

/-- The deque of capacity 3 after `Reserve(1)` on the new deque: one empty segment. -/
def stateNewReserved : SegmentedDeque Int :=
  { segs := [{ data := { data := [0, 0, 0], size := 0 } }],
    segmentCapacity := 3, totalSize := 0 }

/-- The deque of capacity 3 after `AppendInPlace` of 1, 2, ..., 10 (the state of `main` before
`Reserve(20)`): segments `[1,2,3]`, `[4,5,6]`, `[7,8,9]`, `[10]`. -/
def stateTen : SegmentedDeque Int :=
  { segs := [{ data := { data := [1, 2, 3], size := 3 } },
             { data := { data := [4, 5, 6], size := 3 } },
             { data := { data := [7, 8, 9], size := 3 } },
             { data := { data := [10, 0, 0], size := 1 } }],
    segmentCapacity := 3, totalSize := 10 }

/-- The deque `d` of `main`: capacity 3 after `AppendInPlace` of 9, 8, ..., 0. -/
def stateDesc : SegmentedDeque Int :=
  { segs := [{ data := { data := [9, 8, 7], size := 3 } },
             { data := { data := [6, 5, 4], size := 3 } },
             { data := { data := [3, 2, 1], size := 3 } },
             { data := { data := [0, 0, 0], size := 1 } }],
    segmentCapacity := 3, totalSize := 10 }

/-- The comparator `a < b` on `int`, the default of `SortInPlace`. -/
def intLess (a b : Int) : Bool := decide (a < b)

/-- The sequence 9, 8, 7 (`sub1` of `main`), here held in a deque of capacity 3. -/
def patternNineEightSeven : Sequence Int :=
  toSequence { segs := [{ data := { data := [9, 8, 7], size := 3 } }],
               segmentCapacity := 3, totalSize := 3 }

/-- The deque `SegmentedDeque<int> dq2(2)` right after construction. -/
def stateNew2 : SegmentedDeque Int := { segs := [], segmentCapacity := 2, totalSize := 0 }

/-- The deque `dq2` of `main`: capacity 2 after `AppendInPlace` of 20, 21, 22. -/
def stateTwenty : SegmentedDeque Int :=
  { segs := [{ data := { data := [20, 21], size := 2 } },
             { data := { data := [22, 0], size := 1 } }],
    segmentCapacity := 2, totalSize := 3 }

/-- The deque `stateFive` after `PopFront`: capacity 3, segments `[2,3]`, `[4,5]`. -/
def stateSparse : SegmentedDeque Int :=
  { segs := [{ data := { data := [2, 3, 3], size := 2 } },
             { data := { data := [4, 5, 0], size := 2 } }],
    segmentCapacity := 3, totalSize := 4 }

/-- The deque `stateTen` after `RemoveAt(2)`, `RemoveAt(4)`, `RemoveAt(6)` (the state of `main`
before `Optimize`): capacity 3, segments `[1,2]`, `[4,5]`, `[7,8]`, `[10]`. -/
def stateGaps : SegmentedDeque Int :=
  { segs := [{ data := { data := [1, 2, 3], size := 2 } },
             { data := { data := [4, 5, 6], size := 2 } },
             { data := { data := [7, 8, 9], size := 2 } },
             { data := { data := [10, 0, 0], size := 1 } }],
    segmentCapacity := 3, totalSize := 7 }

/-- A deque of (key, tag) pairs of capacity 2: segments `[(2,0),(1,1)]`, `[(1,2)]`. -/
def statePairs : SegmentedDeque (Int × Int) :=
  { segs := [{ data := { data := [(2, 0), (1, 1)], size := 2 } },
             { data := { data := [(1, 2), (0, 0)], size := 1 } }],
    segmentCapacity := 2, totalSize := 3 }

/-- The comparator `a.key <= b.key` on pairs. -/
def pairLeq (a b : Int × Int) : Bool := decide (a.1 ≤ b.1)

/-- The calls `AppendInPlace(1)`, `AppendInPlace(2)`, `AppendInPlace(3)`,
`InsertAtInPlace(10, 2)`, `PrependInPlace(7)`, `SortInPlace()`. -/
def opsDemo : List (Op Int) :=
  [.appendInPlace 1, .appendInPlace 2, .appendInPlace 3, .insertAtInPlace 10 2,
   .prependInPlace 7, .sortInPlace intLess]

/-- The deque `SegmentedDeque<int> dq(1)` right after construction. -/
def stateNew1 : SegmentedDeque Int := { segs := [], segmentCapacity := 1, totalSize := 0 }

/-- The deque of capacity 1 after `AppendInPlace(1)`. -/
def stateOne : SegmentedDeque Int :=
  { segs := [{ data := { data := [1], size := 1 } }], segmentCapacity := 1, totalSize := 1 }

/-- The deque `stateOne` after `Reserve(2)`: segments `[1]` and `[]`. -/
def stateOneReserved : SegmentedDeque Int :=
  { segs := [{ data := { data := [1], size := 1 } }, { data := { data := [0], size := 0 } }],
    segmentCapacity := 1, totalSize := 1 }

end SegmentedDeque

end Lab

/-! ## Theorems -/

set_option linter.unusedSectionVars false

namespace Lab
namespace DynamicArray
variable {T : Type} [Inhabited T]

theorem elems_length {a : DynamicArray T} (h : a.WF) : a.elems.length = a.size := by
  unfold elems WF at *; simp; omega

theorem reallocate_eq (a : DynamicArray T) (nc : Int) :
    a.reallocate nc = if max nc (a.size : Int) = a.data.length then a else
      { data := (List.range (max nc (a.size : Int)).toNat).map
          (fun i => if i < a.size then a.data.getD i default else default),
        size := a.size } := by
  unfold reallocate capacity
  by_cases h : nc < (a.size : Int)
  · have : max nc (a.size : Int) = a.size := by omega
    simp only [h, this, if_true]
  · have : max nc (a.size : Int) = nc := by omega
    simp only [h, this, if_false]

theorem reallocate_size (a : DynamicArray T) (nc : Int) : (a.reallocate nc).size = a.size := by
  rw [reallocate_eq]; split <;> rfl

theorem reallocate_capacity (a : DynamicArray T) (nc : Int) :
    ((a.reallocate nc).data.length : Int) = max nc a.size := by
  rw [reallocate_eq]
  split
  · omega
  · simp

theorem reallocate_WF (a : DynamicArray T) (nc : Int) : (a.reallocate nc).WF := by
  have h1 := reallocate_capacity a nc
  have h2 := reallocate_size a nc
  unfold WF at *; omega

theorem reallocate_elems (a : DynamicArray T) (nc : Int) (h : a.WF) :
    (a.reallocate nc).elems = a.elems := by
  rw [reallocate_eq]
  split
  · rfl
  · apply List.ext_getElem?
    intro i
    unfold elems WF at *
    simp only [List.getElem?_take]
    split
    · rename_i hi
      have hlen : i < (max nc (a.size : Int)).toNat := by omega
      simp [List.getElem?_map, List.getElem?_range, hlen, hi]
      rw [List.getElem?_eq_getElem (by omega)]
      simp
    · rfl

theorem Append_eq (a : DynamicArray T) (x : T) :
    a.Append x = { data := a.grown.data.set a.grown.size x, size := a.grown.size + 1 } := rfl

theorem grown_size (a : DynamicArray T) : a.grown.size = a.size := by
  unfold grown; split <;> simp [reallocate_size]

theorem grown_elems (a : DynamicArray T) (h : a.WF) : a.grown.elems = a.elems := by
  unfold grown; split <;> simp [reallocate_elems, h]

theorem grown_room (a : DynamicArray T) (h : a.WF) : a.grown.size < a.grown.data.length := by
  unfold grown WF capacity at *
  split
  · rename_i he
    by_cases h0 : a.data.length = 0
    · have h1 := reallocate_capacity a 1
      have h2 := reallocate_size a 1
      simp only [h0, ne_eq, not_true_eq_false, if_false]
      omega
    · have h1 := reallocate_capacity a ((a.data.length : Int) * 2)
      have h2 := reallocate_size a ((a.data.length : Int) * 2)
      simp only [h0, ne_eq, not_false_eq_true, if_true]
      omega
  · omega

theorem Append_size (a : DynamicArray T) (x : T) : (a.Append x).size = a.size + 1 := by
  rw [Append_eq]; simp [grown_size]

theorem Append_WF (a : DynamicArray T) (x : T) (h : a.WF) : (a.Append x).WF := by
  have := grown_room a h
  rw [Append_eq]; unfold WF; simp only [List.length_set]; omega

theorem Append_elems (a : DynamicArray T) (x : T) (h : a.WF) :
    (a.Append x).elems = a.elems ++ [x] := by
  have hbl := grown_room a h
  rw [Append_eq, ← grown_elems a h]
  generalize a.grown = b at *
  unfold elems
  apply List.ext_getElem?
  intro i
  simp only [List.getElem?_take, List.getElem?_append, List.getElem?_set, List.length_take]
  have : min b.size b.data.length = b.size := by omega
  rw [this]
  by_cases h1 : i < b.size
  · have : i < b.size + 1 := by omega
    have : ¬ b.size = i := by omega
    simp [*]
  · by_cases h2 : i = b.size
    · subst h2; simp [hbl]
    · have : ¬ i < b.size + 1 := by omega
      have : ¬ b.size = i := by omega
      have : i - b.size ≠ 0 := by omega
      simp [*]
      omega

theorem ctor_elems : (ctor : DynamicArray T).elems = [] := rfl

theorem ctor_WF : (ctor : DynamicArray T).WF := by unfold WF ctor; simp

theorem Reserve_size (a : DynamicArray T) (n : Int) : (a.Reserve n).size = a.size := by
  unfold Reserve; split <;> simp [reallocate_size]

theorem Reserve_WF (a : DynamicArray T) (n : Int) (h : a.WF) : (a.Reserve n).WF := by
  unfold Reserve; split
  · exact reallocate_WF a n
  · exact h

theorem Reserve_elems (a : DynamicArray T) (n : Int) (h : a.WF) :
    (a.Reserve n).elems = a.elems := by
  unfold Reserve; split
  · exact reallocate_elems a n h
  · rfl

theorem Get_ok (a : DynamicArray T) (n : Nat) (v : T)
    (hv : a.elems[n]? = some v) : a.Get (n : Int) = .ok v := by
  unfold elems at hv
  rw [List.getElem?_take] at hv
  split at hv
  · rename_i hn
    unfold Get
    have : ¬ ((n : Int) < 0 ∨ (n : Int) ≥ a.size) := by omega
    simp only [this, if_false, Int.toNat_ofNat, hv]
    rfl
  · simp at hv

theorem Get_out_of_range (a : DynamicArray T) (i : Int) (h : i < 0 ∨ (a.size : Int) ≤ i) :
    a.Get i = .error Err.indexOutOfRange := by
  unfold Get
  have : i < 0 ∨ i ≥ (a.size : Int) := by omega
  simp only [this, if_true]
  rfl

theorem Set_ok (a : DynamicArray T) (h : a.WF) (n : Nat) (v : T) (hn : n < a.size) :
    ∃ b, a.Set (n : Int) v = .ok b ∧ b.WF ∧ b.size = a.size ∧ b.elems = a.elems.set n v := by
  unfold WF at h
  refine ⟨{ a with data := a.data.set n v }, ?_, ?_, rfl, ?_⟩
  · unfold Set
    have : ¬ ((n : Int) < 0 ∨ (n : Int) ≥ a.size) := by omega
    have h2 : n < a.data.length := by omega
    simp only [this, if_false, Int.toNat_ofNat, h2, if_true]
    rfl
  · unfold WF; simp; omega
  · unfold elems
    apply List.ext_getElem?
    intro i
    simp only [List.getElem?_take, List.getElem?_set, List.length_take]
    by_cases h1 : i < a.size
    · by_cases h2 : n = i
      · subst h2
        have : n < min a.size a.data.length := by omega
        have : n < a.data.length := by omega
        simp [*]
      · simp [*]
    · have : ¬ n = i := by omega
      simp [*]

theorem Resize_shrink (a : DynamicArray T) (h : a.WF) (m : Nat) (hm : m ≤ a.size) :
    ∃ b, a.Resize (m : Int) = .ok b ∧ b.WF ∧ b.size = m ∧ b.elems = a.elems.take m := by
  unfold WF at h
  refine ⟨{ a with size := m }, ?_, ?_, rfl, ?_⟩
  · unfold Resize capacity
    have h1 : ¬ ((m : Int) < 0) := by omega
    have h2 : ¬ ((m : Int) > (a.data.length : Int)) := by omega
    simp only [h1, h2, if_false, Int.toNat_ofNat]
    rfl
  · unfold WF; simp only; omega
  · unfold elems
    simp only [List.take_take]
    congr 1
    omega

theorem Resize_grow (a : DynamicArray T) (h : a.WF) :
    ∃ b z, a.Resize (a.GetSize + 1) = .ok b ∧ b.WF ∧ b.size = a.size + 1
      ∧ b.elems = a.elems ++ [z] := by
  unfold GetSize
  have hn : ((a.size : Int) + 1).toNat = a.size + 1 := by omega
  have h1 : ¬ ((a.size : Int) + 1 < 0) := by omega
  by_cases hc : ((a.size : Int) + 1) > a.capacity
  · obtain ⟨r, hr⟩ : ∃ r, r = a.reallocate (max ((a.size : Int) + 1) ((a.capacity : Int) * 2)) :=
      ⟨_, rfl⟩
    have hs := reallocate_size a (max ((a.size : Int) + 1) ((a.capacity : Int) * 2))
    have hcap := reallocate_capacity a (max ((a.size : Int) + 1) ((a.capacity : Int) * 2))
    have he := reallocate_elems a (max ((a.size : Int) + 1) ((a.capacity : Int) * 2)) h
    rw [← hr] at hs hcap he
    have hlt : a.size < r.data.length := by omega
    refine ⟨{ r with size := a.size + 1 }, r.data[a.size]?.getD default, ?_, ?_, rfl, ?_⟩
    · unfold Resize
      simp only [h1, hc, if_false, if_true, ← hr, hn]
      rfl
    · show a.size + 1 ≤ r.data.length
      omega
    · rw [← he]
      unfold elems
      rw [hs, List.take_succ]
      simp [List.getElem?_eq_getElem hlt]
  · have hlt : a.size < a.data.length := by unfold capacity at hc; omega
    refine ⟨{ a with size := a.size + 1 }, a.data[a.size]?.getD default, ?_, ?_, rfl, ?_⟩
    · unfold Resize
      simp only [h1, hc, if_false, hn]
      rfl
    · show a.size + 1 ≤ a.data.length
      omega
    · unfold elems
      rw [List.take_succ]
      simp [List.getElem?_eq_getElem hlt]

end DynamicArray
end Lab

namespace Lab
open DynamicArray
variable {T : Type} [Inhabited T]

theorem bind_ok {α β : Type} (a : α) (f : α → Except Err β) :
    ((Except.ok a : Except Err α) >>= f) = f a := rfl

theorem forDown_shift (e : List T) (n : Nat) : ∀ (j : Nat) (b : DynamicArray T) (z : T),
    b.WF → b.size = e.length + 1 → b.elems = e.take j ++ z :: e.drop j → n ≤ j →
    j ≤ e.length →
    ∃ b1 z1, forDown n (j : Int) (fun i c => do
        let v ← c.Get (i - 1)
        c.Set i v) b = .ok b1 ∧ b1.WF ∧ b1.size = b.size
      ∧ b1.elems = e.take (j - n) ++ z1 :: e.drop (j - n) := by
  induction n with
  | zero =>
    intro j b z hw hs he _ _
    exact ⟨b, z, rfl, hw, rfl, he⟩
  | succ n ih =>
    intro j b z hw hs he hn hj
    obtain ⟨k, rfl⟩ : ∃ k, j = k + 1 := ⟨j - 1, by omega⟩
    have hk : k < e.length := by omega
    have htk : (e.take (k + 1)).length = k + 1 := by simp; omega
    have hget : b.elems[k]? = some e[k] := by
      rw [he, List.getElem?_append_left (by omega), List.getElem?_take]
      simp [hk]
    have hcast : ((k + 1 : Nat) : Int) - 1 = (k : Int) := by omega
    obtain ⟨c, hset, hcw, hcs, hce⟩ := Set_ok b hw (k + 1) e[k] (by omega)
    have hce2 : c.elems = e.take k ++ e[k] :: e.drop k := by
      have h1 : e.take (k + 1) = e.take k ++ [e[k]] := by
        rw [List.take_succ, List.getElem?_eq_getElem hk]; rfl
      have h2 : e.drop k = e[k] :: e.drop (k + 1) := List.drop_eq_getElem_cons hk
      rw [hce, he, List.set_append_right _ _ (by omega), htk, Nat.sub_self, List.set_cons_zero,
        h2, h1, List.append_assoc]
      rfl
    obtain ⟨b1, z1, hloop, hw1, hs1, he1⟩ := ih k c e[k] hcw (by omega) hce2
      (by omega) (by omega)
    refine ⟨b1, z1, ?_, hw1, by omega, ?_⟩
    · unfold forDown
      simp only [hcast, Get_ok b k _ hget, bind_ok, hset]
      exact hloop
    · rw [he1]
      have : k - n = k + 1 - (n + 1) := by omega
      rw [this]

theorem shiftInsert_spec (a : DynamicArray T) (hw : a.WF) (idx : Nat) (item : T)
    (hidx : idx ≤ a.size) :
    ∃ b, SegmentedDeque.shiftInsert a (idx : Int) item = .ok b ∧ b.WF ∧ b.size = a.size + 1
      ∧ b.elems = a.elems.take idx ++ item :: a.elems.drop idx := by
  obtain ⟨a1, z, hres, hw1, hs1, he1⟩ := Resize_grow a hw
  have hlen := elems_length hw
  have he1b : a1.elems = a.elems.take a.elems.length ++ z :: a.elems.drop a.elems.length := by
    rw [he1]; simp
  obtain ⟨a2, z2, hloop, hw2, hs2, he2⟩ := forDown_shift a.elems (a.elems.length - idx)
    a.elems.length a1 z hw1 (by omega) he1b (by omega) (by omega)
  have hn : a.elems.length - (a.elems.length - idx) = idx := by omega
  rw [hn] at he2
  obtain ⟨a3, hset, hw3, hs3, he3⟩ := Set_ok a2 hw2 idx item (by omega)
  refine ⟨a3, ?_, hw3, by omega, ?_⟩
  · unfold SegmentedDeque.shiftInsert
    simp only [hres, bind_ok]
    have h1 : (a1.GetSize - 1 - (idx : Int)).toNat = a.elems.length - idx := by
      unfold GetSize; omega
    have h2 : a1.GetSize - 1 = (a.elems.length : Int) := by unfold GetSize; omega
    rw [h1, h2, hloop]
    simp only [bind_ok, hset]
  · rw [he3, he2, List.set_append_right _ _ (by simp)]
    have : idx - (List.take idx a.elems).length = 0 := by simp; omega
    rw [this]
    rfl
end Lab

namespace Lab
open DynamicArray
variable {T : Type} [Inhabited T]


theorem forUp_shift (e r : List T) (idx : Nat) (hr : ∀ i, idx ≤ i → r[i]? = e[i + 1]?)
    (n : Nat) : ∀ (j : Nat) (b : DynamicArray T),
    b.WF → b.size = e.length → b.elems = r.take j ++ e.drop j → idx ≤ j →
    j + n + 1 ≤ e.length → j ≤ r.length →
    ∃ b1, forUp n (j : Int) (fun i c => do
        let v ← c.Get (i + 1)
        c.Set i v) b = .ok b1 ∧ b1.WF ∧ b1.size = b.size
      ∧ b1.elems = r.take (j + n) ++ e.drop (j + n) := by
  induction n with
  | zero =>
    intro j b hw hs he _ _ _
    exact ⟨b, rfl, hw, rfl, he⟩
  | succ n ih =>
    intro j b hw hs he hj hn hjr
    have hj1 : j + 1 < e.length := by omega
    have htk : (r.take j).length = j := by simp; omega
    have hget : b.elems[j + 1]? = some e[j + 1] := by
      rw [he, List.getElem?_append_right (by omega), htk, List.getElem?_drop]
      have : j + (j + 1 - j) = j + 1 := by omega
      rw [this, List.getElem?_eq_getElem hj1]
    obtain ⟨c, hset, hcw, hcs, hce⟩ := Set_ok b hw j e[j + 1] (by omega)
    have hrj : r[j]? = some e[j + 1] := by rw [hr j hj, List.getElem?_eq_getElem hj1]
    have hce2 : c.elems = r.take (j + 1) ++ e.drop (j + 1) := by
      have h2 : e.drop j = e[j] :: e.drop (j + 1) := List.drop_eq_getElem_cons (by omega)
      rw [hce, he, List.set_append_right _ _ (by omega), htk, Nat.sub_self, h2,
        List.set_cons_zero, List.take_succ, hrj, List.append_assoc]
      rfl
    have hjr1 : j + 1 ≤ r.length := by
      by_contra hc
      rw [List.getElem?_eq_none (by omega)] at hrj
      exact absurd hrj (by simp)
    obtain ⟨b1, hloop, hw1, hs1, he1⟩ := ih (j + 1) c hcw (by omega) hce2
      (by omega) (by omega) hjr1
    refine ⟨b1, ?_, hw1, by omega, ?_⟩
    · unfold forUp
      have hcast : (j : Int) + 1 = ((j + 1 : Nat) : Int) := by omega
      simp only [hcast, Get_ok b (j + 1) _ hget, bind_ok, hset]
      exact hloop
    · rw [he1]
      have : j + 1 + n = j + (n + 1) := by omega
      rw [this]

theorem shiftRemove_spec (a : DynamicArray T) (hw : a.WF) (idx : Nat) (hidx : idx < a.size) :
    ∃ b, SegmentedDeque.shiftRemove a (idx : Int) = .ok b ∧ b.WF ∧ b.size = a.size - 1
      ∧ b.elems = a.elems.eraseIdx idx := by
  have hlen := elems_length hw
  have hrl : (a.elems.eraseIdx idx).length = a.size - 1 := by
    rw [List.length_eraseIdx]; simp [hlen, hidx]
  have hr : ∀ i, idx ≤ i → (a.elems.eraseIdx idx)[i]? = a.elems[i + 1]? := by
    intro i hi
    rw [List.getElem?_eraseIdx]
    have : ¬ i < idx := by omega
    simp [this]
  have he0 : a.elems = (a.elems.eraseIdx idx).take idx ++ a.elems.drop idx := by
    rw [List.eraseIdx_eq_take_drop_succ, List.take_append_of_le_length (by simp; omega)]
    rw [List.take_take, Nat.min_self, List.take_append_drop]
  obtain ⟨a1, hloop, hw1, hs1, he1⟩ := forUp_shift a.elems (a.elems.eraseIdx idx) idx hr
    (a.size - 1 - idx) idx a hw hlen.symm he0 (by omega) (by omega) (by omega)
  obtain ⟨a2, hres, hw2, hs2, he2⟩ := Resize_shrink a1 hw1 (a.size - 1) (by omega)
  refine ⟨a2, ?_, hw2, hs2, ?_⟩
  · unfold SegmentedDeque.shiftRemove
    have h1 : (a.GetSize - 1 - (idx : Int)).toNat = a.size - 1 - idx := by
      unfold GetSize; omega
    rw [h1, hloop]
    simp only [bind_ok]
    have h2 : a1.GetSize - 1 = ((a.size - 1 : Nat) : Int) := by unfold GetSize; omega
    rw [h2, hres]
  · have h3 : idx + (a.size - 1 - idx) = a.size - 1 := by omega
    rw [he2, he1, h3, List.take_append_of_le_length (by simp; omega)]
    rw [List.take_take, List.take_of_length_le (by omega)]

theorem appendRange_spec (src : DynamicArray T) (n : Nat) :
    ∀ (lo : Nat) (tgt : DynamicArray T), tgt.WF → lo + n ≤ src.size → src.WF →
    ∃ t, SegmentedDeque.appendRange src n (lo : Int) tgt = .ok t ∧ t.WF
      ∧ t.size = tgt.size + n ∧ t.elems = tgt.elems ++ (src.elems.drop lo).take n := by
  induction n with
  | zero =>
    intro lo tgt hw _ _
    exact ⟨tgt, rfl, hw, rfl, by simp⟩
  | succ n ih =>
    intro lo tgt hw hlo hsw
    have hlen := elems_length hsw
    have hl : lo < src.elems.length := by omega
    obtain ⟨t, hloop, htw, hts, hte⟩ := ih (lo + 1) (tgt.Append src.elems[lo])
      (Append_WF _ _ hw) (by omega) hsw
    refine ⟨t, ?_, htw, ?_, ?_⟩
    · unfold SegmentedDeque.appendRange forUp
      simp only [Get_ok src lo _ (List.getElem?_eq_getElem hl), bind_ok]
      show forUp n ((lo : Int) + 1) _ (tgt.Append src.elems[lo]) = _
      have hcast : (lo : Int) + 1 = ((lo + 1 : Nat) : Int) := by omega
      rw [hcast]
      exact hloop
    · rw [hts, Append_size]; omega
    · rw [hte, Append_elems _ _ hw, List.drop_eq_getElem_cons hl, List.take_succ_cons,
        List.append_assoc]
      rfl
end Lab

namespace Lab
namespace SegmentedDeque
open DynamicArray
variable {T : Type} [Inhabited T]

theorem sizeSum_nil : sizeSum ([] : List (Segment T)) = 0 := rfl

theorem sizeSum_cons (s : Segment T) (l : List (Segment T)) :
    sizeSum (s :: l) = s.data.size + sizeSum l := by
  unfold sizeSum; simp

theorem sizeSum_append (l1 l2 : List (Segment T)) :
    sizeSum (l1 ++ l2) = sizeSum l1 + sizeSum l2 := by
  unfold sizeSum; simp

theorem flat_nil : flat ([] : List (Segment T)) = [] := rfl

theorem flat_cons (s : Segment T) (l : List (Segment T)) :
    flat (s :: l) = s.data.elems ++ flat l := by
  unfold flat; simp

theorem flat_append (l1 l2 : List (Segment T)) : flat (l1 ++ l2) = flat l1 ++ flat l2 := by
  unfold flat; simp

theorem toList_eq (d : SegmentedDeque T) : d.toList = flat d.segs := rfl

theorem SegsOK_nil (cap : Int) : SegsOK cap ([] : List (Segment T)) := by
  intro s hs; simp at hs

theorem SegsOK_cons {cap : Int} {s : Segment T} {l : List (Segment T)} :
    SegsOK cap (s :: l) ↔ (s.data.WF ∧ (s.data.size : Int) ≤ cap) ∧ SegsOK cap l := by
  unfold SegsOK; simp

theorem SegsOK_append {cap : Int} {l1 l2 : List (Segment T)} :
    SegsOK cap (l1 ++ l2) ↔ SegsOK cap l1 ∧ SegsOK cap l2 := by
  unfold SegsOK; simp only [List.mem_append]
  constructor
  · intro h; exact ⟨fun s hs => h s (Or.inl hs), fun s hs => h s (Or.inr hs)⟩
  · rintro ⟨h1, h2⟩ s (hs | hs)
    · exact h1 s hs
    · exact h2 s hs

theorem length_flat {cap : Int} {segs : List (Segment T)} (h : SegsOK cap segs) :
    (flat segs).length = sizeSum segs := by
  induction segs with
  | nil => rfl
  | cons s l ih =>
    rw [SegsOK_cons] at h
    rw [flat_cons, sizeSum_cons, List.length_append, ih h.2, elems_length h.1.1]

theorem findLoop_spec (segs : List (Segment T)) :
    ∀ (k0 : Nat) (rem : Nat), rem < sizeSum segs →
    ∃ pre seg post, ∃ o : Nat, segs = pre ++ seg :: post
      ∧ findLoop segs k0 (rem : Int) = .ok (k0 + pre.length, (o : Int))
      ∧ o < seg.data.size ∧ sizeSum pre + o = rem := by
  induction segs with
  | nil => intro k0 rem h; simp [sizeSum] at h
  | cons s l ih =>
    intro k0 rem h
    rw [sizeSum_cons] at h
    by_cases hlt : rem < s.data.size
    · refine ⟨[], s, l, rem, rfl, ?_, hlt, by simp [sizeSum]⟩
      unfold findLoop GetSize
      have : (rem : Int) < (s.data.size : Int) := by omega
      simp only [this, if_true]
      rfl
    · obtain ⟨pre, seg, post, o, hseg, hfind, ho, hsum⟩ := ih (k0 + 1) (rem - s.data.size)
        (by omega)
      refine ⟨s :: pre, seg, post, o, by rw [hseg]; rfl, ?_, ho, ?_⟩
      · unfold findLoop GetSize
        have : ¬ (rem : Int) < (s.data.size : Int) := by omega
        simp only [this, if_false]
        have hc : (rem : Int) - (s.data.size : Int) = ((rem - s.data.size : Nat) : Int) := by
          omega
        rw [hc, hfind]
        simp only [List.length_cons]
        have : k0 + 1 + pre.length = k0 + (pre.length + 1) := by omega
        rw [this]
      · rw [sizeSum_cons]; omega

theorem findLoop_error (segs : List (Segment T)) :
    ∀ (k0 : Nat) (rem : Int), (sizeSum segs : Int) ≤ rem →
    findLoop segs k0 rem = .error Err.indexOutOfRange := by
  induction segs with
  | nil => intro k0 rem _; rfl
  | cons s l ih =>
    intro k0 rem h
    rw [sizeSum_cons] at h
    unfold findLoop GetSize
    have : ¬ rem < (s.data.size : Int) := by omega
    simp only [this, if_false]
    exact ih _ _ (by omega)

theorem findSegmentAndIndex_spec (d : SegmentedDeque T) (hsum : d.totalSize = sizeSum d.segs)
    (n : Nat) (hn : (n : Int) < d.totalSize) :
    ∃ pre seg post, ∃ o : Nat, d.segs = pre ++ seg :: post
      ∧ d.findSegmentAndIndex (n : Int) = .ok (pre.length, (o : Int))
      ∧ o < seg.data.size ∧ sizeSum pre + o = n := by
  obtain ⟨pre, seg, post, o, hseg, hfind, ho, hs⟩ := findLoop_spec d.segs 0 n (by omega)
  refine ⟨pre, seg, post, o, hseg, ?_, ho, hs⟩
  unfold findSegmentAndIndex
  have : ¬ ((n : Int) < 0 ∨ (n : Int) ≥ d.totalSize) := by omega
  simp only [this, if_false, hfind, Nat.zero_add]

theorem findSegmentAndIndex_error (d : SegmentedDeque T) (i : Int)
    (h : i < 0 ∨ d.totalSize ≤ i) :
    d.findSegmentAndIndex i = .error Err.indexOutOfRange := by
  unfold findSegmentAndIndex
  have : i < 0 ∨ i ≥ d.totalSize := by omega
  simp only [this, if_true]
  rfl

theorem getElem?_mid {α : Type} (pre post : List α) (x : α) :
    (pre ++ x :: post)[pre.length]? = some x := by
  rw [List.getElem?_append_right (Nat.le_refl _)]; simp

theorem flat_getElem? {cap : Int} (pre post : List (Segment T)) (seg : Segment T) (o : Nat)
    (hok : SegsOK cap pre) :
    (flat (pre ++ seg :: post))[sizeSum pre + o]? =
      if o < seg.data.elems.length then seg.data.elems[o]? else (flat post)[o - seg.data.elems.length]? := by
  rw [flat_append, flat_cons, List.getElem?_append_right (by rw [length_flat hok]; omega),
    length_flat hok]
  have : sizeSum pre + o - sizeSum pre = o := by omega
  rw [this, List.getElem?_append]

theorem Get_spec (d : SegmentedDeque T) (hsum : d.totalSize = sizeSum d.segs)
    (hwf : ∀ s ∈ d.segs, s.data.WF) (n : Nat) (hn : (n : Int) < d.totalSize) :
    ∃ v, d.Get (n : Int) = .ok v ∧ d.toList[n]? = some v := by
  obtain ⟨pre, seg, post, o, hseg, hfind, ho, hs⟩ := findSegmentAndIndex_spec d hsum n hn
  have hsw : seg.data.WF := hwf seg (by rw [hseg]; simp)
  have hlen := elems_length hsw
  have hpre : SegsOK (sizeSum pre : Int) pre := by
    intro s hs
    refine ⟨hwf s (by rw [hseg]; simp [hs]), ?_⟩
    obtain ⟨l1, l2, rfl⟩ := List.append_of_mem hs
    rw [sizeSum_append, sizeSum_cons]
    omega
  have ho2 : o < seg.data.elems.length := by omega
  refine ⟨seg.data.elems[o], ?_, ?_⟩
  · unfold Get
    simp only [hfind, bind_ok, hseg, getElem?_mid]
    exact Get_ok _ _ _ (List.getElem?_eq_getElem ho2)
  · rw [toList_eq, hseg, ← hs, flat_getElem? pre post seg o hpre]
    simp [ho2]

theorem Get_error (d : SegmentedDeque T) (i : Int) (h : i < 0 ∨ d.totalSize ≤ i) :
    d.Get i = .error Err.indexOutOfRange := by
  unfold Get
  rw [findSegmentAndIndex_error d i h]
  rfl


theorem Segment_ctor_WF (cap : Int) : (Segment.ctor cap : Segment T).data.WF :=
  Reserve_WF _ _ ctor_WF

theorem Segment_ctor_size (cap : Int) : (Segment.ctor cap : Segment T).data.size = 0 := by
  unfold Segment.ctor; rw [Reserve_size]; rfl

theorem Segment_ctor_elems (cap : Int) : (Segment.ctor cap : Segment T).data.elems = [] := by
  unfold Segment.ctor; rw [Reserve_elems _ _ ctor_WF]; rfl

theorem eq_snoc_of_ne_nil {α : Type} (l : List α) (h : l ≠ []) :
    ∃ front last, l = front ++ [last] := by
  rcases List.eq_nil_or_concat l with h1 | ⟨front, last, h1⟩
  · exact absurd h1 h
  · exact ⟨front, last, by rw [h1, List.concat_eq_append]⟩

theorem getLast?_snoc {α : Type} (l : List α) (a : α) : (l ++ [a]).getLast? = some a := by
  simp

theorem dropLast_snoc {α : Type} (l : List α) (a : α) : (l ++ [a]).dropLast = l := by
  simp

theorem segs_ne_nil_of_pos (d : SegmentedDeque T) (hsum : d.totalSize = sizeSum d.segs)
    (h : d.totalSize ≠ 0) : d.segs ≠ [] := by
  intro hnil
  rw [hnil] at hsum
  simp [sizeSum] at hsum
  exact h hsum

/-- Outcome of `ensureCapacity`, by case. -/
theorem ensureCapacity_spec (d : SegmentedDeque T) (hsum : d.totalSize = sizeSum d.segs) :
    (d.totalSize = 0 ∧
      d.ensureCapacity = .ok { d with segs := [Segment.ctor d.segmentCapacity] }) ∨
    (d.totalSize ≠ 0 ∧ ∃ front tail, d.segs = front ++ [tail] ∧
      (((tail.data.size : Int) < d.segmentCapacity ∧ d.ensureCapacity = .ok d) ∨
       (d.segmentCapacity ≤ (tail.data.size : Int) ∧ d.ensureCapacity =
          .ok { d with segs := d.segs ++ [Segment.ctor d.segmentCapacity] }))) := by
  by_cases h0 : d.totalSize = 0
  · left
    refine ⟨h0, ?_⟩
    unfold ensureCapacity
    simp only [h0, if_true]
    rfl
  · right
    refine ⟨h0, ?_⟩
    obtain ⟨front, tail, hseg⟩ := eq_snoc_of_ne_nil d.segs (segs_ne_nil_of_pos d hsum h0)
    refine ⟨front, tail, hseg, ?_⟩
    by_cases hlt : (tail.data.size : Int) < d.segmentCapacity
    · left
      refine ⟨hlt, ?_⟩
      unfold ensureCapacity
      simp only [h0, if_false, hseg, getLast?_snoc, GetSize, hlt, if_true]
      rfl
    · right
      refine ⟨by omega, ?_⟩
      unfold ensureCapacity
      simp only [h0, if_false, hseg, getLast?_snoc, GetSize, hlt]
      rfl

/-- Outcome of `AppendInPlace`, by case: the first element of an empty deque goes into a fresh
segment, otherwise the element joins a tail with room or opens a fresh tail. -/
theorem AppendInPlace_spec (d : SegmentedDeque T) (hinv : d.Inv) (x : T) :
    ∃ d1, d.AppendInPlace x = .ok d1 ∧ d1.segmentCapacity = d.segmentCapacity
      ∧ d1.totalSize = d.totalSize + 1 ∧
      ((d.totalSize = 0 ∧ ∃ s : Segment T, d1.segs = [s] ∧ s.data.WF ∧ s.data.elems = [x]) ∨
       (d.totalSize ≠ 0 ∧ ∃ front tail, d.segs = front ++ [tail] ∧
        (((tail.data.size : Int) < d.segmentCapacity ∧ ∃ s : Segment T,
            d1.segs = front ++ [s] ∧ s.data.WF ∧ s.data.elems = tail.data.elems ++ [x]) ∨
         (d.segmentCapacity ≤ (tail.data.size : Int) ∧ ∃ s : Segment T,
            d1.segs = d.segs ++ [s] ∧ s.data.WF ∧ s.data.elems = [x])))) := by
  obtain ⟨hcap, hsum, hok⟩ := hinv
  rcases ensureCapacity_spec d hsum with ⟨h0, he⟩ | ⟨h0, front, tail, hseg, ⟨hlt, he⟩ | ⟨hge, he⟩⟩
  · refine ⟨{ d with
        segs := [{ data := (Segment.ctor d.segmentCapacity).data.Append x }],
        totalSize := d.totalSize + 1 }, ?_, rfl, rfl, Or.inl ⟨h0, _, rfl, ?_, ?_⟩⟩
    · unfold AppendInPlace
      simp only [he, bind_ok, List.getLast?_singleton, List.dropLast_single, List.nil_append]
      rfl
    · exact Append_WF _ _ (Segment_ctor_WF _)
    · rw [Append_elems _ _ (Segment_ctor_WF _), Segment_ctor_elems]; rfl
  · have htw : tail.data.WF := (hok tail (by rw [hseg]; simp)).1
    refine ⟨{ d with
        segs := front ++ [{ data := tail.data.Append x }],
        totalSize := d.totalSize + 1 }, ?_, rfl, rfl,
      Or.inr ⟨h0, front, tail, hseg, Or.inl ⟨hlt, _, rfl, ?_, ?_⟩⟩⟩
    · unfold AppendInPlace
      simp only [he, bind_ok, hseg, getLast?_snoc, dropLast_snoc]
      rfl
    · exact Append_WF _ _ htw
    · exact Append_elems _ _ htw
  · refine ⟨{ d with
        segs := d.segs ++ [{ data := (Segment.ctor d.segmentCapacity).data.Append x }],
        totalSize := d.totalSize + 1 }, ?_, rfl, rfl,
      Or.inr ⟨h0, front, tail, hseg, Or.inr ⟨hge, _, rfl, ?_, ?_⟩⟩⟩
    · unfold AppendInPlace
      simp only [he, bind_ok, getLast?_snoc, dropLast_snoc]
      rfl
    · exact Append_WF _ _ (Segment_ctor_WF _)
    · rw [Append_elems _ _ (Segment_ctor_WF _), Segment_ctor_elems]; rfl


/-- Outcome of `PrependInPlace`, by case. -/
theorem PrependInPlace_spec (d : SegmentedDeque T) (hinv : d.Inv) (x : T) :
    ∃ d1, d.PrependInPlace x = .ok d1 ∧ d1.segmentCapacity = d.segmentCapacity
      ∧ d1.totalSize = d.totalSize + 1 ∧
      ((d.totalSize = 0 ∧ ∃ s : Segment T, d1.segs = [s] ∧ s.data.WF ∧ s.data.elems = [x]) ∨
       (d.totalSize ≠ 0 ∧ ∃ head rest, d.segs = head :: rest ∧
        (((head.data.size : Int) < d.segmentCapacity ∧ ∃ s : Segment T,
            d1.segs = s :: rest ∧ s.data.WF ∧ s.data.elems = x :: head.data.elems) ∨
         (d.segmentCapacity ≤ (head.data.size : Int) ∧ ∃ s : Segment T,
            d1.segs = s :: d.segs ∧ s.data.WF ∧ s.data.elems = [x])))) := by
  obtain ⟨hcap, hsum, hok⟩ := hinv
  by_cases h0 : d.totalSize = 0
  · rcases ensureCapacity_spec d hsum with ⟨_, he⟩ | ⟨h1, _⟩
    · refine ⟨{ d with
          segs := [{ data := (Segment.ctor d.segmentCapacity).data.Append x }],
          totalSize := d.totalSize + 1 }, ?_, rfl, rfl, Or.inl ⟨h0, _, rfl, ?_, ?_⟩⟩
      · unfold PrependInPlace
        simp only [h0, if_true, he, bind_ok]
        rfl
      · exact Append_WF _ _ (Segment_ctor_WF _)
      · rw [Append_elems _ _ (Segment_ctor_WF _), Segment_ctor_elems]; rfl
    · exact absurd h0 h1
  · obtain ⟨head, rest, hseg⟩ := List.exists_cons_of_ne_nil (segs_ne_nil_of_pos d hsum h0)
    have hhw : head.data.WF := (hok head (by rw [hseg]; simp)).1
    by_cases hlt : (head.data.size : Int) < d.segmentCapacity
    · obtain ⟨b, hb, hbw, _, hbe⟩ := shiftInsert_spec head.data hhw 0 x (by omega)
      refine ⟨{ d with
          segs := { data := b } :: rest,
          totalSize := d.totalSize + 1 }, ?_, rfl, rfl,
        Or.inr ⟨h0, head, rest, hseg, Or.inl ⟨hlt, _, rfl, hbw, ?_⟩⟩⟩
      · unfold PrependInPlace
        simp only [h0, if_false, hseg, GetSize, hlt, if_true]
        have hb0 : shiftInsert head.data 0 x = .ok b := hb
        rw [hb0]
        rfl
      · rw [hbe]; simp
    · refine ⟨{ d with
          segs := { data := (Segment.ctor d.segmentCapacity).data.Append x } :: d.segs,
          totalSize := d.totalSize + 1 }, ?_, rfl, rfl,
        Or.inr ⟨h0, head, rest, hseg, Or.inr ⟨by omega, _, rfl, ?_, ?_⟩⟩⟩
      · unfold PrependInPlace
        simp only [h0, if_false, hseg, GetSize, hlt]
        rfl
      · exact Append_WF _ _ (Segment_ctor_WF _)
      · rw [Append_elems _ _ (Segment_ctor_WF _), Segment_ctor_elems]; rfl

theorem tdiv_two_cast (c : Nat) : (c : Int).tdiv 2 = ((c / 2 : Nat) : Int) := by
  rw [Int.tdiv_eq_ediv (by omega) (by omega)]
  omega

theorem take_mid {α : Type} (pre post : List α) : (pre ++ post).take pre.length = pre := by
  simp

theorem drop_mid {α : Type} (pre post : List α) (x : α) :
    (pre ++ x :: post).drop (pre.length + 1) = post := by
  rw [List.drop_append_eq_append_drop]
  simp

theorem set_mid {α : Type} (pre post : List α) (x y : α) :
    (pre ++ x :: post).set pre.length y = pre ++ y :: post := by
  rw [List.set_append_right _ _ (Nat.le_refl _)]
  simp

theorem eraseIdx_mid {α : Type} (pre post : List α) (x : α) :
    (pre ++ x :: post).eraseIdx pre.length = pre ++ post := by
  rw [List.eraseIdx_append_of_length_le (Nat.le_refl _)]
  simp

/-- Outcome of the general branch of `InsertAtInPlace` (`0 < index < totalSize`): the located
segment either takes the item in place or is split in two at `mid = segmentCapacity / 2`. -/
theorem InsertAtInPlace_mid_spec (d : SegmentedDeque T) (hinv : d.Inv) (x : T) (n : Nat)
    (h0 : 0 < n) (hn : (n : Int) < d.totalSize) :
    ∃ d1 pre seg post, ∃ o : Nat, d.InsertAtInPlace x (n : Int) = .ok d1
      ∧ d1.segmentCapacity = d.segmentCapacity ∧ d1.totalSize = d.totalSize + 1
      ∧ d.segs = pre ++ seg :: post
      ∧ d.findSegmentAndIndex (n : Int) = .ok (pre.length, (o : Int))
      ∧ o < seg.data.size ∧ sizeSum pre + o = n ∧
      (((seg.data.size : Int) < d.segmentCapacity ∧ ∃ s : Segment T,
          d1.segs = pre ++ s :: post ∧ s.data.WF
          ∧ s.data.elems = seg.data.elems.take o ++ x :: seg.data.elems.drop o) ∨
       ((seg.data.size : Int) = d.segmentCapacity ∧ ∃ s1 s2 : Segment T,
          d1.segs = pre ++ s1 :: s2 :: post ∧ s1.data.WF ∧ s2.data.WF ∧
          ((o ≤ seg.data.size / 2
              ∧ s1.data.elems = seg.data.elems.take o
                  ++ x :: (seg.data.elems.take (seg.data.size / 2)).drop o
              ∧ s2.data.elems = seg.data.elems.drop (seg.data.size / 2)) ∨
           (seg.data.size / 2 < o
              ∧ s1.data.elems = seg.data.elems.take (seg.data.size / 2)
              ∧ s2.data.elems = (seg.data.elems.drop (seg.data.size / 2)).take
                    (o - seg.data.size / 2) ++ x :: seg.data.elems.drop o)))) := by
  obtain ⟨hcap, hsum, hok⟩ := hinv
  obtain ⟨pre, seg, post, o, hseg, hfind, ho, hs⟩ := findSegmentAndIndex_spec d hsum n hn
  have hsok := hok seg (by rw [hseg]; simp)
  obtain ⟨hsw, hsc⟩ := hsok
  have hlen := elems_length hsw
  have hc1 : ¬ ((n : Int) < 0 ∨ (n : Int) > d.totalSize) := by omega
  have hc2 : ¬ ((n : Int) = 0) := by omega
  have hc3 : ¬ ((n : Int) = d.totalSize) := by omega
  by_cases hlt : (seg.data.size : Int) < d.segmentCapacity
  · obtain ⟨b, hb, hbw, _, hbe⟩ := shiftInsert_spec seg.data hsw o x (by omega)
    refine ⟨{ d with
        segs := pre ++ { data := b } :: post,
        totalSize := d.totalSize + 1 }, pre, seg, post, o, ?_, rfl, rfl, hseg, hfind, ho, hs,
      Or.inl ⟨hlt, _, rfl, hbw, hbe⟩⟩
    unfold InsertAtInPlace
    simp only [hc1, hc2, hc3, if_false, hfind, bind_ok, hseg, getElem?_mid, GetSize, hlt,
      if_true, hb, set_mid]
    rfl
  · have heq : (seg.data.size : Int) = d.segmentCapacity := by omega
    have hmid : d.segmentCapacity.tdiv 2 = ((seg.data.size / 2 : Nat) : Int) := by
      rw [← heq]; exact tdiv_two_cast _
    have hnw : (Segment.ctor d.segmentCapacity : Segment T).data.WF := Segment_ctor_WF _
    have hne : (Segment.ctor d.segmentCapacity : Segment T).data.elems = [] :=
      Segment_ctor_elems _
    by_cases hom : o ≤ seg.data.size / 2
    · obtain ⟨nd, hnd, hndw, _, hnde⟩ := appendRange_spec seg.data
        (seg.data.size - seg.data.size / 2) (seg.data.size / 2)
        (Segment.ctor d.segmentCapacity : Segment T).data hnw (by omega) hsw
      obtain ⟨r, hr, hrw, hrs, hre⟩ := Resize_shrink seg.data hsw (seg.data.size / 2) (by omega)
      obtain ⟨b, hb, hbw, _, hbe⟩ := shiftInsert_spec r hrw o x (by omega)
      refine ⟨{ d with
          segs := pre ++ { data := b } :: { data := nd } :: post,
          totalSize := d.totalSize + 1 }, pre, seg, post, o, ?_, rfl, rfl, hseg, hfind, ho, hs,
        Or.inr ⟨heq, _, _, rfl, hbw, hndw, Or.inl ⟨hom, ?_, ?_⟩⟩⟩
      · unfold InsertAtInPlace
        have hcm : (o : Int) ≤ ((seg.data.size / 2 : Nat) : Int) := by omega
        have hcnt : (d.segmentCapacity - ((seg.data.size / 2 : Nat) : Int)).toNat
            = seg.data.size - seg.data.size / 2 := by omega
        simp only [hc1, hc2, hc3, if_false, hfind, bind_ok, hseg, getElem?_mid, GetSize, hlt,
          hmid, hcm, if_true, hcnt, hnd, hr, hb, take_mid, drop_mid]
        simp
        rfl
      · rw [hbe, hre, List.take_take]
        congr 2
        omega
      · rw [hnde, hne, List.nil_append, List.take_of_length_le (by simp; omega)]
    · obtain ⟨nd1, hnd1, hnd1w, _, hnd1e⟩ := appendRange_spec seg.data
        (o - seg.data.size / 2) (seg.data.size / 2)
        (Segment.ctor d.segmentCapacity : Segment T).data hnw (by omega) hsw
      obtain ⟨nd3, hnd3, hnd3w, _, hnd3e⟩ := appendRange_spec seg.data
        (seg.data.size - o) o (nd1.Append x) (Append_WF _ _ hnd1w) (by omega) hsw
      obtain ⟨r, hr, hrw, hrs, hre⟩ := Resize_shrink seg.data hsw (seg.data.size / 2) (by omega)
      refine ⟨{ d with
          segs := pre ++ { data := r } :: { data := nd3 } :: post,
          totalSize := d.totalSize + 1 }, pre, seg, post, o, ?_, rfl, rfl, hseg, hfind, ho, hs,
        Or.inr ⟨heq, _, _, rfl, hrw, hnd3w, Or.inr ⟨by omega, hre, ?_⟩⟩⟩
      · unfold InsertAtInPlace
        have hcm : ¬ (o : Int) ≤ ((seg.data.size / 2 : Nat) : Int) := by omega
        have hcnt1 : ((o : Int) - ((seg.data.size / 2 : Nat) : Int)).toNat
            = o - seg.data.size / 2 := by omega
        have hcnt2 : (d.segmentCapacity - (o : Int)).toNat = seg.data.size - o := by omega
        simp only [hc1, hc2, hc3, if_false, hfind, bind_ok, hseg, getElem?_mid, GetSize, hlt,
          hmid, hcm, hcnt1, hcnt2, hnd1, hnd3, hr, take_mid, drop_mid]
        simp
        rfl
      · rw [hnd3e, Append_elems _ _ hnd1w, hnd1e, hne, List.nil_append,
          List.take_of_length_le (l := List.drop o seg.data.elems) (by simp; omega)]
        simp


theorem elems_cons_of_pos (a : DynamicArray T) (hw : a.WF) (h : 0 < a.size) :
    ∃ v l, a.elems = v :: l := by
  have hlen := elems_length hw
  cases he : a.elems with
  | nil => rw [he] at hlen; simp at hlen; omega
  | cons v l => exact ⟨v, l, rfl⟩

theorem elems_snoc_of_pos (a : DynamicArray T) (hw : a.WF) (h : 0 < a.size) :
    ∃ l v, a.elems = l ++ [v] := by
  have hlen := elems_length hw
  apply eq_snoc_of_ne_nil
  intro he
  rw [he] at hlen; simp at hlen; omega

/-- Outcome of `PopFront` on a deque whose head segment is not empty. -/
theorem PopFront_spec (d : SegmentedDeque T) (hinv : d.Inv) (head : Segment T)
    (rest : List (Segment T)) (hseg : d.segs = head :: rest) (hpos : 0 < head.data.size) :
    ∃ v l d1, head.data.elems = v :: l ∧ d.PopFront = .ok (v, d1)
      ∧ d1.segmentCapacity = d.segmentCapacity ∧ d1.totalSize = d.totalSize - 1 ∧
      ((d.totalSize = 1 ∧ d1.segs = []) ∨
       (d.totalSize ≠ 1 ∧ l = [] ∧ rest ≠ [] ∧ d1.segs = rest) ∨
       (d.totalSize ≠ 1 ∧ l ≠ [] ∧ ∃ s : Segment T, d1.segs = s :: rest ∧ s.data.WF
          ∧ s.data.elems = l)) := by
  obtain ⟨hcap, hsum, hok⟩ := hinv
  have hhw : head.data.WF := (hok head (by rw [hseg]; simp)).1
  have hlen := elems_length hhw
  obtain ⟨v, l, hvl⟩ := elems_cons_of_pos head.data hhw hpos
  obtain ⟨b, hb, hbw, hbs, hbe⟩ := shiftRemove_spec head.data hhw 0 hpos
  have hbl : b.elems = l := by rw [hbe, hvl]; rfl
  have hll : l.length + 1 = head.data.size := by rw [← hlen, hvl]; simp
  have hne : ¬ d.totalSize = 0 := by
    rw [hsum, hseg, sizeSum_cons]; omega
  have hget : head.data.Get 0 = .ok v := Get_ok head.data 0 v (by rw [hvl]; simp)
  have hb0 : shiftRemove head.data 0 = .ok b := hb
  have hrun : d.PopFront = .ok (v, { d with
      segs := if d.totalSize - 1 = 0 then []
        else if b.GetSize = 0 ∧ rest.isEmpty = false then rest else { data := b } :: rest,
      totalSize := d.totalSize - 1 }) := by
    unfold PopFront
    simp only [hne, if_false, hseg, hget, bind_ok, hb0]
    rfl
  refine ⟨v, l, _, hvl, hrun, rfl, rfl, ?_⟩
  by_cases h1 : d.totalSize = 1
  · left
    refine ⟨h1, ?_⟩
    simp [h1]
  · right
    have h1b : ¬ d.totalSize - 1 = 0 := by omega
    by_cases hl : l = []
    · left
      have hrest : rest ≠ [] := by
        intro hr
        rw [hsum, hseg, hr, sizeSum_cons, sizeSum_nil] at h1
        rw [hl] at hll
        simp at hll
        omega
      refine ⟨h1, hl, hrest, ?_⟩
      have hb0 : b.GetSize = 0 := by
        unfold GetSize; rw [hbs, ← hll, hl]; simp
      have : rest.isEmpty = false := by
        cases rest with
        | nil => exact absurd rfl hrest
        | cons _ _ => rfl
      simp only [h1b, if_false, hb0, this, and_self, if_true]
    · right
      refine ⟨h1, hl, { data := b }, ?_, hbw, hbl⟩
      have hb0 : ¬ b.GetSize = 0 := by
        unfold GetSize; rw [hbs, ← hll]
        have : 0 < l.length := List.length_pos.mpr hl
        omega
      simp only [h1b, if_false, hb0, false_and]

/-- On a non-empty deque whose head segment is empty `PopFront` throws from `Get(0)`. -/
theorem PopFront_empty_head (d : SegmentedDeque T) (h0 : d.totalSize ≠ 0) (head : Segment T)
    (rest : List (Segment T)) (hseg : d.segs = head :: rest) (hz : head.data.size = 0) :
    d.PopFront = .error Err.indexOutOfRange := by
  unfold PopFront
  simp only [h0, if_false, hseg]
  rw [DynamicArray.Get_out_of_range _ _ (by omega)]
  rfl

/-- Outcome of `PopBack` on a deque whose tail segment is not empty. -/
theorem PopBack_spec (d : SegmentedDeque T) (hinv : d.Inv) (front : List (Segment T))
    (tail : Segment T) (hseg : d.segs = front ++ [tail]) (hpos : 0 < tail.data.size) :
    ∃ v l d1, tail.data.elems = l ++ [v] ∧ d.PopBack = .ok (v, d1)
      ∧ d1.segmentCapacity = d.segmentCapacity ∧ d1.totalSize = d.totalSize - 1 ∧
      ((d.totalSize = 1 ∧ d1.segs = []) ∨
       (d.totalSize ≠ 1 ∧ l = [] ∧ front ≠ [] ∧ d1.segs = front) ∨
       (d.totalSize ≠ 1 ∧ l ≠ [] ∧ ∃ s : Segment T, d1.segs = front ++ [s] ∧ s.data.WF
          ∧ s.data.elems = l)) := by
  obtain ⟨hcap, hsum, hok⟩ := hinv
  have htw : tail.data.WF := (hok tail (by rw [hseg]; simp)).1
  have hlen := elems_length htw
  obtain ⟨l, v, hvl⟩ := elems_snoc_of_pos tail.data htw hpos
  have hll : l.length + 1 = tail.data.size := by rw [← hlen, hvl]; simp
  obtain ⟨b, hb, hbw, hbs, hbe⟩ := Resize_shrink tail.data htw (tail.data.size - 1) (by omega)
  have hbl : b.elems = l := by
    rw [hbe, hvl, ← hll]; simp
  have hne : ¬ d.totalSize = 0 := by
    rw [hsum, hseg, sizeSum_append, sizeSum_cons]; omega
  have hcast : tail.data.GetSize - 1 = ((tail.data.size - 1 : Nat) : Int) := by
    unfold GetSize; omega
  have hget : tail.data.Get (tail.data.GetSize - 1) = .ok v := by
    rw [hcast]
    apply Get_ok
    rw [hvl, ← hll]
    simp
  have hrun : d.PopBack = .ok (v, { d with
      segs := if d.totalSize - 1 = 0 then []
        else if b.GetSize = 0 ∧ front.isEmpty = false then front else front ++ [{ data := b }],
      totalSize := d.totalSize - 1 }) := by
    unfold PopBack
    simp only [hne, if_false, hseg, getLast?_snoc, hget, bind_ok, dropLast_snoc]
    rw [hcast, hb]
    rfl
  refine ⟨v, l, _, hvl, hrun, rfl, rfl, ?_⟩
  by_cases h1 : d.totalSize = 1
  · left
    refine ⟨h1, ?_⟩
    simp [h1]
  · right
    have h1b : ¬ d.totalSize - 1 = 0 := by omega
    by_cases hl : l = []
    · left
      have hfront : front ≠ [] := by
        intro hr
        rw [hsum, hseg, hr, List.nil_append, sizeSum_cons, sizeSum_nil] at h1
        rw [hl] at hll
        simp at hll
        omega
      refine ⟨h1, hl, hfront, ?_⟩
      have hb0 : b.GetSize = 0 := by
        unfold GetSize; rw [hbs, ← hll, hl]; simp
      have : front.isEmpty = false := by
        cases front with
        | nil => exact absurd rfl hfront
        | cons _ _ => rfl
      simp only [h1b, if_false, hb0, this, and_self, if_true]
    · right
      refine ⟨h1, hl, { data := b }, ?_, hbw, hbl⟩
      have hb0 : ¬ b.GetSize = 0 := by
        unfold GetSize; rw [hbs, ← hll]
        have : 0 < l.length := List.length_pos.mpr hl
        omega
      simp only [h1b, if_false, hb0, false_and]

/-- On a non-empty deque whose tail segment is empty `PopBack` throws from `Get(-1)`: the
exception of `DynamicArray::Get`, raised before anything is changed. -/
theorem PopBack_empty_tail (d : SegmentedDeque T) (h0 : d.totalSize ≠ 0)
    (front : List (Segment T)) (tail : Segment T) (hseg : d.segs = front ++ [tail])
    (hz : tail.data.size = 0) : d.PopBack = .error Err.indexOutOfRange := by
  unfold PopBack
  simp only [h0, if_false, hseg, getLast?_snoc]
  rw [DynamicArray.Get_out_of_range _ _ (by unfold GetSize; omega)]
  rfl

/-- Outcome of the general branch of `RemoveAt` (`0 < index < totalSize - 1`). -/
theorem RemoveAt_mid_spec (d : SegmentedDeque T) (hinv : d.Inv) (n : Nat)
    (h0 : 0 < n) (hn : (n : Int) < d.totalSize - 1) :
    ∃ v d1 pre seg post, ∃ o : Nat, d.RemoveAt (n : Int) = .ok (v, d1)
      ∧ d1.segmentCapacity = d.segmentCapacity ∧ d1.totalSize = d.totalSize - 1
      ∧ d.segs = pre ++ seg :: post
      ∧ o < seg.data.size ∧ sizeSum pre + o = n ∧ seg.data.elems[o]? = some v ∧
      ((seg.data.size = 1 ∧ d1.segs = pre ++ post) ∨
       (seg.data.size ≠ 1 ∧ ∃ s : Segment T, d1.segs = pre ++ s :: post ∧ s.data.WF
          ∧ s.data.elems = seg.data.elems.eraseIdx o)) := by
  obtain ⟨hcap, hsum, hok⟩ := hinv
  obtain ⟨pre, seg, post, o, hseg, hfind, ho, hs⟩ :=
    findSegmentAndIndex_spec d hsum n (by omega)
  obtain ⟨hsw, hsc⟩ := hok seg (by rw [hseg]; simp)
  have hlen := elems_length hsw
  have hc1 : ¬ ((n : Int) < 0 ∨ (n : Int) ≥ d.totalSize) := by omega
  have hc2 : ¬ ((n : Int) = 0) := by omega
  have hc3 : ¬ ((n : Int) = d.totalSize - 1) := by omega
  have hol : o < seg.data.elems.length := by omega
  have hget : seg.data.Get (o : Int) = .ok seg.data.elems[o] :=
    Get_ok _ _ _ (List.getElem?_eq_getElem hol)
  obtain ⟨b, hb, hbw, hbs, hbe⟩ := shiftRemove_spec seg.data hsw o ho
  have hrun : d.RemoveAt (n : Int) = .ok (seg.data.elems[o], { d with
      segs := if b.GetSize = 0 then pre ++ post else pre ++ { data := b } :: post,
      totalSize := d.totalSize - 1 }) := by
    unfold RemoveAt
    simp only [hc1, hc2, hc3, if_false, hfind, bind_ok, hseg, getElem?_mid, hget, hb, set_mid,
      eraseIdx_mid]
    rfl
  refine ⟨_, _, pre, seg, post, o, hrun, rfl, rfl, hseg, ho, hs,
    List.getElem?_eq_getElem hol, ?_⟩
  by_cases h1 : seg.data.size = 1
  · left
    refine ⟨h1, ?_⟩
    have hb0 : b.GetSize = 0 := by unfold GetSize; omega
    simp only [hb0, if_true]
  · right
    refine ⟨h1, { data := b }, ?_, hbw, hbe⟩
    have hb0 : ¬ b.GetSize = 0 := by unfold GetSize; omega
    simp only [hb0, if_false]


theorem AllNonEmpty_nil : AllNonEmpty ([] : List (Segment T)) := by
  intro s hs; simp at hs

theorem AllNonEmpty_cons {s : Segment T} {l : List (Segment T)} :
    AllNonEmpty (s :: l) ↔ 0 < s.data.size ∧ AllNonEmpty l := by
  unfold AllNonEmpty; simp

theorem AllNonEmpty_append {l1 l2 : List (Segment T)} :
    AllNonEmpty (l1 ++ l2) ↔ AllNonEmpty l1 ∧ AllNonEmpty l2 := by
  unfold AllNonEmpty; simp only [List.mem_append]
  constructor
  · intro h; exact ⟨fun s hs => h s (Or.inl hs), fun s hs => h s (Or.inr hs)⟩
  · rintro ⟨h1, h2⟩ s (hs | hs)
    · exact h1 s hs
    · exact h2 s hs

theorem FrontNonEmpty_nil : FrontNonEmpty ([] : List (Segment T)) := by
  intro s hs; simp at hs

theorem FrontNonEmpty_singleton (s : Segment T) : FrontNonEmpty [s] := by
  intro t ht; simp at ht

theorem FrontNonEmpty_snoc {l : List (Segment T)} {s : Segment T} :
    FrontNonEmpty (l ++ [s]) ↔ AllNonEmpty l := by
  unfold FrontNonEmpty AllNonEmpty; rw [dropLast_snoc]

theorem FrontNonEmpty_of_all {l : List (Segment T)} (h : AllNonEmpty l) : FrontNonEmpty l :=
  fun s hs => h s (List.mem_of_mem_dropLast hs)

theorem FrontNonEmpty_append_cons {pre post : List (Segment T)} {s : Segment T} :
    FrontNonEmpty (pre ++ s :: post) ↔ AllNonEmpty pre ∧ FrontNonEmpty (s :: post) := by
  unfold FrontNonEmpty
  rw [List.dropLast_append_of_ne_nil _ (List.cons_ne_nil s post)]
  exact AllNonEmpty_append

theorem FrontNonEmpty_cons_cons {s t : Segment T} {l : List (Segment T)} :
    FrontNonEmpty (s :: t :: l) ↔ 0 < s.data.size ∧ FrontNonEmpty (t :: l) := by
  unfold FrontNonEmpty
  rw [List.dropLast_cons₂]
  simp

theorem FrontNonEmpty_cons_of_ne_nil {s : Segment T} {l : List (Segment T)} (hl : l ≠ []) :
    FrontNonEmpty (s :: l) ↔ 0 < s.data.size ∧ FrontNonEmpty l := by
  obtain ⟨t, l1, rfl⟩ := List.exists_cons_of_ne_nil hl
  exact FrontNonEmpty_cons_cons

theorem FrontNonEmpty_tail {s : Segment T} {l : List (Segment T)}
    (h : FrontNonEmpty (s :: l)) : FrontNonEmpty l := by
  cases l with
  | nil => exact FrontNonEmpty_nil
  | cons t l1 => exact (FrontNonEmpty_cons_cons.mp h).2

theorem size_of_elems {a : DynamicArray T} {l : List T} (hw : a.WF) (he : a.elems = l) :
    a.size = l.length := by
  rw [← he, elems_length hw]

theorem flat_eq_nil_of_sum {cap : Int} {segs : List (Segment T)} (hok : SegsOK cap segs)
    (h : sizeSum segs = 0) : flat segs = [] := by
  apply List.eq_nil_of_length_eq_zero
  rw [length_flat hok, h]

theorem AppendInPlace_keeps (d d1 : SegmentedDeque T) (hinv : d.Inv) (x : T)
    (h : d.AppendInPlace x = .ok d1) :
    d1.segmentCapacity = d.segmentCapacity ∧ d1.totalSize = d.totalSize + 1
      ∧ d1.toList = d.toList ++ [x] ∧ Keeps d d1 := by
  obtain ⟨d2, hrun, hc, ht, hcases⟩ := AppendInPlace_spec d hinv x
  rw [hrun] at h
  cases h
  obtain ⟨hcap, hsum, hok⟩ := hinv
  refine ⟨hc, ht, ?_⟩
  rcases hcases with ⟨h0, s, hs, hsw, hse⟩ |
    ⟨h0, front, tail, hseg, ⟨hlt, s, hs, hsw, hse⟩ | ⟨hge, s, hs, hsw, hse⟩⟩
  · have hsz := size_of_elems hsw hse
    have hnil : flat d.segs = [] := flat_eq_nil_of_sum hok (by omega)
    refine ⟨?_, ⟨?_, ?_, ?_⟩, ?_, ?_⟩
    · rw [toList_eq, toList_eq, hs, hnil, flat_cons, flat_nil, hse]; rfl
    · omega
    · rw [ht, hs, sizeSum_cons, sizeSum_nil, hsz, h0]; simp
    · rw [hs, hc]; intro t ht; simp at ht; subst ht
      exact ⟨hsw, by rw [hsz]; simpa using hcap⟩
    · intro _; rw [hs]; exact FrontNonEmpty_singleton s
    · intro _; rw [hs]; intro t ht; simp at ht; subst ht; rw [hsz]; simp
  · have hsz := size_of_elems hsw hse
    have hts := elems_length (hok tail (by rw [hseg]; simp)).1
    rw [List.length_append, hts] at hsz
    simp only [List.length_singleton] at hsz
    rw [hseg] at hok hsum
    rw [SegsOK_append] at hok
    refine ⟨?_, ⟨?_, ?_, ?_⟩, ?_, ?_⟩
    · rw [toList_eq, toList_eq, hs, hseg, flat_append, flat_append, flat_cons, flat_cons, hse]
      simp [flat_nil]
    · omega
    · rw [ht, hs, hsum, sizeSum_append, sizeSum_append, sizeSum_cons, sizeSum_cons, hsz]
      simp [sizeSum_nil]; omega
    · rw [hs, hc, SegsOK_append]
      refine ⟨hok.1, ?_⟩
      intro t ht; simp at ht; subst ht
      exact ⟨hsw, by omega⟩
    · rw [hs, hseg, FrontNonEmpty_snoc, FrontNonEmpty_snoc]; exact id
    · rw [hs, hseg, AllNonEmpty_append, AllNonEmpty_append]
      intro h
      refine ⟨h.1, ?_⟩
      intro t ht; simp at ht; subst ht; omega
  · have hsz := size_of_elems hsw hse
    simp only [List.length_singleton] at hsz
    refine ⟨?_, ⟨?_, ?_, ?_⟩, ?_, ?_⟩
    · rw [toList_eq, toList_eq, hs, flat_append, flat_cons, flat_nil, hse]; rfl
    · omega
    · rw [ht, hs, hsum, sizeSum_append, sizeSum_cons, sizeSum_nil, hsz]; simp
    · rw [hs, hc, SegsOK_append]
      refine ⟨hok, ?_⟩
      intro t ht; simp at ht; subst ht
      exact ⟨hsw, by omega⟩
    · intro hf
      rw [hs, FrontNonEmpty_snoc, hseg, AllNonEmpty_append]
      rw [hseg, FrontNonEmpty_snoc] at hf
      refine ⟨hf, ?_⟩
      intro t ht; simp at ht; subst ht; omega
    · intro ha
      rw [hs, AllNonEmpty_append]
      refine ⟨ha, ?_⟩
      intro t ht; simp at ht; subst ht; omega


theorem FrontNonEmpty_cons_pos {s : Segment T} {l : List (Segment T)} (hs : 0 < s.data.size)
    (h : FrontNonEmpty l) : FrontNonEmpty (s :: l) := by
  cases l with
  | nil => exact FrontNonEmpty_singleton s
  | cons t l1 => exact FrontNonEmpty_cons_cons.mpr ⟨hs, h⟩

theorem SegsOK_one {cap : Int} {s : Segment T} (hw : s.data.WF) (hc : (s.data.size : Int) ≤ cap) :
    SegsOK cap [s] := by
  intro t ht; simp at ht; subst ht; exact ⟨hw, hc⟩

theorem AllNonEmpty_one {s : Segment T} (h : 0 < s.data.size) : AllNonEmpty [s] := by
  intro t ht; simp at ht; subst ht; exact h

theorem PrependInPlace_keeps (d d1 : SegmentedDeque T) (hinv : d.Inv) (x : T)
    (h : d.PrependInPlace x = .ok d1) :
    d1.segmentCapacity = d.segmentCapacity ∧ d1.totalSize = d.totalSize + 1
      ∧ d1.toList = x :: d.toList ∧ Keeps d d1 := by
  obtain ⟨d2, hrun, hc, ht, hcases⟩ := PrependInPlace_spec d hinv x
  rw [hrun] at h
  cases h
  obtain ⟨hcap, hsum, hok⟩ := hinv
  refine ⟨hc, ht, ?_⟩
  rcases hcases with ⟨h0, s, hs, hsw, hse⟩ |
    ⟨h0, head, rest, hseg, ⟨hlt, s, hs, hsw, hse⟩ | ⟨hge, s, hs, hsw, hse⟩⟩
  · have hsz := size_of_elems hsw hse
    simp only [List.length_singleton] at hsz
    have hnil : flat d.segs = [] := flat_eq_nil_of_sum hok (by omega)
    refine ⟨?_, ⟨?_, ?_, ?_⟩, ?_, ?_⟩
    · rw [toList_eq, toList_eq, hs, hnil, flat_cons, flat_nil, hse]; rfl
    · omega
    · rw [ht, hs, sizeSum_cons, sizeSum_nil, hsz, h0]; simp
    · rw [hs, hc]; exact SegsOK_one hsw (by omega)
    · intro _; rw [hs]; exact FrontNonEmpty_singleton s
    · intro _; rw [hs]; exact AllNonEmpty_one (by omega)
  · have hsz := size_of_elems hsw hse
    have hts := elems_length (hok head (by rw [hseg]; simp)).1
    rw [List.length_cons, hts] at hsz
    rw [hseg] at hok hsum
    rw [SegsOK_cons] at hok
    refine ⟨?_, ⟨?_, ?_, ?_⟩, ?_, ?_⟩
    · rw [toList_eq, toList_eq, hs, hseg, flat_cons, flat_cons, hse]; rfl
    · omega
    · rw [ht, hs, hsum, sizeSum_cons, sizeSum_cons, hsz]; omega
    · rw [hs, hc, SegsOK_cons]
      exact ⟨⟨hsw, by omega⟩, hok.2⟩
    · rw [hs, hseg]
      intro hf
      exact FrontNonEmpty_cons_pos (by omega) (FrontNonEmpty_tail hf)
    · rw [hs, hseg, AllNonEmpty_cons, AllNonEmpty_cons]
      intro h
      exact ⟨by omega, h.2⟩
  · have hsz := size_of_elems hsw hse
    simp only [List.length_singleton] at hsz
    refine ⟨?_, ⟨?_, ?_, ?_⟩, ?_, ?_⟩
    · rw [toList_eq, toList_eq, hs, flat_cons, hse]; rfl
    · omega
    · rw [ht, hs, hsum, sizeSum_cons, hsz]; omega
    · rw [hs, hc, SegsOK_cons]
      exact ⟨⟨hsw, by omega⟩, hok⟩
    · intro hf
      rw [hs]
      exact FrontNonEmpty_cons_pos (by omega) hf
    · intro ha
      rw [hs, AllNonEmpty_cons]
      exact ⟨by omega, ha⟩

theorem list_insert_mid {α : Type} (P E Q : List α) (o : Nat) (x : α) (ho : o ≤ E.length) :
    (P ++ (E ++ Q)).take (P.length + o) ++ x :: (P ++ (E ++ Q)).drop (P.length + o)
      = P ++ ((E.take o ++ x :: E.drop o) ++ Q) := by
  rw [List.take_append, List.drop_append, List.take_append_of_le_length ho,
    List.drop_append_of_le_length ho]
  simp

theorem list_erase_mid {α : Type} (P E Q : List α) (o : Nat) (ho : o < E.length) :
    (P ++ (E ++ Q)).eraseIdx (P.length + o) = P ++ (E.eraseIdx o ++ Q) := by
  rw [List.eraseIdx_append_of_length_le (by omega)]
  have : P.length + o - P.length = o := by omega
  rw [this, List.eraseIdx_append_of_lt_length ho]

theorem FrontNonEmpty_replace {pre post : List (Segment T)} {s t : Segment T}
    (ht : 0 < t.data.size) (h : FrontNonEmpty (pre ++ s :: post)) :
    FrontNonEmpty (pre ++ t :: post) := by
  rw [FrontNonEmpty_append_cons] at h ⊢
  exact ⟨h.1, FrontNonEmpty_cons_pos ht (FrontNonEmpty_tail h.2)⟩

/-- The two halves produced by a split hold the old elements with the item inserted, are
not empty and fit in the capacity. -/
theorem split_facts (seg s1 s2 : Segment T) (x : T) (o : Nat) (cap : Int)
    (hsw : seg.data.WF) (hs1w : s1.data.WF) (hs2w : s2.data.WF) (ho : o < seg.data.size)
    (hcap : 1 ≤ cap) (heq : (seg.data.size : Int) = cap)
    (hsplit : (o ≤ seg.data.size / 2
              ∧ s1.data.elems = seg.data.elems.take o
                  ++ x :: (seg.data.elems.take (seg.data.size / 2)).drop o
              ∧ s2.data.elems = seg.data.elems.drop (seg.data.size / 2)) ∨
           (seg.data.size / 2 < o
              ∧ s1.data.elems = seg.data.elems.take (seg.data.size / 2)
              ∧ s2.data.elems = (seg.data.elems.drop (seg.data.size / 2)).take
                    (o - seg.data.size / 2) ++ x :: seg.data.elems.drop o)) :
    s1.data.elems ++ s2.data.elems = seg.data.elems.take o ++ x :: seg.data.elems.drop o
      ∧ 0 < s1.data.size ∧ 0 < s2.data.size
      ∧ (s1.data.size : Int) ≤ cap ∧ (s2.data.size : Int) ≤ cap
      ∧ s1.data.size + s2.data.size = seg.data.size + 1 := by
  have hlen := elems_length hsw
  rcases hsplit with ⟨hom, h1e, h2e⟩ | ⟨hom, h1e, h2e⟩
  · have z1 := size_of_elems hs1w h1e
    have z2 := size_of_elems hs2w h2e
    simp only [List.length_append, List.length_take, List.length_cons, List.length_drop,
      hlen] at z1 z2
    refine ⟨?_, by omega, by omega, by omega, by omega, by omega⟩
    rw [h1e, h2e, List.append_assoc, List.cons_append]
    congr 2
    conv_rhs => rw [← List.take_append_drop (seg.data.size / 2) seg.data.elems]
    rw [List.drop_append_of_le_length (by simp; omega)]
  · have z1 := size_of_elems hs1w h1e
    have z2 := size_of_elems hs2w h2e
    simp only [List.length_append, List.length_take, List.length_cons, List.length_drop,
      hlen] at z1 z2
    refine ⟨?_, by omega, by omega, by omega, by omega, by omega⟩
    rw [h1e, h2e, ← List.append_assoc]
    congr 1
    have : o = seg.data.size / 2 + (o - seg.data.size / 2) := by omega
    conv_rhs => rw [this, List.take_add]

theorem InsertAtInPlace_mid_keeps (d d1 : SegmentedDeque T) (hinv : d.Inv) (x : T) (n : Nat)
    (h0 : 0 < n) (hn : (n : Int) < d.totalSize)
    (h : d.InsertAtInPlace x (n : Int) = .ok d1) :
    d1.segmentCapacity = d.segmentCapacity ∧ d1.totalSize = d.totalSize + 1
      ∧ d1.toList = d.toList.take n ++ x :: d.toList.drop n ∧ Keeps d d1 := by
  obtain ⟨d2, pre, seg, post, o, hrun, hc, ht, hseg, _, ho, hs, hcases⟩ :=
    InsertAtInPlace_mid_spec d hinv x n h0 hn
  rw [hrun] at h
  cases h
  obtain ⟨hcap, hsum, hok⟩ := hinv
  refine ⟨hc, ht, ?_⟩
  have hsegok := hok
  rw [hseg, SegsOK_append, SegsOK_cons] at hsegok
  obtain ⟨hpre, ⟨hsw, hsc⟩, hpost⟩ := hsegok
  have hlen := elems_length hsw
  have hP : (flat pre).length + o = n := by rw [length_flat hpre]; exact hs
  rw [hseg] at hsum
  rw [sizeSum_append, sizeSum_cons] at hsum
  rcases hcases with ⟨hlt, s, hs1, hs1w, hs1e⟩ | ⟨heq, s1, s2, hs1, hs1w, hs2w, hsplit⟩
  · have hsz := size_of_elems hs1w hs1e
    simp only [List.length_append, List.length_take, List.length_cons, List.length_drop,
      hlen] at hsz
    refine ⟨?_, ⟨?_, ?_, ?_⟩, ?_, ?_⟩
    · rw [toList_eq, toList_eq, hs1, hseg, flat_append, flat_append, flat_cons, flat_cons,
        hs1e, ← hP]
      exact (list_insert_mid _ _ _ o x (by omega)).symm
    · omega
    · rw [ht, hs1, hsum, sizeSum_append, sizeSum_cons, hsz]
      have : min o seg.data.size = o := by omega
      rw [this]
      push_cast
      omega
    · rw [hs1, hc, SegsOK_append, SegsOK_cons]
      exact ⟨hpre, ⟨hs1w, by omega⟩, hpost⟩
    · rw [hs1, hseg]
      exact FrontNonEmpty_replace (by omega)
    · rw [hs1, hseg, AllNonEmpty_append, AllNonEmpty_append, AllNonEmpty_cons, AllNonEmpty_cons]
      intro h
      exact ⟨h.1, by omega, h.2.2⟩
  · have hsum12 := split_facts seg s1 s2 x o d.segmentCapacity hsw hs1w hs2w ho hcap heq hsplit
    obtain ⟨hcat, hp1, hp2, hc1, hc2, hsz⟩ := hsum12
    refine ⟨?_, ⟨?_, ?_, ?_⟩, ?_, ?_⟩
    · rw [toList_eq, toList_eq, hs1, hseg, flat_append, flat_append, flat_cons, flat_cons,
        flat_cons, ← List.append_assoc s1.data.elems, hcat, ← hP]
      exact (list_insert_mid _ _ _ o x (by omega)).symm
    · omega
    · rw [ht, hs1, hsum, sizeSum_append, sizeSum_cons, sizeSum_cons]
      push_cast
      omega
    · rw [hs1, SegsOK_append, SegsOK_cons, SegsOK_cons, hc]
      exact ⟨hpre, ⟨hs1w, hc1⟩, ⟨hs2w, hc2⟩, hpost⟩
    · rw [hs1, hseg, FrontNonEmpty_append_cons, FrontNonEmpty_append_cons]
      intro h
      exact ⟨h.1, FrontNonEmpty_cons_pos hp1 (FrontNonEmpty_cons_pos hp2 (FrontNonEmpty_tail h.2))⟩
    · rw [hs1, hseg, AllNonEmpty_append, AllNonEmpty_append, AllNonEmpty_cons, AllNonEmpty_cons,
        AllNonEmpty_cons]
      intro h
      exact ⟨h.1, hp1, hp2, h.2.2⟩


theorem InsertAtInPlace_error (d : SegmentedDeque T) (x : T) (index : Int)
    (h : index < 0 ∨ d.totalSize < index) :
    d.InsertAtInPlace x index = .error Err.indexOutOfRange := by
  unfold InsertAtInPlace
  have : index < 0 ∨ index > d.totalSize := by omega
  simp only [this, if_true]
  rfl

theorem length_toList (d : SegmentedDeque T) (hinv : d.Inv) :
    (d.toList.length : Int) = d.totalSize := by
  rw [toList_eq, length_flat hinv.2.2, hinv.2.1]

/-- Effect of a successful `InsertAtInPlace` on a deque that satisfies the invariant. -/
theorem InsertAtInPlace_keeps (d d1 : SegmentedDeque T) (hinv : d.Inv) (x : T) (index : Int)
    (h : d.InsertAtInPlace x index = .ok d1) :
    0 ≤ index ∧ index ≤ d.totalSize ∧ d1.segmentCapacity = d.segmentCapacity
      ∧ d1.totalSize = d.totalSize + 1
      ∧ d1.toList = d.toList.take index.toNat ++ x :: d.toList.drop index.toNat
      ∧ Keeps d d1 := by
  by_cases hr : index < 0 ∨ d.totalSize < index
  · rw [InsertAtInPlace_error d x index hr] at h
    cases h
  · have hlen := length_toList d hinv
    refine ⟨by omega, by omega, ?_⟩
    by_cases h0 : index = 0
    · have hc1 : ¬ (index < 0 ∨ index > d.totalSize) := by omega
      have hp : d.PrependInPlace x = .ok d1 := by
        unfold InsertAtInPlace at h
        rw [if_neg hc1, if_pos h0] at h
        exact h
      obtain ⟨hc, ht, hl, hk⟩ := PrependInPlace_keeps d d1 hinv x hp
      exact ⟨hc, ht, by rw [hl, h0]; simp, hk⟩
    · by_cases ht : index = d.totalSize
      · have hp : d.AppendInPlace x = .ok d1 := by
          unfold InsertAtInPlace at h
          have hc1 : ¬ (index < 0 ∨ index > d.totalSize) := by omega
          rw [if_neg hc1, if_neg h0, if_pos ht] at h
          exact h
        obtain ⟨hc, htt, hl, hk⟩ := AppendInPlace_keeps d d1 hinv x hp
        refine ⟨hc, htt, ?_, hk⟩
        have : index.toNat = d.toList.length := by omega
        rw [hl, this]
        simp
      · obtain ⟨n, rfl⟩ : ∃ n : Nat, index = (n : Int) := ⟨index.toNat, by omega⟩
        have := InsertAtInPlace_mid_keeps d d1 hinv x n (by omega) (by omega) h
        simpa using this

/-- Success of `InsertAtInPlace` for every index in `[0, totalSize]`. -/
theorem InsertAtInPlace_ok (d : SegmentedDeque T) (hinv : d.Inv) (x : T) (index : Int)
    (h0 : 0 ≤ index) (h1 : index ≤ d.totalSize) : ∃ d1, d.InsertAtInPlace x index = .ok d1 := by
  by_cases hz : index = 0
  · obtain ⟨d1, hrun, _⟩ := PrependInPlace_spec d hinv x
    refine ⟨d1, ?_⟩
    unfold InsertAtInPlace
    have hc1 : ¬ (index < 0 ∨ index > d.totalSize) := by omega
    rw [if_neg hc1, if_pos hz]
    exact hrun
  · by_cases ht : index = d.totalSize
    · obtain ⟨d1, hrun, _⟩ := AppendInPlace_spec d hinv x
      refine ⟨d1, ?_⟩
      unfold InsertAtInPlace
      have hc1 : ¬ (index < 0 ∨ index > d.totalSize) := by omega
      rw [if_neg hc1, if_neg hz, if_pos ht]
      exact hrun
    · obtain ⟨n, rfl⟩ : ∃ n : Nat, index = (n : Int) := ⟨index.toNat, by omega⟩
      obtain ⟨d1, _, _, _, _, hrun, _⟩ :=
        InsertAtInPlace_mid_spec d hinv x n (by omega) (by omega)
      exact ⟨d1, hrun⟩

theorem FrontNonEmpty_append {pre post : List (Segment T)} (h1 : AllNonEmpty pre)
    (h2 : FrontNonEmpty post) : FrontNonEmpty (pre ++ post) := by
  cases post with
  | nil => rw [List.append_nil]; exact FrontNonEmpty_of_all h1
  | cons s l => exact FrontNonEmpty_append_cons.mpr ⟨h1, h2⟩

theorem PopFront_error_empty (d : SegmentedDeque T) (h : d.totalSize = 0) :
    d.PopFront = .error Err.dequeEmpty := by
  unfold PopFront; simp only [h, if_true]; rfl

theorem PopBack_error_empty (d : SegmentedDeque T) (h : d.totalSize = 0) :
    d.PopBack = .error Err.dequeEmpty := by
  unfold PopBack; simp only [h, if_true]; rfl

/-- Effect of a successful `PopFront` on a deque that satisfies the invariant. -/
theorem PopFront_keeps (d d1 : SegmentedDeque T) (hinv : d.Inv) (v : T)
    (h : d.PopFront = .ok (v, d1)) :
    d1.segmentCapacity = d.segmentCapacity ∧ d1.totalSize = d.totalSize - 1
      ∧ d.toList = v :: d1.toList ∧ Keeps d d1 := by
  by_cases h0 : d.totalSize = 0
  · rw [PopFront_error_empty d h0] at h; cases h
  obtain ⟨head, rest, hseg⟩ := List.exists_cons_of_ne_nil (segs_ne_nil_of_pos d hinv.2.1 h0)
  by_cases hz : head.data.size = 0
  · rw [PopFront_empty_head d h0 head rest hseg hz] at h; cases h
  obtain ⟨v2, l, d2, hvl, hrun, hc, ht, hcases⟩ :=
    PopFront_spec d hinv head rest hseg (by omega)
  rw [hrun] at h
  cases h
  obtain ⟨hcap, hsum, hok⟩ := hinv
  refine ⟨hc, ht, ?_⟩
  have hok2 := hok
  rw [hseg, SegsOK_cons] at hok2
  obtain ⟨⟨hhw, hhc⟩, hrok⟩ := hok2
  have hhs := size_of_elems hhw hvl
  simp only [List.length_cons] at hhs
  rw [hseg, sizeSum_cons] at hsum
  rcases hcases with ⟨h1, hs⟩ | ⟨h1, hl, hrest, hs⟩ | ⟨h1, hl, s, hs, hsw, hse⟩
  · have hl : l = [] := List.eq_nil_of_length_eq_zero (by omega)
    have hr : flat rest = [] := flat_eq_nil_of_sum hrok (by omega)
    refine ⟨?_, ⟨?_, ?_, ?_⟩, ?_, ?_⟩
    · rw [toList_eq, toList_eq, hs, hseg, flat_cons, hvl, hl, hr]; rfl
    · omega
    · rw [ht, hs, sizeSum_nil, h1]; rfl
    · rw [hs]; exact SegsOK_nil _
    · intro _; rw [hs]; exact FrontNonEmpty_nil
    · intro _; rw [hs]; exact AllNonEmpty_nil
  · subst hl
    simp only [List.length_nil] at hhs
    refine ⟨?_, ⟨?_, ?_, ?_⟩, ?_, ?_⟩
    · rw [toList_eq, toList_eq, hs, hseg, flat_cons, hvl]; rfl
    · omega
    · rw [ht, hs, hsum]; omega
    · rw [hs, hc]; exact hrok
    · rw [hs, hseg]; exact FrontNonEmpty_tail
    · rw [hs, hseg, AllNonEmpty_cons]; exact fun h => h.2
  · have hsz := size_of_elems hsw hse
    have hlpos : 0 < l.length := List.length_pos.mpr hl
    refine ⟨?_, ⟨?_, ?_, ?_⟩, ?_, ?_⟩
    · rw [toList_eq, toList_eq, hs, hseg, flat_cons, flat_cons, hvl, hse]; rfl
    · omega
    · rw [ht, hs, hsum, sizeSum_cons]; omega
    · rw [hs, hc, SegsOK_cons]; exact ⟨⟨hsw, by omega⟩, hrok⟩
    · rw [hs, hseg]
      intro hf
      exact FrontNonEmpty_cons_pos (by omega) (FrontNonEmpty_tail hf)
    · rw [hs, hseg, AllNonEmpty_cons, AllNonEmpty_cons]
      exact fun h => ⟨by omega, h.2⟩

/-- Effect of a successful `PopBack` on a deque that satisfies the invariant. -/
theorem PopBack_keeps (d d1 : SegmentedDeque T) (hinv : d.Inv) (v : T)
    (h : d.PopBack = .ok (v, d1)) :
    d1.segmentCapacity = d.segmentCapacity ∧ d1.totalSize = d.totalSize - 1
      ∧ d.toList = d1.toList ++ [v] ∧ Keeps d d1 := by
  by_cases h0 : d.totalSize = 0
  · rw [PopBack_error_empty d h0] at h; cases h
  obtain ⟨front, tail, hseg⟩ := eq_snoc_of_ne_nil d.segs (segs_ne_nil_of_pos d hinv.2.1 h0)
  by_cases hz : tail.data.size = 0
  · rw [PopBack_empty_tail d h0 front tail hseg hz] at h; cases h
  obtain ⟨v2, l, d2, hvl, hrun, hc, ht, hcases⟩ :=
    PopBack_spec d hinv front tail hseg (by omega)
  rw [hrun] at h
  cases h
  obtain ⟨hcap, hsum, hok⟩ := hinv
  refine ⟨hc, ht, ?_⟩
  have hok2 := hok
  rw [hseg, SegsOK_append] at hok2
  obtain ⟨hfok, htok⟩ := hok2
  obtain ⟨htw, htc⟩ := htok tail (by simp)
  have hhs := size_of_elems htw hvl
  simp only [List.length_append, List.length_singleton] at hhs
  rw [hseg, sizeSum_append, sizeSum_cons, sizeSum_nil] at hsum
  rcases hcases with ⟨h1, hs⟩ | ⟨h1, hl, hfront, hs⟩ | ⟨h1, hl, s, hs, hsw, hse⟩
  · have hl : l = [] := List.eq_nil_of_length_eq_zero (by omega)
    have hr : flat front = [] := flat_eq_nil_of_sum hfok (by omega)
    refine ⟨?_, ⟨?_, ?_, ?_⟩, ?_, ?_⟩
    · rw [toList_eq, toList_eq, hs, hseg, flat_append, flat_cons, hvl, hl, hr]; rfl
    · omega
    · rw [ht, hs, sizeSum_nil, h1]; rfl
    · rw [hs]; exact SegsOK_nil _
    · intro _; rw [hs]; exact FrontNonEmpty_nil
    · intro _; rw [hs]; exact AllNonEmpty_nil
  · subst hl
    simp only [List.length_nil] at hhs
    refine ⟨?_, ⟨?_, ?_, ?_⟩, ?_, ?_⟩
    · rw [toList_eq, toList_eq, hs, hseg, flat_append, flat_cons, hvl]; rfl
    · omega
    · rw [ht, hs, hsum]; omega
    · rw [hs, hc]; exact hfok
    · rw [hs, hseg, FrontNonEmpty_snoc]; exact FrontNonEmpty_of_all
    · rw [hs, hseg, AllNonEmpty_append]; exact fun h => h.1
  · have hsz := size_of_elems hsw hse
    have hlpos : 0 < l.length := List.length_pos.mpr hl
    refine ⟨?_, ⟨?_, ?_, ?_⟩, ?_, ?_⟩
    · rw [toList_eq, toList_eq, hs, hseg, flat_append, flat_append, flat_cons, flat_cons,
        hvl, hse]
      simp [flat_nil]
    · omega
    · rw [ht, hs, hsum, sizeSum_append, sizeSum_cons, sizeSum_nil]; omega
    · rw [hs, hc, SegsOK_append]; exact ⟨hfok, SegsOK_one hsw (by omega)⟩
    · rw [hs, hseg, FrontNonEmpty_snoc, FrontNonEmpty_snoc]; exact id
    · rw [hs, hseg, AllNonEmpty_append, AllNonEmpty_append]
      exact fun h => ⟨h.1, AllNonEmpty_one (by omega)⟩

theorem RemoveAt_error (d : SegmentedDeque T) (index : Int)
    (h : index < 0 ∨ d.totalSize ≤ index) :
    d.RemoveAt index = .error Err.indexOutOfRange := by
  unfold RemoveAt
  have : index < 0 ∨ index ≥ d.totalSize := by omega
  simp only [this, if_true]
  rfl

/-- Effect of a successful `RemoveAt` on a deque that satisfies the invariant. -/
theorem RemoveAt_keeps (d d1 : SegmentedDeque T) (hinv : d.Inv) (index : Int) (v : T)
    (h : d.RemoveAt index = .ok (v, d1)) :
    0 ≤ index ∧ index < d.totalSize ∧ d1.segmentCapacity = d.segmentCapacity
      ∧ d1.totalSize = d.totalSize - 1
      ∧ d.toList[index.toNat]? = some v ∧ d1.toList = d.toList.eraseIdx index.toNat
      ∧ Keeps d d1 := by
  by_cases hr : index < 0 ∨ d.totalSize ≤ index
  · rw [RemoveAt_error d index hr] at h; cases h
  have hlen := length_toList d hinv
  refine ⟨by omega, by omega, ?_⟩
  have hc1 : ¬ (index < 0 ∨ index ≥ d.totalSize) := by omega
  by_cases h0 : index = 0
  · have hp : d.PopFront = .ok (v, d1) := by
      unfold RemoveAt at h
      rw [if_neg hc1, if_pos h0] at h
      exact h
    obtain ⟨hc, ht, hl, hk⟩ := PopFront_keeps d d1 hinv v hp
    exact ⟨hc, ht, by rw [hl, h0]; simp, by rw [hl, h0]; simp, hk⟩
  · by_cases ht : index = d.totalSize - 1
    · have hp : d.PopBack = .ok (v, d1) := by
        unfold RemoveAt at h
        rw [if_neg hc1, if_neg h0, if_pos ht] at h
        exact h
      obtain ⟨hc, htt, hl, hk⟩ := PopBack_keeps d d1 hinv v hp
      have hlen1 : index.toNat = d1.toList.length := by
        rw [hl] at hlen
        simp only [List.length_append, List.length_singleton] at hlen
        omega
      refine ⟨hc, htt, ?_, ?_, hk⟩
      · rw [hl, hlen1]; simp
      · rw [hl, hlen1, List.eraseIdx_append_of_length_le (Nat.le_refl _)]
        simp
    · obtain ⟨n, rfl⟩ : ∃ n : Nat, index = (n : Int) := ⟨index.toNat, by omega⟩
      obtain ⟨v2, d2, pre, seg, post, o, hrun, hc, htt, hseg, ho, hs, hv, hcases⟩ :=
        RemoveAt_mid_spec d hinv n (by omega) (by omega)
      rw [hrun] at h
      cases h
      obtain ⟨hcap, hsum, hok⟩ := hinv
      refine ⟨hc, htt, ?_⟩
      have hok2 := hok
      rw [hseg, SegsOK_append, SegsOK_cons] at hok2
      obtain ⟨hpre, ⟨hsw, hsc⟩, hpost⟩ := hok2
      have hsl := elems_length hsw
      have hP : (flat pre).length + o = n := by rw [length_flat hpre]; exact hs
      rw [hseg, sizeSum_append, sizeSum_cons] at hsum
      simp only [Int.toNat_ofNat]
      have hget : d.toList[n]? = some v := by
        rw [toList_eq, hseg, ← hs, flat_getElem? pre post seg o hpre]
        simp [hsl, ho, hv]
      have hflat : flat (pre ++ seg :: post) = flat pre ++ (seg.data.elems ++ flat post) := by
        rw [flat_append, flat_cons]
      rcases hcases with ⟨h1, hs1⟩ | ⟨h1, s, hs1, hs1w, hs1e⟩
      · have he1 : seg.data.elems.eraseIdx o = [] := by
          apply List.eq_nil_of_length_eq_zero
          rw [List.length_eraseIdx, hsl]
          simp only [ho, if_true]
          omega
        refine ⟨hget, ?_, ⟨?_, ?_, ?_⟩, ?_, ?_⟩
        · rw [toList_eq, toList_eq, hs1, hseg, hflat, ← hP,
            list_erase_mid _ _ _ o (by omega), he1, flat_append]
          rfl
        · omega
        · rw [htt, hs1, hsum, sizeSum_append]; omega
        · rw [hs1, hc, SegsOK_append]; exact ⟨hpre, hpost⟩
        · rw [hs1, hseg, FrontNonEmpty_append_cons]
          exact fun h => FrontNonEmpty_append h.1 (FrontNonEmpty_tail h.2)
        · rw [hs1, hseg, AllNonEmpty_append, AllNonEmpty_append, AllNonEmpty_cons]
          exact fun h => ⟨h.1, h.2.2⟩
      · have hsz := size_of_elems hs1w hs1e
        rw [List.length_eraseIdx] at hsz
        simp only [hsl, ho, if_true] at hsz
        refine ⟨hget, ?_, ⟨?_, ?_, ?_⟩, ?_, ?_⟩
        · rw [toList_eq, toList_eq, hs1, hseg, hflat, ← hP,
            list_erase_mid _ _ _ o (by omega), flat_append, flat_cons, hs1e]
        · omega
        · rw [htt, hs1, hsum, sizeSum_append, sizeSum_cons]; omega
        · rw [hs1, hc, SegsOK_append, SegsOK_cons]; exact ⟨hpre, ⟨hs1w, by omega⟩, hpost⟩
        · rw [hs1, hseg]
          exact FrontNonEmpty_replace (by omega)
        · rw [hs1, hseg, AllNonEmpty_append, AllNonEmpty_append, AllNonEmpty_cons,
            AllNonEmpty_cons]
          exact fun h => ⟨h.1, by omega, h.2.2⟩


theorem Keeps_trans {a b c : SegmentedDeque T} (h1 : Keeps a b) (h2 : Keeps b c) :
    Keeps a c :=
  ⟨h2.1, fun h => h2.2.1 (h1.2.1 h), fun h => h2.2.2 (h1.2.2 h)⟩

theorem Keeps_refl {a : SegmentedDeque T} (h : a.Inv) : Keeps a a := ⟨h, id, id⟩

theorem Clear_keeps (d : SegmentedDeque T) (hinv : d.Inv) :
    d.Clear.segmentCapacity = d.segmentCapacity ∧ d.Clear.totalSize = 0
      ∧ d.Clear.segs = [] ∧ Keeps d d.Clear := by
  refine ⟨rfl, rfl, rfl, ⟨hinv.1, rfl, SegsOK_nil _⟩, fun _ => FrontNonEmpty_nil,
    fun _ => AllNonEmpty_nil⟩

/-- The merge loop succeeds on valid buffers and only regroups the elements. -/
theorem mergeLoop_spec (cap : Int) : ∀ (n : Nat) (segs : List (Segment T)),
    segs.length = n → SegsOK cap segs →
    ∃ segs1, mergeLoop cap segs = .ok segs1 ∧ SegsOK cap segs1 ∧ flat segs1 = flat segs
      ∧ sizeSum segs1 = sizeSum segs ∧ (segs ≠ [] → segs1 ≠ [])
      ∧ segs1.length ≤ segs.length
      ∧ (FrontNonEmpty segs → FrontNonEmpty segs1)
      ∧ (AllNonEmpty segs → AllNonEmpty segs1) := by
  intro n
  induction n using Nat.strong_induction_on with
  | _ n ih =>
    intro segs hlen hok
    match segs, hlen, hok with
    | [], _, _ =>
      exact ⟨[], by rw [mergeLoop]; rfl, SegsOK_nil _, rfl, rfl, id, Nat.le_refl _, id, id⟩
    | [c], _, hok =>
      exact ⟨[c], by rw [mergeLoop]; rfl, hok, rfl, rfl, id, Nat.le_refl _, id, id⟩
    | c :: nx :: rest, hlen, hok =>
      have hok2 := hok
      rw [SegsOK_cons, SegsOK_cons] at hok2
      obtain ⟨⟨hcw, hcc⟩, ⟨hnw, hnc⟩, hrok⟩ := hok2
      by_cases hm : c.data.GetSize + nx.data.GetSize ≤ cap
      · obtain ⟨m, hmrun, hmw, hms, hme⟩ := appendRange_spec nx.data nx.data.size 0 c.data hcw
          (by omega) hnw
        have hme2 : m.elems = c.data.elems ++ nx.data.elems := by
          rw [hme, List.drop_zero, List.take_of_length_le (by rw [elems_length hnw])]
        have hmok : SegsOK cap ({ data := m } :: rest) := by
          rw [SegsOK_cons]
          refine ⟨⟨hmw, ?_⟩, hrok⟩
          unfold GetSize at hm
          show (m.size : Int) ≤ cap
          omega
        obtain ⟨segs1, hrun, hok1, hfl, hsum, hne, hle, hfr, hal⟩ :=
          ih (rest.length + 1) (by simp at hlen; omega) ({ data := m } :: rest) (by simp) hmok
        refine ⟨segs1, ?_, hok1, ?_, ?_, fun _ => hne (by simp), ?_, ?_, ?_⟩
        · rw [mergeLoop]
          simp only [hm, if_true]
          have h0 : appendRange nx.data nx.data.size 0 c.data = .ok m := hmrun
          rw [h0]
          exact hrun
        · rw [hfl, flat_cons, flat_cons, flat_cons, hme2, List.append_assoc]
        · rw [hsum, sizeSum_cons, sizeSum_cons, sizeSum_cons]
          show m.size + sizeSum rest = _
          omega
        · simp only [List.length_cons] at hle ⊢; omega
        · intro h
          apply hfr
          rw [FrontNonEmpty_cons_cons] at h
          exact FrontNonEmpty_cons_pos (by show 0 < m.size; omega) (FrontNonEmpty_tail h.2)
        · intro h
          apply hal
          rw [AllNonEmpty_cons, AllNonEmpty_cons] at h
          rw [AllNonEmpty_cons]
          exact ⟨by show 0 < m.size; omega, h.2.2⟩
      · have hnok : SegsOK cap (nx :: rest) := by
          rw [SegsOK_cons]; exact ⟨⟨hnw, hnc⟩, hrok⟩
        obtain ⟨segs1, hrun, hok1, hfl, hsum, hne, hle, hfr, hal⟩ :=
          ih (rest.length + 1) (by simp at hlen; omega) (nx :: rest) (by simp) hnok
        refine ⟨c :: segs1, ?_, ?_, ?_, ?_, fun _ => by simp, ?_, ?_, ?_⟩
        · rw [mergeLoop]
          simp only [hm, if_false, hrun, bind_ok]
          rfl
        · rw [SegsOK_cons]; exact ⟨⟨hcw, hcc⟩, hok1⟩
        · rw [flat_cons, flat_cons, hfl]
        · rw [sizeSum_cons, sizeSum_cons, hsum]
        · simp only [List.length_cons] at hle ⊢; omega
        · intro h
          rw [FrontNonEmpty_cons_cons] at h
          exact FrontNonEmpty_cons_pos h.1 (hfr h.2)
        · intro h
          rw [AllNonEmpty_cons] at h ⊢
          exact ⟨h.1, hal h.2⟩

/-- Effect of `Optimize` on a deque that satisfies the invariant: it succeeds and regroups. -/
theorem Optimize_spec (d : SegmentedDeque T) (hinv : d.Inv) :
    ∃ d1, d.Optimize = .ok d1 ∧ d1.segmentCapacity = d.segmentCapacity
      ∧ d1.totalSize = d.totalSize ∧ d1.toList = d.toList
      ∧ d1.segs.length ≤ d.segs.length ∧ Keeps d d1 := by
  obtain ⟨hcap, hsum, hok⟩ := hinv
  obtain ⟨segs1, hrun, hok1, hfl, hsum1, _, hle, hfr, hal⟩ :=
    mergeLoop_spec d.segmentCapacity d.segs.length d.segs rfl hok
  refine ⟨{ d with segs := segs1 }, ?_, rfl, rfl, hfl, hle, ⟨hcap, ?_, hok1⟩, hfr, hal⟩
  · unfold Optimize mergeSegments
    rw [hrun]
    rfl
  · show d.totalSize = _
    rw [hsum1]; exact hsum

theorem Optimize_keeps (d d1 : SegmentedDeque T) (hinv : d.Inv) (h : d.Optimize = .ok d1) :
    d1.segmentCapacity = d.segmentCapacity ∧ d1.totalSize = d.totalSize
      ∧ d1.toList = d.toList ∧ d1.segs.length ≤ d.segs.length ∧ Keeps d d1 := by
  obtain ⟨d2, hrun, hrest⟩ := Optimize_spec d hinv
  rw [hrun] at h
  cases h
  exact hrest

/-- A call of `ensureCapacity` keeps the invariant, the elements, and the non-emptiness of
every segment but the last. -/
theorem ensureCapacity_keeps (d : SegmentedDeque T) (hinv : d.Inv)
    (hfr : FrontNonEmpty d.segs) :
    ∃ d1, d.ensureCapacity = .ok d1 ∧ d1.segmentCapacity = d.segmentCapacity
      ∧ d1.totalSize = d.totalSize ∧ d1.toList = d.toList ∧ d1.Inv
      ∧ FrontNonEmpty d1.segs := by
  obtain ⟨hcap, hsum, hok⟩ := hinv
  have hcs : (0 : Int) ≤ d.segmentCapacity := by omega
  have hnew : SegsOK d.segmentCapacity [(Segment.ctor d.segmentCapacity : Segment T)] :=
    SegsOK_one (Segment_ctor_WF _) (by rw [Segment_ctor_size]; exact hcs)
  rcases ensureCapacity_spec d hsum with ⟨h0, he⟩ | ⟨h0, front, tail, hseg, ⟨hlt, he⟩ | ⟨hge, he⟩⟩
  · refine ⟨_, he, rfl, rfl, ?_, ⟨hcap, ?_, hnew⟩, FrontNonEmpty_singleton _⟩
    · rw [toList_eq, toList_eq, flat_eq_nil_of_sum hok (by omega), flat_cons, flat_nil,
        Segment_ctor_elems]
      rfl
    · show d.totalSize = _
      rw [sizeSum_cons, sizeSum_nil, Segment_ctor_size, h0]; rfl
  · exact ⟨d, he, rfl, rfl, rfl, ⟨hcap, hsum, hok⟩, hfr⟩
  · refine ⟨_, he, rfl, rfl, ?_, ⟨hcap, ?_, ?_⟩, ?_⟩
    · rw [toList_eq, toList_eq]
      show flat (d.segs ++ [Segment.ctor d.segmentCapacity]) = _
      rw [flat_append, flat_cons, flat_nil, Segment_ctor_elems]
      simp
    · show d.totalSize = (sizeSum (d.segs ++ [Segment.ctor d.segmentCapacity]) : Nat)
      rw [sizeSum_append, sizeSum_cons, sizeSum_nil, Segment_ctor_size, hsum]; simp
    · show SegsOK d.segmentCapacity (d.segs ++ [Segment.ctor d.segmentCapacity])
      rw [SegsOK_append]; exact ⟨hok, hnew⟩
    · show FrontNonEmpty (d.segs ++ [Segment.ctor d.segmentCapacity])
      rw [FrontNonEmpty_snoc, hseg, AllNonEmpty_append]
      rw [hseg, FrontNonEmpty_snoc] at hfr
      exact ⟨hfr, AllNonEmpty_one (by omega)⟩


theorem ensureLoop_keeps (n : Nat) : ∀ (lo : Int) (d : SegmentedDeque T), d.Inv →
    FrontNonEmpty d.segs →
    ∃ d1, forUp n lo (fun _ s => s.ensureCapacity) d = .ok d1
      ∧ d1.segmentCapacity = d.segmentCapacity
      ∧ d1.totalSize = d.totalSize ∧ d1.toList = d.toList ∧ d1.Inv
      ∧ FrontNonEmpty d1.segs := by
  induction n with
  | zero => intro lo d hinv hfr; exact ⟨d, rfl, rfl, rfl, rfl, hinv, hfr⟩
  | succ n ih =>
    intro lo d hinv hfr
    obtain ⟨d1, h1, hc1, ht1, hl1, hi1, hf1⟩ := ensureCapacity_keeps d hinv hfr
    obtain ⟨d2, h2, hc2, ht2, hl2, hi2, hf2⟩ := ih (lo + 1) d1 hi1 hf1
    refine ⟨d2, ?_, by rw [hc2, hc1], by rw [ht2, ht1], by rw [hl2, hl1], hi2, hf2⟩
    unfold forUp
    simp only [h1, bind_ok]
    exact h2

/-- Effect of `Reserve` on a deque that satisfies the invariant and whose segments other than
the last are not empty. -/
theorem Reserve_spec (d : SegmentedDeque T) (hinv : d.Inv) (hfr : FrontNonEmpty d.segs)
    (expectedSize : Int) :
    ∃ d1, d.Reserve expectedSize = .ok d1 ∧ d1.segmentCapacity = d.segmentCapacity
      ∧ d1.totalSize = d.totalSize ∧ d1.toList = d.toList ∧ d1.Inv
      ∧ FrontNonEmpty d1.segs := by
  unfold Reserve
  exact ensureLoop_keeps _ _ d hinv hfr

end SegmentedDeque
end Lab

namespace Lab
namespace DynamicArray
variable {T : Type} [Inhabited T]

theorem iterUp_inv {σ : Type} (P : σ → Prop) (body : Nat → σ → σ)
    (hbody : ∀ i s, P s → P (body i s)) (n : Nat) :
    ∀ (lo : Nat) (s : σ), P s → P (iterUp n lo body s) := by
  induction n with
  | zero => intro lo s hs; exact hs
  | succ n ih => intro lo s hs; exact ih (lo + 1) (body lo s) (hbody lo s hs)

theorem swapStep_length (comp : T → T → Bool) (j : Nat) (data : List T) :
    (swapStep comp j data).length = data.length := by
  unfold swapStep
  split
  · split <;> simp
  · rfl

theorem SortInPlace_size (a : DynamicArray T) (comp : T → T → Bool) :
    (a.SortInPlace comp).size = a.size := rfl

theorem SortInPlace_data_length (a : DynamicArray T) (comp : T → T → Bool) :
    (a.SortInPlace comp).data.length = a.data.length := by
  unfold SortInPlace
  simp only
  apply iterUp_inv (fun l : List T => l.length = a.data.length)
  · intro i s hs
    apply iterUp_inv (fun l : List T => l.length = a.data.length)
    · intro j t ht
      rw [swapStep_length]; exact ht
    · exact hs
  · rfl

theorem SortInPlace_WF (a : DynamicArray T) (comp : T → T → Bool) (h : a.WF) :
    (a.SortInPlace comp).WF := by
  unfold WF at *
  rw [SortInPlace_size, SortInPlace_data_length]; exact h

end DynamicArray

namespace SegmentedDeque
open DynamicArray
variable {T : Type} [Inhabited T]

theorem collect_spec (cap : Int) (segs : List (Segment T)) : ∀ (t : DynamicArray T),
    SegsOK cap segs → t.WF →
    ∃ t1, collect segs t = .ok t1 ∧ t1.WF ∧ t1.elems = t.elems ++ flat segs := by
  induction segs with
  | nil => intro t _ hw; exact ⟨t, rfl, hw, by simp [flat_nil]⟩
  | cons s l ih =>
    intro t hok hw
    rw [SegsOK_cons] at hok
    obtain ⟨⟨hsw, _⟩, hlok⟩ := hok
    obtain ⟨m, hmrun, hmw, _, hme⟩ := appendRange_spec s.data s.data.size 0 t hw (by omega) hsw
    obtain ⟨t1, hrun, hw1, he1⟩ := ih m hlok hmw
    refine ⟨t1, ?_, hw1, ?_⟩
    · unfold collect
      have h0 : appendRange s.data s.data.size 0 t = .ok m := hmrun
      simp only [h0, bind_ok]
      exact hrun
    · rw [he1, hme, flat_cons, List.drop_zero,
        List.take_of_length_le (by rw [elems_length hsw]), List.append_assoc]

theorem refill_spec (temp : DynamicArray T) (n : Nat) : ∀ (a : DynamicArray T) (ti : Nat),
    a.WF → ti + n ≤ temp.size → temp.WF →
    ∃ a1, refill temp n (a, (ti : Int)) = .ok (a1, ((ti + n : Nat) : Int)) ∧ a1.WF
      ∧ a1.size = a.size + n ∧ a1.elems = a.elems ++ (temp.elems.drop ti).take n := by
  induction n with
  | zero => intro a ti hw _ _; exact ⟨a, rfl, hw, rfl, by simp⟩
  | succ n ih =>
    intro a ti hw hti htw
    have hlen := elems_length htw
    have hl : ti < temp.elems.length := by omega
    obtain ⟨a1, hrun, hw1, hs1, he1⟩ := ih (a.Append temp.elems[ti]) (ti + 1)
      (Append_WF _ _ hw) (by omega) htw
    refine ⟨a1, ?_, hw1, ?_, ?_⟩
    · unfold refill
      have hc : (ti : Int) < temp.GetSize := by unfold GetSize; omega
      simp only [hc, if_true, Get_ok temp ti _ (List.getElem?_eq_getElem hl), bind_ok]
      have h1 : (ti : Int) + 1 = ((ti + 1 : Nat) : Int) := by omega
      have h2 : ti + (n + 1) = ti + 1 + n := by omega
      rw [h1, h2]
      exact hrun
    · rw [hs1, Append_size]; omega
    · rw [he1, Append_elems _ _ hw, List.drop_eq_getElem_cons hl, List.take_succ_cons,
        List.append_assoc]
      rfl

theorem redistribute_spec (cap : Int) (temp : DynamicArray T) (htw : temp.WF)
    (segs : List (Segment T)) : ∀ (ti : Nat), SegsOK cap segs →
    ti + sizeSum segs ≤ temp.size →
    ∃ segs1, redistribute temp segs (ti : Int) = .ok segs1 ∧ SegsOK cap segs1
      ∧ segs1.map (fun s => s.data.size) = segs.map (fun s => s.data.size)
      ∧ flat segs1 = (temp.elems.drop ti).take (sizeSum segs) := by
  induction segs with
  | nil => intro ti _ _; exact ⟨[], rfl, SegsOK_nil _, rfl, by simp [flat_nil, sizeSum_nil]⟩
  | cons s l ih =>
    intro ti hok hti
    have hok0 := hok
    rw [SegsOK_cons] at hok
    obtain ⟨⟨hsw, hsc⟩, hlok⟩ := hok
    rw [sizeSum_cons] at hti
    by_cases hc : (ti : Int) < temp.GetSize
    · obtain ⟨a0, h0run, h0w, h0s, h0e⟩ := Resize_shrink s.data hsw 0 (by omega)
      obtain ⟨a1, h1run, h1w, h1s, h1e⟩ := refill_spec temp s.data.size a0 ti h0w
        (by omega) htw
      obtain ⟨rest1, hrun, hrok, hrs, hrf⟩ := ih (ti + s.data.size) hlok (by omega)
      refine ⟨{ data := a1 } :: rest1, ?_, ?_, ?_, ?_⟩
      · unfold redistribute
        have hz : s.data.Resize 0 = .ok a0 := h0run
        have hn : s.data.GetSize.toNat = s.data.size := by unfold GetSize; omega
        simp only [hc, if_true, hz, bind_ok, hn, h1run, hrun]
        rfl
      · rw [SegsOK_cons]
        refine ⟨⟨h1w, ?_⟩, hrok⟩
        show (a1.size : Int) ≤ cap
        omega
      · simp only [List.map_cons, hrs]
        congr 1
        show a1.size = s.data.size
        omega
      · rw [flat_cons, hrf, sizeSum_cons]
        show a1.elems ++ _ = _
        rw [h1e, h0e, List.take_zero, List.nil_append, List.take_add, List.drop_drop]
    · have hz : s.data.size + sizeSum l = 0 := by unfold GetSize at hc; omega
      refine ⟨s :: l, ?_, hok0, rfl, ?_⟩
      · unfold redistribute
        simp only [hc, if_false]
        rfl
      · rw [flat_eq_nil_of_sum hok0 (by rw [sizeSum_cons]; exact hz), sizeSum_cons, hz]
        simp

theorem AllNonEmpty_iff_sizes (l : List (Segment T)) :
    AllNonEmpty l ↔ ∀ n ∈ l.map (fun s => s.data.size), 0 < n := by
  unfold AllNonEmpty; simp

theorem FrontNonEmpty_iff_sizes (l : List (Segment T)) :
    FrontNonEmpty l ↔ ∀ n ∈ (l.map (fun s => s.data.size)).dropLast, 0 < n := by
  unfold FrontNonEmpty
  rw [← List.map_dropLast]
  simp only [List.mem_map, forall_exists_index, and_imp, forall_apply_eq_imp_iff₂]

theorem sizeSum_of_sizes {l1 l2 : List (Segment T)}
    (h : l1.map (fun s => s.data.size) = l2.map (fun s => s.data.size)) :
    sizeSum l1 = sizeSum l2 := by
  unfold sizeSum; rw [h]

/-- Effect of `SortInPlace`: it succeeds, keeps the size of every segment and stores the
bubble-sorted copy of the elements. -/
theorem SortInPlace_spec (d : SegmentedDeque T) (hinv : d.Inv) (comp : T → T → Bool) :
    ∃ d1, d.SortInPlace comp = .ok d1 ∧ d1.segmentCapacity = d.segmentCapacity
      ∧ d1.totalSize = d.totalSize
      ∧ d1.segs.map (fun s => s.data.size) = d.segs.map (fun s => s.data.size)
      ∧ SegsOK d.segmentCapacity d1.segs
      ∧ (d.totalSize ≤ 1 ∧ d1 = d ∨
         1 < d.totalSize ∧ ∃ temp : DynamicArray T, temp.WF ∧ temp.elems = d.toList
           ∧ d1.toList = (temp.SortInPlace comp).elems) := by
  obtain ⟨hcap, hsum, hok⟩ := hinv
  by_cases h1 : d.totalSize ≤ 1
  · refine ⟨d, ?_, rfl, rfl, rfl, hok, Or.inl ⟨h1, rfl⟩⟩
    unfold SortInPlace
    simp only [h1, if_true]
    rfl
  · obtain ⟨temp, htrun, htw, hte⟩ := collect_spec d.segmentCapacity d.segs DynamicArray.ctor
      hok ctor_WF
    rw [ctor_elems, List.nil_append] at hte
    have hsw := SortInPlace_WF temp comp htw
    have hts : temp.size = sizeSum d.segs := by
      rw [← elems_length htw, hte, length_flat hok]
    obtain ⟨segs1, hrun, hok1, hsz, hfl⟩ := redistribute_spec d.segmentCapacity
      (temp.SortInPlace comp) hsw d.segs 0 hok (by rw [SortInPlace_size]; omega)
    refine ⟨{ d with segs := segs1 }, ?_, rfl, rfl, hsz, hok1,
      Or.inr ⟨by omega, temp, htw, hte, ?_⟩⟩
    · unfold SortInPlace
      simp only [h1, if_false, htrun, bind_ok]
      have h0 : redistribute (temp.SortInPlace comp) d.segs 0 = .ok segs1 := hrun
      rw [h0]
      rfl
    · rw [toList_eq]
      show flat segs1 = _
      rw [hfl, List.drop_zero, List.take_of_length_le]
      rw [elems_length hsw, SortInPlace_size]; omega

theorem SortInPlace_keeps (d d1 : SegmentedDeque T) (hinv : d.Inv) (comp : T → T → Bool)
    (h : d.SortInPlace comp = .ok d1) :
    d1.segmentCapacity = d.segmentCapacity ∧ d1.totalSize = d.totalSize ∧ Keeps d d1 := by
  obtain ⟨d2, hrun, hc, ht, hsz, hok1, _⟩ := SortInPlace_spec d hinv comp
  rw [hrun] at h
  cases h
  refine ⟨hc, ht, ⟨?_, ?_, ?_⟩, ?_, ?_⟩
  · rw [hc]; exact hinv.1
  · rw [ht, hinv.2.1, sizeSum_of_sizes hsz]
  · rw [hc]; exact hok1
  · rw [FrontNonEmpty_iff_sizes, FrontNonEmpty_iff_sizes, hsz]; exact id
  · rw [AllNonEmpty_iff_sizes, AllNonEmpty_iff_sizes, hsz]; exact id


theorem appendElems_spec (cur : DynamicArray T) (hcw : cur.WF) (n : Nat) :
    ∀ (lo : Nat) (d : SegmentedDeque T), d.Inv → lo + n ≤ cur.size →
    ∃ d1, forUp n (lo : Int) (fun i s => do
        let v ← cur.Get i
        s.AppendInPlace v) d = .ok d1
      ∧ d1.segmentCapacity = d.segmentCapacity ∧ d1.totalSize = d.totalSize + n
      ∧ d1.toList = d.toList ++ (cur.elems.drop lo).take n ∧ Keeps d d1 := by
  induction n with
  | zero =>
    intro lo d hinv _
    exact ⟨d, rfl, rfl, by simp, by simp, Keeps_refl hinv⟩
  | succ n ih =>
    intro lo d hinv hlo
    have hlen := elems_length hcw
    have hl : lo < cur.elems.length := by omega
    obtain ⟨d1, hrun1, _⟩ := AppendInPlace_spec d hinv cur.elems[lo]
    obtain ⟨hc1, ht1, hl1, hk1⟩ := AppendInPlace_keeps d d1 hinv _ hrun1
    obtain ⟨d2, hrun2, hc2, ht2, hl2, hk2⟩ := ih (lo + 1) d1 hk1.1 (by omega)
    refine ⟨d2, ?_, by rw [hc2, hc1], ?_, ?_, Keeps_trans hk1 hk2⟩
    · unfold forUp
      simp only [Get_ok cur lo _ (List.getElem?_eq_getElem hl), bind_ok, hrun1]
      have h1 : (lo : Int) + 1 = ((lo + 1 : Nat) : Int) := by omega
      rw [h1]
      exact hrun2
    · rw [ht2, ht1]; push_cast; omega
    · rw [hl2, hl1, List.drop_eq_getElem_cons hl, List.take_succ_cons, List.append_assoc]
      rfl

theorem copyLoop_spec (cap : Int) (segs : List (Segment T)) : ∀ (d : SegmentedDeque T),
    SegsOK cap segs → d.Inv →
    ∃ d1, copyLoop segs d = .ok d1
      ∧ d1.segmentCapacity = d.segmentCapacity ∧ d1.totalSize = d.totalSize + sizeSum segs
      ∧ d1.toList = d.toList ++ flat segs ∧ Keeps d d1 := by
  induction segs with
  | nil =>
    intro d _ hinv
    exact ⟨d, rfl, rfl, by simp [sizeSum_nil], by simp [flat_nil], Keeps_refl hinv⟩
  | cons s l ih =>
    intro d hok hinv
    rw [SegsOK_cons] at hok
    obtain ⟨⟨hsw, _⟩, hlok⟩ := hok
    obtain ⟨d1, hrun1, hc1, ht1, hl1, hk1⟩ := appendElems_spec s.data hsw s.data.size 0 d hinv
      (by omega)
    obtain ⟨d2, hrun2, hc2, ht2, hl2, hk2⟩ := ih d1 hlok hk1.1
    refine ⟨d2, ?_, by rw [hc2, hc1], ?_, ?_, Keeps_trans hk1 hk2⟩
    · unfold copyLoop
      have h0 : forUp s.data.size 0 (fun i s1 => do
          let v ← s.data.Get i
          s1.AppendInPlace v) d = .ok d1 := hrun1
      simp only [h0, bind_ok]
      exact hrun2
    · rw [ht2, ht1, sizeSum_cons]; push_cast; omega
    · rw [hl2, hl1, flat_cons, List.drop_zero,
        List.take_of_length_le (by rw [elems_length hsw]), List.append_assoc]

/-- Effect of `operator=` (and of the copy constructor loop): the receiver becomes a rebuilt
copy of the donor, with the donor's `segmentCapacity`. -/
theorem operatorAssign_spec (d other : SegmentedDeque T) (hother : other.Inv) :
    ∃ d1, d.operatorAssign other = .ok d1
      ∧ d1.segmentCapacity = other.segmentCapacity ∧ d1.totalSize = other.totalSize
      ∧ d1.toList = other.toList ∧ d1.Inv ∧ AllNonEmpty d1.segs := by
  have hinv0 : ({ d.Clear with segmentCapacity := other.segmentCapacity } :
      SegmentedDeque T).Inv := ⟨hother.1, rfl, SegsOK_nil _⟩
  obtain ⟨d1, hrun, hc, ht, hl, hk⟩ := copyLoop_spec other.segmentCapacity other.segs _
    hother.2.2 hinv0
  refine ⟨d1, hrun, hc, ?_, ?_, hk.1, hk.2.2 AllNonEmpty_nil⟩
  · rw [ht, hother.2.1]
    show (0 : Int) + _ = _
    omega
  · rw [hl]
    show flat [] ++ _ = _
    rw [flat_nil, List.nil_append]
    rfl

theorem ctor_spec (segmentSize : Int) (d : SegmentedDeque T)
    (h : SegmentedDeque.ctor segmentSize = .ok d) :
    0 < segmentSize ∧ d = { segs := [], segmentCapacity := segmentSize, totalSize := 0 } := by
  unfold SegmentedDeque.ctor at h
  by_cases hs : segmentSize ≤ 0
  · simp only [hs, if_true] at h
    cases h
  · simp only [hs, if_false] at h
    cases h
    exact ⟨by omega, rfl⟩

/-- Every reachable state satisfies the structural invariant, has no empty segment before its
last one and, when `Reserve` was never called, no empty segment at all. -/
theorem ReachableBy_inv (r : Bool) (d : SegmentedDeque T) (h : ReachableBy r d) :
    d.Inv ∧ FrontNonEmpty d.segs ∧ (r = false → AllNonEmpty d.segs) := by
  induction h with
  | ctor n d hc =>
    obtain ⟨hn, rfl⟩ := ctor_spec n d hc
    exact ⟨⟨by show 1 ≤ n; omega, rfl, SegsOK_nil _⟩, FrontNonEmpty_nil, fun _ => AllNonEmpty_nil⟩
  | appendInPlace d d1 x _ hstep ih =>
    obtain ⟨_, _, _, hk⟩ := AppendInPlace_keeps d d1 ih.1 x hstep
    exact ⟨hk.1, hk.2.1 ih.2.1, fun hr => hk.2.2 (ih.2.2 hr)⟩
  | prependInPlace d d1 x _ hstep ih =>
    obtain ⟨_, _, _, hk⟩ := PrependInPlace_keeps d d1 ih.1 x hstep
    exact ⟨hk.1, hk.2.1 ih.2.1, fun hr => hk.2.2 (ih.2.2 hr)⟩
  | insertAtInPlace d d1 x i _ hstep ih =>
    obtain ⟨_, _, _, _, _, hk⟩ := InsertAtInPlace_keeps d d1 ih.1 x i hstep
    exact ⟨hk.1, hk.2.1 ih.2.1, fun hr => hk.2.2 (ih.2.2 hr)⟩
  | popFront d d1 v _ hstep ih =>
    obtain ⟨_, _, _, hk⟩ := PopFront_keeps d d1 ih.1 v hstep
    exact ⟨hk.1, hk.2.1 ih.2.1, fun hr => hk.2.2 (ih.2.2 hr)⟩
  | popBack d d1 v _ hstep ih =>
    obtain ⟨_, _, _, hk⟩ := PopBack_keeps d d1 ih.1 v hstep
    exact ⟨hk.1, hk.2.1 ih.2.1, fun hr => hk.2.2 (ih.2.2 hr)⟩
  | removeAt d d1 i v _ hstep ih =>
    obtain ⟨_, _, _, _, _, _, hk⟩ := RemoveAt_keeps d d1 ih.1 i v hstep
    exact ⟨hk.1, hk.2.1 ih.2.1, fun hr => hk.2.2 (ih.2.2 hr)⟩
  | clear d _ ih =>
    obtain ⟨_, _, _, hk⟩ := Clear_keeps d ih.1
    exact ⟨hk.1, hk.2.1 ih.2.1, fun hr => hk.2.2 (ih.2.2 hr)⟩
  | optimize d d1 _ hstep ih =>
    obtain ⟨_, _, _, _, hk⟩ := Optimize_keeps d d1 ih.1 hstep
    exact ⟨hk.1, hk.2.1 ih.2.1, fun hr => hk.2.2 (ih.2.2 hr)⟩
  | reserve d d1 n hr _ hstep ih =>
    obtain ⟨d2, hrun, _, _, _, hi, hf⟩ := Reserve_spec d ih.1 ih.2.1 n
    rw [hrun] at hstep
    cases hstep
    exact ⟨hi, hf, fun hr2 => by rw [hr] at hr2; cases hr2⟩
  | sortInPlace d d1 comp _ hstep ih =>
    obtain ⟨_, _, hk⟩ := SortInPlace_keeps d d1 ih.1 comp hstep
    exact ⟨hk.1, hk.2.1 ih.2.1, fun hr => hk.2.2 (ih.2.2 hr)⟩
  | assign d other d1 _ _ hstep _ iho =>
    obtain ⟨d2, hrun, _, _, _, hi, ha⟩ := operatorAssign_spec d other iho.1
    rw [hrun] at hstep
    cases hstep
    exact ⟨hi, FrontNonEmpty_of_all ha, fun _ => ha⟩


theorem Get_of_toList (d : SegmentedDeque T) (hinv : d.Inv) (i : Int) (h0 : 0 ≤ i)
    (h1 : i < d.totalSize) (v : T) (hv : d.toList[i.toNat]? = some v) : d.Get i = .ok v := by
  obtain ⟨n, rfl⟩ : ∃ n : Nat, i = (n : Int) := ⟨i.toNat, by omega⟩
  obtain ⟨w, hrun, hw⟩ := Get_spec d hinv.2.1 (fun s hs => (hinv.2.2 s hs).1) n h1
  simp only [Int.toNat_ofNat] at hv
  rw [hv] at hw
  cases hw
  exact hrun

theorem toList_of_Get (d : SegmentedDeque T) (hinv : d.Inv) (i : Int) (h0 : 0 ≤ i)
    (h1 : i < d.totalSize) : ∃ v, d.Get i = .ok v ∧ d.toList[i.toNat]? = some v := by
  obtain ⟨n, rfl⟩ : ∃ n : Nat, i = (n : Int) := ⟨i.toNat, by omega⟩
  simpa using Get_spec d hinv.2.1 (fun s hs => (hinv.2.2 s hs).1) n h1

theorem Get_congr (d d1 : SegmentedDeque T) (hd : d.Inv) (hd1 : d1.Inv) (a b : Int)
    (ha : 0 ≤ a) (ha1 : a < d1.totalSize) (hb : 0 ≤ b) (hb1 : b < d.totalSize)
    (h : d1.toList[a.toNat]? = d.toList[b.toNat]?) : d1.Get a = d.Get b := by
  obtain ⟨v, hrun, hv⟩ := toList_of_Get d hd b hb hb1
  rw [hrun]
  exact Get_of_toList d1 hd1 a ha ha1 v (by rw [h, hv])

/-- C1: for a deque whose `totalSize` is the sum of its segment sizes and an index in
`[0, totalSize)`, `findSegmentAndIndex` returns a segment position `k` and an offset `o` with
`o < size of segment k` and `(sum of the sizes before k) + o = index`; when the buffers are
valid arrays (`size <= capacity`, the class invariant of `DynamicArray`), `Get(index)` is the
`index`-th element of the concatenation of the segment buffers. -/
theorem C1_locate_correct (d : SegmentedDeque T) (index : Int)
    (hsum : d.totalSize = sizeSum d.segs) (h0 : 0 ≤ index) (h1 : index < d.totalSize) :
    ∃ (k o : Nat) (seg : Segment T),
      d.findSegmentAndIndex index = .ok (k, (o : Int)) ∧ d.segs[k]? = some seg
      ∧ o < seg.data.size ∧ (sizeSum (d.segs.take k) : Int) + o = index
      ∧ ((∀ s ∈ d.segs, s.data.WF) →
          ∃ v, d.Get index = .ok v ∧ d.toList[index.toNat]? = some v) := by
  obtain ⟨n, rfl⟩ : ∃ n : Nat, index = (n : Int) := ⟨index.toNat, by omega⟩
  obtain ⟨pre, seg, post, o, hseg, hfind, ho, hs⟩ := findSegmentAndIndex_spec d hsum n h1
  refine ⟨pre.length, o, seg, hfind, by rw [hseg]; exact getElem?_mid _ _ _, ho, ?_, ?_⟩
  · rw [hseg, take_mid]; omega
  · intro hwf
    simpa using Get_spec d hsum hwf n h1

/-- Witness of C1: index 3 of the deque `[1,2,3],[4,5]`. -/
theorem C1_locate_correct_witness :
    stateFive.totalSize = sizeSum stateFive.segs ∧ (0 : Int) ≤ 3 ∧ (3 : Int) < stateFive.totalSize
    ∧ ∃ (k o : Nat) (seg : Segment Int),
      stateFive.findSegmentAndIndex 3 = .ok (k, (o : Int)) ∧ stateFive.segs[k]? = some seg
      ∧ o < seg.data.size ∧ (sizeSum (stateFive.segs.take k) : Int) + o = 3
      ∧ ((∀ s ∈ stateFive.segs, s.data.WF) →
          ∃ v, stateFive.Get 3 = .ok v ∧ stateFive.toList[(3 : Int).toNat]? = some v) :=
  ⟨by decide, by decide, by decide,
    C1_locate_correct stateFive 3 (by decide) (by decide) (by decide)⟩

theorem getElem?_insert_at {α : Type} (l : List α) (n : Nat) (x : α) (hn : n ≤ l.length) :
    (l.take n ++ x :: l.drop n)[n]? = some x := by
  have h := getElem?_mid (l.take n) (l.drop n) x
  rw [List.length_take, Nat.min_eq_left hn] at h
  exact h

theorem getElem?_insert_lt {α : Type} (l : List α) (n j : Nat) (x : α) (hn : n ≤ l.length)
    (hj : j < n) : (l.take n ++ x :: l.drop n)[j]? = l[j]? := by
  rw [List.getElem?_append_left (by rw [List.length_take]; omega), List.getElem?_take]
  simp [hj]

theorem getElem?_insert_ge {α : Type} (l : List α) (n j : Nat) (x : α) (hn : n ≤ l.length)
    (hj : n ≤ j) : (l.take n ++ x :: l.drop n)[j + 1]? = l[j]? := by
  rw [List.getElem?_append_right (by rw [List.length_take]; omega), List.length_take,
    Nat.min_eq_left hn]
  have h1 : j + 1 - n = (j - n) + 1 := by omega
  rw [h1, List.getElem?_cons_succ, List.getElem?_drop]
  congr 1
  omega

/-- C2: on a deque that satisfies the structural invariant `Inv` (which holds in every
reachable state) and for every index in `[0, totalSize]`, `InsertAtInPlace(item, index)`
succeeds, the length grows by one, `Get(index)` is `item`, `Get(j)` is unchanged for `j < index`
and `Get(j + 1)` is the old `Get(j)` for `index <= j < old totalSize`. -/
theorem C2_insertAtInPlace_order (d : SegmentedDeque T) (item : T) (index : Int)
    (hinv : d.Inv) (h0 : 0 ≤ index) (h1 : index ≤ d.totalSize) :
    ∃ d1, d.InsertAtInPlace item index = .ok d1
      ∧ d1.GetLength = d.GetLength + 1
      ∧ d1.Get index = .ok item
      ∧ (∀ j : Int, 0 ≤ j → j < index → d1.Get j = d.Get j)
      ∧ (∀ j : Int, index ≤ j → j < d.totalSize → d1.Get (j + 1) = d.Get j) := by
  obtain ⟨d1, hrun⟩ := InsertAtInPlace_ok d hinv item index h0 h1
  obtain ⟨_, _, _, ht, hl, hk⟩ := InsertAtInPlace_keeps d d1 hinv item index hrun
  have hlen := length_toList d hinv
  have hn : index.toNat ≤ d.toList.length := by omega
  refine ⟨d1, hrun, ht, ?_, ?_, ?_⟩
  · apply Get_of_toList d1 hk.1 index h0 (by omega)
    rw [hl]
    exact getElem?_insert_at _ _ _ hn
  · intro j hj0 hj1
    apply Get_congr d d1 hinv hk.1 j j hj0 (by omega) hj0 (by omega)
    rw [hl]
    exact getElem?_insert_lt _ _ _ _ hn (by omega)
  · intro j hj0 hj1
    apply Get_congr d d1 hinv hk.1 (j + 1) j (by omega) (by omega) (by omega) hj1
    rw [hl]
    have : (j + 1).toNat = j.toNat + 1 := by omega
    rw [this]
    exact getElem?_insert_ge _ _ _ _ hn (by omega)

/-- Witness of C2: `InsertAtInPlace(10, 3)` on the deque `[1,2,3],[4,5]`. -/
theorem C2_insertAtInPlace_order_witness :
    stateFive.Inv ∧ (0 : Int) ≤ 3 ∧ (3 : Int) ≤ stateFive.totalSize
    ∧ ∃ d1, stateFive.InsertAtInPlace 10 3 = .ok d1
      ∧ d1.GetLength = stateFive.GetLength + 1
      ∧ d1.Get 3 = .ok 10
      ∧ (∀ j : Int, 0 ≤ j → j < 3 → d1.Get j = stateFive.Get j)
      ∧ (∀ j : Int, 3 ≤ j → j < stateFive.totalSize → d1.Get (j + 1) = stateFive.Get j) :=
  ⟨by decide, by decide, by decide,
    C2_insertAtInPlace_order stateFive 10 3 (by decide) (by decide) (by decide)⟩


theorem Except_ok_inj {α : Type} {a b : α} (h : (Except.ok a : Except Err α) = .ok b) :
    a = b := by
  cases h; rfl

/-- C3: when `InsertAtInPlace` locates a full segment (size = `segmentCapacity`) at any
offset, that segment is replaced by two adjacent segments, neither larger than
`segmentCapacity`, whose concatenation is the old content with the item inserted at the
offset.  The located segment is the one `findSegmentAndIndex` returns; at index 0 it is the
head (`k = 0`), and the deque satisfies the structural invariant, so `segmentCapacity >= 1`. -/
theorem C3_split_correct (d : SegmentedDeque T) (item : T) (index : Int) (k : Nat) (o : Int)
    (seg : Segment T) (hinv : d.Inv)
    (hfind : d.findSegmentAndIndex index = .ok (k, o)) (hseg : d.segs[k]? = some seg)
    (hfull : seg.data.GetSize = d.segmentCapacity) (hhead : index = 0 → k = 0) :
    ∃ d1 s1 s2, d.InsertAtInPlace item index = .ok d1
      ∧ d1.segs = d.segs.take k ++ [s1, s2] ++ d.segs.drop (k + 1)
      ∧ s1.data.GetSize ≤ d.segmentCapacity ∧ s2.data.GetSize ≤ d.segmentCapacity
      ∧ s1.data.elems ++ s2.data.elems
          = seg.data.elems.take o.toNat ++ item :: seg.data.elems.drop o.toNat := by
  have hrange : 0 ≤ index ∧ index < d.totalSize := by
    by_contra hc
    rw [findSegmentAndIndex_error d index (by omega)] at hfind
    cases hfind
  obtain ⟨n, rfl⟩ : ∃ n : Nat, index = (n : Int) := ⟨index.toNat, by omega⟩
  have hinv0 := hinv
  obtain ⟨hcap, hsum, hok⟩ := hinv
  unfold GetSize at hfull
  by_cases hn0 : n = 0
  · subst hn0
    have hk : k = 0 := hhead rfl
    subst hk
    obtain ⟨pre, seg2, post, o2, hsegs, hfind2, ho2, hs2⟩ :=
      findSegmentAndIndex_spec d hsum 0 hrange.2
    rw [hfind] at hfind2
    have hpair := Except_ok_inj hfind2
    have hpre : pre = [] := by
      have : pre.length = 0 := by injection hpair with h1 _; exact h1.symm
      exact List.eq_nil_of_length_eq_zero this
    subst hpre
    have ho : o = 0 := by
      injection hpair with _ h2
      simp [sizeSum_nil] at hs2
      omega
    subst ho
    have hsg : seg = seg2 := by
      rw [hsegs] at hseg
      simpa using hseg.symm
    subst hsg
    obtain ⟨d1, hrun, _, _, hcases⟩ := PrependInPlace_spec d hinv0 item
    rcases hcases with ⟨h0, _⟩ | ⟨h0, head, rest, hhr, ⟨hlt, _⟩ | ⟨hge, s, hs, hsw, hse⟩⟩
    · omega
    · rw [hsegs] at hhr
      simp only [List.nil_append] at hhr
      injection hhr with h1 _
      rw [← h1] at hlt
      omega
    · have hsz := size_of_elems hsw hse
      simp only [List.length_singleton] at hsz
      refine ⟨d1, s, seg, ?_, ?_, ?_, ?_, ?_⟩
      · unfold InsertAtInPlace
        have hc1 : ¬ (((0 : Nat) : Int) < 0 ∨ ((0 : Nat) : Int) > d.totalSize) := by omega
        rw [if_neg hc1, if_pos (by rfl)]
        exact hrun
      · rw [hs, hsegs]
        simp
      · unfold GetSize; omega
      · unfold GetSize; omega
      · rw [hse]; simp
  · obtain ⟨d1, pre, seg2, post, o2, hrun, _, _, hsegs, hfind2, ho2, hs2, hcases⟩ :=
      InsertAtInPlace_mid_spec d hinv0 item n (by omega) hrange.2
    rw [hfind] at hfind2
    have hpair := Except_ok_inj hfind2
    have hk : k = pre.length := by injection hpair
    have ho : o = (o2 : Int) := by injection hpair
    subst hk
    subst ho
    have hsg : seg = seg2 := by
      rw [hsegs, getElem?_mid] at hseg
      injection hseg with h1
      exact h1.symm
    subst hsg
    have hsw : seg.data.WF := (hok seg (by rw [hsegs]; simp)).1
    rcases hcases with ⟨hlt, _⟩ | ⟨heq, s1, s2, hs, hs1w, hs2w, hsplit⟩
    · omega
    · obtain ⟨hcat, _, _, hc1, hc2, _⟩ :=
        split_facts seg s1 s2 item o2 d.segmentCapacity hsw hs1w hs2w ho2 hcap heq hsplit
      refine ⟨d1, s1, s2, hrun, ?_, hc1, hc2, ?_⟩
      · rw [hs, hsegs, take_mid, drop_mid]
        simp
      · simpa using hcat

/-- Witness of C3: `InsertAtInPlace(10, 1)` on the deque `[1,2,3],[4,5]` splits the full
head segment at offset 1. -/
theorem C3_split_correct_witness :
    stateFive.Inv ∧ stateFive.findSegmentAndIndex 1 = .ok (0, 1)
    ∧ stateFive.segs[0]? = some (⟨⟨[1, 2, 3], 3⟩⟩ : Segment Int)
    ∧ (⟨⟨[1, 2, 3], 3⟩⟩ : Segment Int).data.GetSize = stateFive.segmentCapacity
    ∧ ∃ d1 s1 s2, stateFive.InsertAtInPlace 10 1 = .ok d1
      ∧ d1.segs = stateFive.segs.take 0 ++ [s1, s2] ++ stateFive.segs.drop (0 + 1)
      ∧ s1.data.GetSize ≤ stateFive.segmentCapacity ∧ s2.data.GetSize ≤ stateFive.segmentCapacity
      ∧ s1.data.elems ++ s2.data.elems
          = (⟨⟨[1, 2, 3], 3⟩⟩ : Segment Int).data.elems.take (1 : Int).toNat
            ++ 10 :: (⟨⟨[1, 2, 3], 3⟩⟩ : Segment Int).data.elems.drop (1 : Int).toNat :=
  ⟨by decide, rfl, rfl, rfl,
    C3_split_correct stateFive 10 1 0 1 (⟨⟨[1, 2, 3], 3⟩⟩ : Segment Int)
      (by decide) rfl rfl rfl (by decide)⟩

theorem ReachableBy_appendAll (r : Bool) (xs : List T) : ∀ (d d1 : SegmentedDeque T),
    ReachableBy r d → appendAll d xs = .ok d1 → ReachableBy r d1 := by
  induction xs with
  | nil =>
    intro d d1 hd h
    cases h
    exact hd
  | cons x xs ih =>
    intro d d1 hd h
    unfold appendAll at h
    cases hx : d.AppendInPlace x with
    | error e => rw [hx] at h; cases h
    | ok d2 =>
      rw [hx] at h
      exact ih d2 d1 (ReachableBy.appendInPlace d d2 x hd hx) h

theorem Reachable_stateFive : Reachable stateFive :=
  ReachableBy_appendAll true [1, 2, 3, 4, 5] stateNew3 stateFive
    (ReachableBy.ctor 3 stateNew3 rfl) rfl

theorem Reachable_stateFullReserved : Reachable stateFullReserved :=
  ReachableBy.reserve stateFull stateFullReserved 4 rfl
    (ReachableBy_appendAll true [1, 2, 3] stateNew3 stateFull
      (ReachableBy.ctor 3 stateNew3 rfl) rfl) rfl

theorem Reachable_stateNewReserved : Reachable stateNewReserved :=
  ReachableBy.reserve stateNew3 stateNewReserved 1 rfl (ReachableBy.ctor 3 stateNew3 rfl) rfl

theorem Reachable_stateOneReserved : Reachable stateOneReserved :=
  ReachableBy.reserve stateOne stateOneReserved 2 rfl
    (ReachableBy.appendInPlace stateNew1 stateOne 1 (ReachableBy.ctor 1 stateNew1 rfl) rfl) rfl

/-- C4: in every state reachable from a freshly constructed deque by the public operations,
`totalSize` is the sum of the sizes of the segments on the chain, and `Get(i)` succeeds for
exactly the indices `0 <= i < totalSize`. -/
theorem C4_length_invariant (d : SegmentedDeque T) (h : Reachable d) :
    d.totalSize = sizeSum d.segs
      ∧ ∀ i : Int, (∃ v, d.Get i = .ok v) ↔ (0 ≤ i ∧ i < d.totalSize) := by
  obtain ⟨hinv, _, _⟩ := ReachableBy_inv true d h
  refine ⟨hinv.2.1, ?_⟩
  intro i
  constructor
  · rintro ⟨v, hv⟩
    by_contra hc
    rw [Get_error d i (by omega)] at hv
    cases hv
  · rintro ⟨h0, h1⟩
    obtain ⟨v, hv, _⟩ := toList_of_Get d hinv i h0 h1
    exact ⟨v, hv⟩

/-- Witness of C4: the deque `[1,2,3],[4,5]` reached by five appends. -/
theorem C4_length_invariant_witness :
    Reachable stateFive ∧ (stateFive.totalSize = sizeSum stateFive.segs
      ∧ ∀ i : Int, (∃ v, stateFive.Get i = .ok v) ↔ (0 ≤ i ∧ i < stateFive.totalSize)) :=
  ⟨Reachable_stateFive, C4_length_invariant stateFive Reachable_stateFive⟩

/-- C5: in every state reachable from a freshly constructed deque by the public operations,
`segmentCapacity >= 1` and every segment on the chain holds at most `segmentCapacity`
elements. -/
theorem C5_capacity_invariant (d : SegmentedDeque T) (h : Reachable d) :
    1 ≤ d.segmentCapacity ∧ ∀ s ∈ d.segs, s.data.GetSize ≤ d.segmentCapacity := by
  obtain ⟨hinv, _, _⟩ := ReachableBy_inv true d h
  exact ⟨hinv.1, fun s hs => (hinv.2.2 s hs).2⟩

/-- Witness of C5: the deque `[1,2,3],[]` reached by three appends and `Reserve(4)`. -/
theorem C5_capacity_invariant_witness :
    Reachable stateFullReserved ∧ (1 ≤ stateFullReserved.segmentCapacity
      ∧ ∀ s ∈ stateFullReserved.segs, s.data.GetSize ≤ stateFullReserved.segmentCapacity) :=
  ⟨Reachable_stateFullReserved, C5_capacity_invariant stateFullReserved
    Reachable_stateFullReserved⟩


/-- C6, counterexample: `Reserve(1)` on a freshly constructed deque of capacity 3 is a
reachable state with `totalSize = 0` whose chain holds one segment, and that segment is empty;
so neither "every segment holds at least one element" nor "no segments exactly when
`totalSize = 0`" holds in every reachable state. -/
theorem C6_counterexample :
    Reachable stateNewReserved ∧ stateNewReserved.totalSize = 0
      ∧ stateNewReserved.segs.length = 1
      ∧ (∃ s ∈ stateNewReserved.segs, s.data.GetSize = 0)
      ∧ ¬ (∀ d : SegmentedDeque Int, Reachable d →
            (∀ s ∈ d.segs, 1 ≤ s.data.GetSize) ∧ (d.segs = [] ↔ d.totalSize = 0)) := by
  refine ⟨Reachable_stateNewReserved, rfl, rfl, ⟨_, List.mem_singleton.mpr rfl, rfl⟩, ?_⟩
  intro h
  have h1 := (h stateNewReserved Reachable_stateNewReserved).2.2 rfl
  cases h1

/-- C6, amended: in every state reached from a freshly constructed deque without `Reserve`
(by `AppendInPlace`, `PrependInPlace`, `InsertAtInPlace`, `PopFront`, `PopBack`, `RemoveAt`,
`Clear`, `Optimize`, `SortInPlace` and assignment) every segment holds at least one element and
the chain has no segments exactly when `totalSize = 0`; in every reachable state, `Reserve`
included, a chain without segments has `totalSize = 0`. -/
theorem C6_occupancy_amended (r : Bool) (d : SegmentedDeque T) (h : ReachableBy r d) :
    (d.segs = [] → d.totalSize = 0)
      ∧ (r = false →
          (∀ s ∈ d.segs, 1 ≤ s.data.GetSize) ∧ (d.segs = [] ↔ d.totalSize = 0)) := by
  obtain ⟨⟨_, hsum, hok⟩, hfr, hall⟩ := ReachableBy_inv r d h
  have hnil : d.segs = [] → d.totalSize = 0 := by
    intro hs
    rw [hsum, hs, sizeSum_nil]
    rfl
  refine ⟨hnil, ?_⟩
  intro hr
  have ha := hall hr
  refine ⟨?_, hnil, ?_⟩
  · intro s hs
    have := ha s hs
    unfold GetSize
    omega
  · intro h0
    cases hsegs : d.segs with
    | nil => rfl
    | cons f fs =>
      have := ha f (by rw [hsegs]; simp)
      rw [hsegs, sizeSum_cons] at hsum
      omega

/-- Witness of C6 (amended): the deque `[1,2,3],[4,5]`, reached by five calls of
`AppendInPlace`. -/
theorem C6_occupancy_amended_witness :
    ReachableBy false stateFive ∧
    ((stateFive.segs = [] → stateFive.totalSize = 0)
      ∧ (false = false →
          (∀ s ∈ stateFive.segs, 1 ≤ s.data.GetSize)
            ∧ (stateFive.segs = [] ↔ stateFive.totalSize = 0))) :=
  ⟨ReachableBy_appendAll false [1, 2, 3, 4, 5] stateNew3 stateFive
      (ReachableBy.ctor 3 stateNew3 rfl) rfl,
    C6_occupancy_amended false stateFive
      (ReachableBy_appendAll false [1, 2, 3, 4, 5] stateNew3 stateFive
        (ReachableBy.ctor 3 stateNew3 rfl) rfl)⟩

/-- C7, failing input: capacity 3, `AppendInPlace` of 1, 2, 3, then `Reserve(4)`.  The state
is reachable, index 2 is valid and `Get(2)` returns 3, but `RemoveAt(2)` delegates to
`PopBack`, which reads `Get(-1)` of the empty tail segment and throws "Index out of range". -/
theorem C7_removeAt_after_reserve :
    Reachable stateFullReserved ∧ stateFullReserved.totalSize = 3
      ∧ stateFullReserved.Get 2 = .ok 3
      ∧ stateFullReserved.RemoveAt 2 = .error Err.indexOutOfRange :=
  ⟨Reachable_stateFullReserved, rfl, rfl, rfl⟩

/-- C9, failing input: capacity 3, `AppendInPlace` of 1, 2, 3, then `Reserve(4)`.  The state
is reachable and not empty (`totalSize = 3`, `Get(2)` returns 3), but `PopBack` reads `Get(-1)`
of the empty tail segment left by `Reserve` and throws "Index out of range"; so does
`GetLast`. -/
theorem C9_popBack_after_reserve :
    Reachable stateFullReserved ∧ 0 < stateFullReserved.totalSize
      ∧ stateFull.Reserve 4 = .ok stateFullReserved
      ∧ stateFullReserved.Get (stateFullReserved.totalSize - 1) = .ok 3
      ∧ stateFullReserved.PopBack = .error Err.indexOutOfRange
      ∧ stateFullReserved.GetLast = .error Err.indexOutOfRange :=
  ⟨Reachable_stateFullReserved, by decide, rfl, rfl, rfl, rfl⟩


/-- Success of `PopFront` on a non-empty deque whose segments before the last are not
empty. -/
theorem PopFront_ok (d : SegmentedDeque T) (hinv : d.Inv) (hfr : FrontNonEmpty d.segs)
    (hne : d.totalSize ≠ 0) :
    ∃ head rest v l d1, d.segs = head :: rest ∧ head.data.elems = v :: l
      ∧ d.PopFront = .ok (v, d1) ∧
      ((d.totalSize = 1 ∧ d1.segs = []) ∨
       (d.totalSize ≠ 1 ∧ l = [] ∧ rest ≠ [] ∧ d1.segs = rest) ∨
       (d.totalSize ≠ 1 ∧ l ≠ [] ∧ ∃ s : Segment T, d1.segs = s :: rest ∧ s.data.WF
          ∧ s.data.elems = l)) := by
  obtain ⟨head, rest, hseg⟩ := List.exists_cons_of_ne_nil (segs_ne_nil_of_pos d hinv.2.1 hne)
  have hpos : 0 < head.data.size := by
    by_contra hz
    cases rest with
    | nil =>
      have hsum := hinv.2.1
      rw [hseg, sizeSum_cons, sizeSum_nil] at hsum
      omega
    | cons t l1 =>
      rw [hseg, FrontNonEmpty_cons_cons] at hfr
      exact hz hfr.1
  obtain ⟨v, l, d1, hvl, hrun, _, _, hcases⟩ := PopFront_spec d hinv head rest hseg hpos
  exact ⟨head, rest, v, l, d1, hseg, hvl, hrun, hcases⟩

/-- C8, counterexample: capacity 1, `AppendInPlace(1)`, `Reserve(2)` gives the reachable
non-empty deque with segments `[1]`, `[]`.  `PopFront` returns 1; the head segment became empty
and another segment exists, yet the deque ends with no segments at all (`head = tail =
nullptr` because `totalSize` reached 0): the successor did not become head. -/
theorem C8_counterexample :
    Reachable stateOneReserved ∧ 0 < stateOneReserved.totalSize
      ∧ stateOneReserved.segs.length = 2
      ∧ stateOneReserved.PopFront = .ok (1, stateNew1)
      ∧ stateNew1.segs = []
      ∧ ¬ (∀ d : SegmentedDeque Int, Reachable d → 0 < d.totalSize →
            ∃ v d1, d.PopFront = .ok (v, d1)
              ∧ (∀ head rest, d.segs = head :: rest → head.data.GetSize = 1 → rest ≠ [] →
                  d1.segs = rest)
              ∧ (d1.totalSize = 0 → d1.segs = [])) := by
  refine ⟨Reachable_stateOneReserved, by decide, rfl, rfl, rfl, ?_⟩
  intro h
  obtain ⟨v, d1, hrun, hsucc, _⟩ := h stateOneReserved Reachable_stateOneReserved (by decide)
  have hpair : (1, stateNew1) = (v, d1) := Except_ok_inj hrun
  have hd1 : d1 = stateNew1 := by injection hpair with _ h2; exact h2.symm
  subst hd1
  have := hsucc _ _ rfl rfl (by simp)
  cases this

/-- C8, amended: on every non-empty reachable deque `PopFront` succeeds, returns the old
`Get(0)`, decreases the length by one and makes `Get(j)` the old `Get(j + 1)` for every
remaining `j`; if the head segment held one element, another segment exists and elements
remain, the successor becomes the head; if the deque becomes empty it has no segments. -/
theorem C8_popFront_amended (d : SegmentedDeque T) (h : Reachable d) (hne : 0 < d.totalSize) :
    ∃ v d1, d.PopFront = .ok (v, d1) ∧ d.Get 0 = .ok v
      ∧ d1.GetLength = d.GetLength - 1
      ∧ (∀ j : Int, 0 ≤ j → j < d1.totalSize → d1.Get j = d.Get (j + 1))
      ∧ (∀ head rest, d.segs = head :: rest → head.data.GetSize = 1 → rest ≠ [] →
          d1.totalSize ≠ 0 → d1.segs = rest)
      ∧ (d1.totalSize = 0 → d1.segs = []) := by
  obtain ⟨hinv, hfr, _⟩ := ReachableBy_inv true d h
  obtain ⟨head, rest, v, l, d1, hseg, hvl, hrun, hcases⟩ := PopFront_ok d hinv hfr (by omega)
  obtain ⟨_, ht, hl, hk⟩ := PopFront_keeps d d1 hinv v hrun
  have hhw : head.data.WF := (hinv.2.2 head (by rw [hseg]; simp)).1
  have hhs := size_of_elems hhw hvl
  simp only [List.length_cons] at hhs
  refine ⟨v, d1, hrun, ?_, ht, ?_, ?_, ?_⟩
  · apply Get_of_toList d hinv 0 (by omega) hne
    rw [hl]; simp
  · intro j hj0 hj1
    apply Get_congr d d1 hinv hk.1 j (j + 1) hj0 hj1 (by omega) (by omega)
    rw [hl]
    have : (j + 1).toNat = j.toNat + 1 := by omega
    rw [this, List.getElem?_cons_succ]
  · intro head2 rest2 hseg2 hone hrest hleft
    rw [hseg] at hseg2
    injection hseg2 with h1 h2
    subst h1
    subst h2
    unfold GetSize at hone
    rcases hcases with ⟨h1, _⟩ | ⟨_, _, _, hs⟩ | ⟨_, hl2, _⟩
    · omega
    · exact hs
    · have : 0 < l.length := List.length_pos.mpr hl2
      omega
  · intro h0
    rcases hcases with ⟨_, hs⟩ | ⟨h1, _⟩ | ⟨h1, _⟩
    · exact hs
    · omega
    · omega

/-- Witness of C8 (amended): `PopFront` on the deque `[1,2,3],[4,5]`. -/
theorem C8_popFront_amended_witness :
    Reachable stateFive ∧ 0 < stateFive.totalSize
    ∧ ∃ v d1, stateFive.PopFront = .ok (v, d1) ∧ stateFive.Get 0 = .ok v
      ∧ d1.GetLength = stateFive.GetLength - 1
      ∧ (∀ j : Int, 0 ≤ j → j < d1.totalSize → d1.Get j = stateFive.Get (j + 1))
      ∧ (∀ head rest, stateFive.segs = head :: rest → head.data.GetSize = 1 → rest ≠ [] →
          d1.totalSize ≠ 0 → d1.segs = rest)
      ∧ (d1.totalSize = 0 → d1.segs = []) :=
  ⟨Reachable_stateFive, by decide,
    C8_popFront_amended stateFive Reachable_stateFive (by decide)⟩

theorem appendAll_spec (xs : List T) : ∀ (d : SegmentedDeque T), d.Inv →
    AllNonEmpty d.segs →
    ∃ d1, appendAll d xs = .ok d1 ∧ d1.Inv ∧ AllNonEmpty d1.segs
      ∧ d1.toList = d.toList ++ xs ∧ d1.totalSize = d.totalSize + xs.length := by
  induction xs with
  | nil => intro d hinv ha; exact ⟨d, rfl, hinv, ha, by simp, by simp⟩
  | cons x xs ih =>
    intro d hinv ha
    obtain ⟨d1, hrun, _⟩ := AppendInPlace_spec d hinv x
    obtain ⟨_, ht, hl, hk⟩ := AppendInPlace_keeps d d1 hinv x hrun
    obtain ⟨d2, hrun2, hinv2, ha2, hl2, ht2⟩ := ih d1 hk.1 (hk.2.2 ha)
    refine ⟨d2, ?_, hinv2, ha2, ?_, ?_⟩
    · unfold appendAll
      simp only [hrun, bind_ok]
      exact hrun2
    · rw [hl2, hl]; simp
    · rw [ht2, ht]; simp only [List.length_cons]; push_cast; omega

theorem popFrontN_spec (xs : List T) : ∀ (d : SegmentedDeque T), d.Inv →
    AllNonEmpty d.segs → d.toList = xs →
    ∃ d2, popFrontN xs.length d = .ok (xs, d2) ∧ d2.totalSize = 0 ∧ d2.segs = [] := by
  induction xs with
  | nil =>
    intro d hinv ha hl
    have hlen := length_toList d hinv
    rw [hl] at hlen
    simp only [List.length_nil] at hlen
    refine ⟨d, rfl, by omega, ?_⟩
    cases hsegs : d.segs with
    | nil => rfl
    | cons f fs =>
      have := ha f (by rw [hsegs]; simp)
      have hsum := hinv.2.1
      rw [hsegs, sizeSum_cons] at hsum
      omega
  | cons x xs ih =>
    intro d hinv ha hl
    have hlen := length_toList d hinv
    rw [hl] at hlen
    simp only [List.length_cons] at hlen
    obtain ⟨_, _, v, _, d1, _, _, hrun, _⟩ :=
      PopFront_ok d hinv (FrontNonEmpty_of_all ha) (by omega)
    obtain ⟨_, _, hl1, hk⟩ := PopFront_keeps d d1 hinv v hrun
    rw [hl] at hl1
    injection hl1 with hv hrest
    subst hv
    obtain ⟨d2, hrun2, ht2, hs2⟩ := ih d1 hk.1 (hk.2.2 ha) hrest.symm
    refine ⟨d2, ?_, ht2, hs2⟩
    simp only [List.length_cons]
    unfold popFrontN
    simp only [hrun, bind_ok, hrun2]
    rfl

/-- C10: for every `segmentCapacity >= 1` and every list `xs`, appending the elements of
`xs` one by one to a freshly constructed deque and then calling `PopFront` `|xs|` times
returns the values of `xs` in their original order and leaves the deque empty (length 0, no
segments); in particular `PopFront` right after `AppendInPlace(x)` on the empty deque returns
`x` and leaves it empty. -/
theorem C10_round_trip (segmentSize : Int) (xs : List T) (hcap : 1 ≤ segmentSize) :
    ∃ d0 d1 d2, SegmentedDeque.ctor segmentSize = .ok d0
      ∧ appendAll d0 xs = .ok d1 ∧ d1.GetLength = xs.length
      ∧ popFrontN xs.length d1 = .ok (xs, d2)
      ∧ d2.GetLength = 0 ∧ d2.segs = [] ∧ d2.IsEmpty = true
      ∧ (∀ x : T, ∃ e1 e2, d0.AppendInPlace x = .ok e1 ∧ e1.PopFront = .ok (x, e2)
          ∧ e2.GetLength = 0 ∧ e2.segs = []) := by
  have hinv0 : ({ segs := [], segmentCapacity := segmentSize, totalSize := 0 } :
      SegmentedDeque T).Inv := ⟨hcap, rfl, SegsOK_nil _⟩
  have hctor : (SegmentedDeque.ctor segmentSize : Except Err (SegmentedDeque T))
      = .ok { segs := [], segmentCapacity := segmentSize, totalSize := 0 } := by
    unfold SegmentedDeque.ctor
    have : ¬ segmentSize ≤ 0 := by omega
    simp only [this, if_false]
    rfl
  obtain ⟨d1, hrun1, hinv1, ha1, hl1, ht1⟩ := appendAll_spec xs _ hinv0 AllNonEmpty_nil
  have hl1b : d1.toList = xs := by
    rw [hl1]
    show flat [] ++ xs = xs
    rw [flat_nil, List.nil_append]
  obtain ⟨d2, hrun2, ht2, hs2⟩ := popFrontN_spec xs d1 hinv1 ha1 hl1b
  refine ⟨_, d1, d2, hctor, hrun1, ?_, hrun2, ht2, hs2, ?_, ?_⟩
  · unfold GetLength; rw [ht1]; simp
  · unfold IsEmpty; simp [ht2]
  · intro x
    obtain ⟨e1, hr1, hi1, ha1x, hlx, htx⟩ := appendAll_spec [x] _ hinv0 AllNonEmpty_nil
    have hlxb : e1.toList = [x] := by
      rw [hlx]
      show flat [] ++ [x] = [x]
      rw [flat_nil, List.nil_append]
    obtain ⟨e2, hr2, ht2x, hs2x⟩ := popFrontN_spec [x] e1 hi1 ha1x hlxb
    refine ⟨e1, e2, ?_, ?_, ht2x, hs2x⟩
    · unfold appendAll at hr1
      cases hx : SegmentedDeque.AppendInPlace
          ({ segs := [], segmentCapacity := segmentSize, totalSize := 0 } : SegmentedDeque T) x with
      | error e => rw [hx] at hr1; cases hr1
      | ok e =>
        rw [hx] at hr1
        have : e = e1 := Except_ok_inj hr1
        rw [this]
    · simp only [List.length_singleton] at hr2
      unfold popFrontN at hr2
      cases hx : e1.PopFront with
      | error e => rw [hx] at hr2; cases hr2
      | ok p =>
        obtain ⟨v, e3⟩ := p
        rw [hx] at hr2
        have hp : ([v], e3) = ([x], e2) := Except_ok_inj hr2
        injection hp with h1 h2
        injection h1 with h1a _
        rw [h1a, h2]

/-- Witness of C10: capacity 3 and the values 1, 2, 3, 4, 5. -/
theorem C10_round_trip_witness :
    (1 : Int) ≤ 3
    ∧ ∃ d0 d1 d2, (SegmentedDeque.ctor 3 : Except Err (SegmentedDeque Int)) = .ok d0
      ∧ appendAll d0 [1, 2, 3, 4, 5] = .ok d1 ∧ d1.GetLength = ([1, 2, 3, 4, 5] : List Int).length
      ∧ popFrontN ([1, 2, 3, 4, 5] : List Int).length d1 = .ok ([1, 2, 3, 4, 5], d2)
      ∧ d2.GetLength = 0 ∧ d2.segs = [] ∧ d2.IsEmpty = true
      ∧ (∀ x : Int, ∃ e1 e2, d0.AppendInPlace x = .ok e1 ∧ e1.PopFront = .ok (x, e2)
          ∧ e2.GetLength = 0 ∧ e2.segs = []) :=
  ⟨by decide, C10_round_trip 3 [1, 2, 3, 4, 5] (by decide)⟩


theorem NoMerge_cons_cons {cap : Int} {a b : Segment T} {rest : List (Segment T)} :
    NoMerge cap (a :: b :: rest)
      ↔ cap < a.data.GetSize + b.data.GetSize ∧ NoMerge cap (b :: rest) := by
  rw [NoMerge]

theorem NoMerge_nil (cap : Int) : NoMerge cap ([] : List (Segment T)) := by
  simp [NoMerge]

theorem NoMerge_singleton (cap : Int) (a : Segment T) : NoMerge cap [a] := by
  simp [NoMerge]

/-- After the merge loop no neighbouring pair fits in one segment; the first segment of the
result is at least as large as the first segment of the input. -/
theorem mergeLoop_noMerge (cap : Int) : ∀ (n : Nat) (segs segs1 : List (Segment T)),
    segs.length = n → SegsOK cap segs → mergeLoop cap segs = .ok segs1 →
    NoMerge cap segs1 ∧ (∀ c rest, segs = c :: rest →
      ∃ c1 rest1, segs1 = c1 :: rest1 ∧ c.data.size ≤ c1.data.size) := by
  intro n
  induction n using Nat.strong_induction_on with
  | _ n ih =>
    intro segs segs1 hlen hok hrun
    match segs, hlen, hok, hrun with
    | [], _, _, hrun =>
      rw [mergeLoop] at hrun
      cases hrun
      exact ⟨NoMerge_nil _, fun c rest h => by cases h⟩
    | [c], _, _, hrun =>
      rw [mergeLoop] at hrun
      cases hrun
      refine ⟨NoMerge_singleton _ _, fun c2 rest h => ?_⟩
      injection h with h1 h2
      subst h1
      exact ⟨c, [], rfl, Nat.le_refl _⟩
    | c :: nx :: rest, hlen, hok, hrun =>
      have hok2 := hok
      rw [SegsOK_cons, SegsOK_cons] at hok2
      obtain ⟨⟨hcw, hcc⟩, ⟨hnw, hnc⟩, hrok⟩ := hok2
      by_cases hm : c.data.GetSize + nx.data.GetSize ≤ cap
      · obtain ⟨m, hmrun, hmw, hms, hme⟩ := appendRange_spec nx.data nx.data.size 0 c.data hcw
          (by omega) hnw
        have hmok : SegsOK cap ({ data := m } :: rest) := by
          rw [SegsOK_cons]
          refine ⟨⟨hmw, ?_⟩, hrok⟩
          unfold GetSize at hm
          show (m.size : Int) ≤ cap
          omega
        rw [mergeLoop] at hrun
        simp only [hm, if_true] at hrun
        have h0 : appendRange nx.data nx.data.size 0 c.data = .ok m := hmrun
        rw [h0] at hrun
        obtain ⟨hnm, hhead⟩ := ih (rest.length + 1) (by simp at hlen; omega)
          ({ data := m } :: rest) segs1 (by simp) hmok hrun
        refine ⟨hnm, fun c2 rest2 h => ?_⟩
        injection h with h1 h2
        subst h1
        obtain ⟨c1, rest1, hs1, hle⟩ := hhead _ _ rfl
        refine ⟨c1, rest1, hs1, ?_⟩
        have : c.data.size ≤ m.size := by omega
        exact Nat.le_trans this hle
      · have hnok : SegsOK cap (nx :: rest) := by
          rw [SegsOK_cons]; exact ⟨⟨hnw, hnc⟩, hrok⟩
        rw [mergeLoop] at hrun
        simp only [hm, if_false] at hrun
        cases htail : mergeLoop cap (nx :: rest) with
        | error e => rw [htail] at hrun; cases hrun
        | ok tl =>
          rw [htail] at hrun
          have hs : c :: tl = segs1 := Except_ok_inj hrun
          subst hs
          obtain ⟨hnm, hhead⟩ := ih (rest.length + 1) (by simp at hlen; omega)
            (nx :: rest) tl (by simp) hnok htail
          obtain ⟨c1, rest1, hs1, hle⟩ := hhead _ _ rfl
          subst hs1
          refine ⟨?_, fun c2 rest2 h => ?_⟩
          · rw [NoMerge_cons_cons]
            refine ⟨?_, hnm⟩
            unfold GetSize at hm ⊢
            omega
          · injection h with h1 h2
            subst h1
            exact ⟨c, _, rfl, Nat.le_refl _⟩

theorem mergeLoop_fixed (cap : Int) (segs : List (Segment T)) (h : NoMerge cap segs) :
    mergeLoop cap segs = .ok segs := by
  induction segs with
  | nil => rw [mergeLoop]; rfl
  | cons c l ih =>
    cases l with
    | nil => rw [mergeLoop]; rfl
    | cons nx rest =>
      rw [NoMerge_cons_cons] at h
      rw [mergeLoop]
      have hm : ¬ c.data.GetSize + nx.data.GetSize ≤ cap := by omega
      simp only [hm, if_false, ih h.2, bind_ok]
      rfl

theorem NoMerge_getElem? (cap : Int) (segs : List (Segment T)) (h : NoMerge cap segs) :
    ∀ (k : Nat) (a b : Segment T), segs[k]? = some a → segs[k + 1]? = some b →
      cap < a.data.GetSize + b.data.GetSize := by
  induction segs with
  | nil => intro k a b ha; simp at ha
  | cons c l ih =>
    intro k a b ha hb
    cases l with
    | nil => simp at hb
    | cons nx rest =>
      rw [NoMerge_cons_cons] at h
      cases k with
      | zero =>
        simp at ha hb
        subst ha
        subst hb
        exact h.1
      | succ k =>
        rw [List.getElem?_cons_succ] at ha hb
        exact ih h.2 k a b ha hb

/-- C11: on a deque that satisfies the structural invariant (`segmentCapacity >= 1`), `Optimize`
succeeds and afterwards the sizes of every two neighbouring segments of the chain add up to
more than `segmentCapacity`: no pair can be merged further. -/
theorem C11_optimize_no_mergeable (d : SegmentedDeque T) (hinv : d.Inv) :
    ∃ d1, d.Optimize = .ok d1 ∧
      ∀ (k : Nat) (a b : Segment T), d1.segs[k]? = some a → d1.segs[k + 1]? = some b →
        d.segmentCapacity < a.data.GetSize + b.data.GetSize := by
  obtain ⟨d1, hrun, _⟩ := Optimize_spec d hinv
  refine ⟨d1, hrun, ?_⟩
  unfold Optimize mergeSegments at hrun
  cases hm : mergeLoop d.segmentCapacity d.segs with
  | error e => rw [hm] at hrun; cases hrun
  | ok segs1 =>
    rw [hm] at hrun
    have hd1 : { d with segs := segs1 } = d1 := Except_ok_inj hrun
    subst hd1
    exact NoMerge_getElem? _ _ (mergeLoop_noMerge _ _ _ _ rfl hinv.2.2 hm).1

/-- Witness of C11: the deque `[1,2,3],[4,5]` of capacity 3. -/
theorem C11_optimize_no_mergeable_witness :
    stateFive.Inv ∧ ∃ d1, stateFive.Optimize = .ok d1 ∧
      ∀ (k : Nat) (a b : Segment Int), d1.segs[k]? = some a → d1.segs[k + 1]? = some b →
        stateFive.segmentCapacity < a.data.GetSize + b.data.GetSize :=
  ⟨by decide, C11_optimize_no_mergeable stateFive (by decide)⟩

/-- C12: on a deque that satisfies the structural invariant, a second `Optimize` right after
the first leaves the deque exactly as the first left it: the same segments, in number, sizes
and contents. -/
theorem C12_optimize_idempotent (d : SegmentedDeque T) (hinv : d.Inv) :
    ∃ d1, d.Optimize = .ok d1 ∧ d1.Optimize = .ok d1 := by
  obtain ⟨d1, hrun, _⟩ := Optimize_spec d hinv
  refine ⟨d1, hrun, ?_⟩
  unfold Optimize mergeSegments at hrun
  cases hm : mergeLoop d.segmentCapacity d.segs with
  | error e => rw [hm] at hrun; cases hrun
  | ok segs1 =>
    rw [hm] at hrun
    have hd1 : { d with segs := segs1 } = d1 := Except_ok_inj hrun
    subst hd1
    have hnm := (mergeLoop_noMerge _ _ _ _ rfl hinv.2.2 hm).1
    unfold Optimize mergeSegments
    show (mergeLoop d.segmentCapacity segs1 >>= _) = _
    rw [mergeLoop_fixed _ _ hnm]
    rfl

/-- Witness of C12: the deque `[1,2,3],[4,5]` of capacity 3. -/
theorem C12_optimize_idempotent_witness :
    stateFive.Inv ∧ ∃ d1, stateFive.Optimize = .ok d1 ∧ d1.Optimize = .ok d1 :=
  ⟨by decide, C12_optimize_idempotent stateFive (by decide)⟩


theorem Reachable_stateTen : Reachable stateTen :=
  ReachableBy_appendAll true [6, 7, 8, 9, 10] stateFive stateTen Reachable_stateFive rfl

/-- C13, failing inputs: `Reserve(20)` with capacity 3 needs `(20 + 3 - 1) / 3 = 7` segments.
On the freshly constructed deque it leaves one segment, on the deque `[1,2,3]` two, and on the
deque of `main` (1..10 appended, four segments, the tail `[10]` not full) it allocates
nothing: every iteration of the loop calls `ensureCapacity`, which returns at once when the
tail has room and re-points `head = tail` at a fresh segment when `totalSize == 0`. -/
theorem C13_reserve_too_few_segments :
    ((20 : Int) + 3 - 1).tdiv 3 = 7
      ∧ stateNew3.Reserve 20 = .ok stateNewReserved ∧ stateNewReserved.segs.length = 1
      ∧ stateFull.Reserve 20 = .ok stateFullReserved ∧ stateFullReserved.segs.length = 2
      ∧ Reachable stateTen ∧ stateTen.Reserve 20 = .ok stateTen ∧ stateTen.segs.length = 4 :=
  ⟨by decide, rfl, rfl, rfl, rfl, Reachable_stateTen, rfl, rfl⟩

theorem layout_eq (d : SegmentedDeque T) :
    d.layout = d.segs.map (fun s => s.data.elems) := rfl

theorem elems_nil_of_size {a : DynamicArray T} (h : a.size = 0) : a.elems = [] := by
  unfold elems; rw [h]; rfl

/-- A call of `ensureCapacity` in a state without empty segments before the last one only
adds empty segments behind the contents that were there. -/
theorem ensureCapacity_layout (d : SegmentedDeque T) (hinv : d.Inv)
    (hfr : FrontNonEmpty d.segs) :
    ∃ d1 extra, d.ensureCapacity = .ok d1 ∧ d1.segmentCapacity = d.segmentCapacity
      ∧ d1.totalSize = d.totalSize ∧ d1.Inv ∧ FrontNonEmpty d1.segs
      ∧ d1.layout = d.layout ++ extra ∧ (∀ l ∈ extra, l = [])
      ∧ d.segs.length ≤ d1.segs.length := by
  obtain ⟨d1, hrun, hc, ht, _, hinv1, hfr1⟩ := ensureCapacity_keeps d hinv hfr
  obtain ⟨hcap, hsum, hok⟩ := hinv
  rcases ensureCapacity_spec d hsum with ⟨h0, he⟩ | ⟨h0, front, tail, hseg, ⟨hlt, he⟩ | ⟨hge, he⟩⟩
  · rw [he] at hrun
    have hd1 := Except_ok_inj hrun
    subst hd1
    rcases List.eq_nil_or_concat d.segs with hs | ⟨front, last, hs⟩
    · refine ⟨_, [[]], he, hc, ht, hinv1, hfr1, ?_, ?_, ?_⟩
      · rw [layout_eq, layout_eq, hs]
        show [(Segment.ctor d.segmentCapacity : Segment T).data.elems] = _
        rw [Segment_ctor_elems]; rfl
      · intro l hl; simpa using hl
      · rw [hs]; simp
    · rw [List.concat_eq_append] at hs
      have hfr2 := hfr
      rw [hs, FrontNonEmpty_snoc] at hfr2
      rw [hs, sizeSum_append, sizeSum_cons, sizeSum_nil] at hsum
      have hfn : front = [] := by
        cases front with
        | nil => rfl
        | cons f fs =>
          have := hfr2 f (by simp)
          rw [sizeSum_cons] at hsum
          omega
      subst hfn
      have hl0 : last.data.size = 0 := by
        simp [sizeSum_nil] at hsum
        omega
      refine ⟨_, [], he, hc, ht, hinv1, hfr1, ?_, ?_, ?_⟩
      · rw [layout_eq, layout_eq, hs]
        show [(Segment.ctor d.segmentCapacity : Segment T).data.elems] = _
        rw [Segment_ctor_elems]
        simp [elems_nil_of_size hl0]
      · intro l hl; simp at hl
      · rw [hs]; simp
  · rw [he] at hrun
    have hd1 := Except_ok_inj hrun
    subst hd1
    exact ⟨d, [], he, rfl, rfl, hinv1, hfr, by simp, by intro l hl; simp at hl, Nat.le_refl _⟩
  · rw [he] at hrun
    have hd1 := Except_ok_inj hrun
    subst hd1
    refine ⟨_, [[]], he, hc, ht, hinv1, hfr1, ?_, ?_, ?_⟩
    · rw [layout_eq, layout_eq]
      show (d.segs ++ [Segment.ctor d.segmentCapacity]).map _ = _
      rw [List.map_append]
      simp [Segment_ctor_elems]
    · intro l hl; simpa using hl
    · show d.segs.length ≤ (d.segs ++ [Segment.ctor d.segmentCapacity]).length
      simp

theorem ensureLoop_layout (n : Nat) : ∀ (lo : Int) (d : SegmentedDeque T), d.Inv →
    FrontNonEmpty d.segs →
    ∃ d1 extra, forUp n lo (fun _ s => s.ensureCapacity) d = .ok d1
      ∧ d1.segmentCapacity = d.segmentCapacity
      ∧ d1.totalSize = d.totalSize ∧ d1.Inv ∧ FrontNonEmpty d1.segs
      ∧ d1.layout = d.layout ++ extra ∧ (∀ l ∈ extra, l = [])
      ∧ d.segs.length ≤ d1.segs.length := by
  induction n with
  | zero =>
    intro lo d hinv hfr
    exact ⟨d, [], rfl, rfl, rfl, hinv, hfr, by simp, by intro l hl; simp at hl, Nat.le_refl _⟩
  | succ n ih =>
    intro lo d hinv hfr
    obtain ⟨d1, e1, h1, hc1, ht1, hi1, hf1, hl1, he1, hn1⟩ := ensureCapacity_layout d hinv hfr
    obtain ⟨d2, e2, h2, hc2, ht2, hi2, hf2, hl2, he2, hn2⟩ := ih (lo + 1) d1 hi1 hf1
    refine ⟨d2, e1 ++ e2, ?_, by rw [hc2, hc1], by rw [ht2, ht1], hi2, hf2, ?_, ?_, by omega⟩
    · unfold forUp
      simp only [h1, bind_ok]
      exact h2
    · rw [hl2, hl1, List.append_assoc]
    · intro l hl
      rcases List.mem_append.mp hl with h | h
      · exact he1 l h
      · exact he2 l h

/-- C14: on every reachable deque `Reserve(expectedSize)` succeeds and changes neither the
length nor the result of any `Get(i)`; the contents of the segments that were on the chain
stay where they were, and whatever follows them is empty.  (The chain is compared by contents:
the identity of the nodes is not part of the embedding.) -/
theorem C14_reserve_frame (d : SegmentedDeque T) (expectedSize : Int) (h : Reachable d) :
    ∃ d1 extra, d.Reserve expectedSize = .ok d1
      ∧ d1.GetLength = d.GetLength
      ∧ d1.segmentCapacity = d.segmentCapacity
      ∧ (∀ i : Int, d1.Get i = d.Get i)
      ∧ d1.toList = d.toList
      ∧ d1.layout = d.layout ++ extra ∧ (∀ l ∈ extra, l = [])
      ∧ d.segs.length ≤ d1.segs.length := by
  obtain ⟨hinv, hfr, _⟩ := ReachableBy_inv true d h
  obtain ⟨d1, extra, hrun, hc, ht, hi1, _, hl, he, hn⟩ :=
    ensureLoop_layout ((expectedSize + d.segmentCapacity - 1).tdiv d.segmentCapacity
      - (d.segs.length : Int)).toNat (d.segs.length : Int) d hinv hfr
  have hflat : d1.toList = d.toList := by
    unfold toList
    rw [hl, List.flatten_append]
    have : extra.flatten = [] := by
      rw [List.flatten_eq_nil_iff]
      exact he
    rw [this, List.append_nil]
  refine ⟨d1, extra, hrun, ht, hc, ?_, hflat, hl, he, hn⟩
  intro i
  by_cases hr : i < 0 ∨ d.totalSize ≤ i
  · rw [Get_error d i hr, Get_error d1 i (by omega)]
  · exact Get_congr d d1 hinv hi1 i i (by omega) (by omega) (by omega) (by omega)
      (by rw [hflat])

/-- Witness of C14: `Reserve(4)` on the deque `[1,2,3]` of capacity 3. -/
theorem C14_reserve_frame_witness :
    Reachable stateFull ∧ ∃ d1 extra, stateFull.Reserve 4 = .ok d1
      ∧ d1.GetLength = stateFull.GetLength
      ∧ d1.segmentCapacity = stateFull.segmentCapacity
      ∧ (∀ i : Int, d1.Get i = stateFull.Get i)
      ∧ d1.toList = stateFull.toList
      ∧ d1.layout = stateFull.layout ++ extra ∧ (∀ l ∈ extra, l = [])
      ∧ stateFull.segs.length ≤ d1.segs.length :=
  ⟨ReachableBy_appendAll true [1, 2, 3] stateNew3 stateFull (ReachableBy.ctor 3 stateNew3 rfl) rfl,
    C14_reserve_frame stateFull 4
      (ReachableBy_appendAll true [1, 2, 3] stateNew3 stateFull
        (ReachableBy.ctor 3 stateNew3 rfl) rfl)⟩

end SegmentedDeque
end Lab

namespace Lab
namespace DynamicArray
variable {T : Type} [Inhabited T]

theorem bubble_zero (comp : T → T → Bool) (l : List T) : bubble comp 0 l = l := by
  unfold bubble; rfl

theorem bubble_succ (comp : T → T → Bool) (n : Nat) (x y : T) (rest : List T) :
    bubble comp (n + 1) (x :: y :: rest)
      = if comp x y then x :: bubble comp n (y :: rest) else y :: bubble comp n (x :: rest) := by
  rw [bubble]

theorem swapStep_mid (comp : T → T → Bool) (pre rest : List T) (x y : T) :
    swapStep comp pre.length (pre ++ x :: y :: rest)
      = pre ++ (if comp x y then x :: y :: rest else y :: x :: rest) := by
  unfold swapStep
  have h1 : (pre ++ x :: y :: rest)[pre.length]? = some x := by
    rw [List.getElem?_append_right (Nat.le_refl _)]; simp
  have h2 : (pre ++ x :: y :: rest)[pre.length + 1]? = some y := by
    rw [List.getElem?_append_right (by omega)]; simp
  simp only [h1, h2]
  by_cases hc : comp x y = true
  · simp [hc]
  · simp only [hc, Bool.not_false, if_true, Bool.false_eq_true, if_false]
    rw [List.set_append_right _ _ (Nat.le_refl _), Nat.sub_self, List.set_cons_zero,
      List.set_append_right _ _ (by omega)]
    have : pre.length + 1 - pre.length = 1 := by omega
    rw [this]
    rfl

/-- The inner loop of the bubble sort, started behind a prefix `pre`, is one `bubble` pass
over the rest of the buffer. -/
theorem iterUp_bubble (comp : T → T → Bool) (n : Nat) : ∀ (pre l : List T),
    n + 1 ≤ l.length →
    iterUp n pre.length (swapStep comp) (pre ++ l) = pre ++ bubble comp n l := by
  induction n with
  | zero => intro pre l _; rw [bubble_zero]; rfl
  | succ n ih =>
    intro pre l hl
    match l, hl with
    | x :: y :: rest, hl =>
      unfold iterUp
      rw [swapStep_mid, bubble_succ]
      by_cases hc : comp x y = true
      · simp only [hc, if_true]
        have h := ih (pre ++ [x]) (y :: rest) (by simp at hl ⊢; omega)
        simp only [List.length_append, List.length_singleton, List.append_assoc,
          List.singleton_append] at h
        exact h
      · simp only [hc, if_false]
        have h := ih (pre ++ [y]) (x :: rest) (by simp at hl ⊢; omega)
        simp only [List.length_append, List.length_singleton, List.append_assoc,
          List.singleton_append] at h
        exact h

theorem StrictTotal_neg_trans {comp : T → T → Bool} (h : StrictTotal comp) (m x y : T)
    (h1 : comp m x = false) (h2 : comp x y = false) : comp m y = false := by
  obtain ⟨hirr, htrans, htot⟩ := h
  by_contra hc
  have hmy : comp m y = true := by simpa using hc
  by_cases hxy : x = y
  · subst hxy
    rw [h1] at hmy
    cases hmy
  · rcases htot x y hxy with h3 | h3
    · rw [h2] at h3; cases h3
    · have := htrans m y x hmy h3
      rw [h1] at this
      cases this

/-- Shape of one bubble pass over `x :: rest` followed by an untouched `q`: a permutation of
`x :: rest` whose last element is, for a strict total order, not below any of them. -/
theorem bubble_shape (comp : T → T → Bool) (n : Nat) : ∀ (x : T) (rest q : List T),
    rest.length = n →
    ∃ r m, bubble comp n (x :: rest ++ q) = r ++ m :: q ∧ List.Perm (r ++ [m]) (x :: rest)
      ∧ (StrictTotal comp → ∀ z ∈ x :: rest, comp m z = false) := by
  induction n with
  | zero =>
    intro x rest q hr
    have : rest = [] := List.eq_nil_of_length_eq_zero hr
    subst this
    refine ⟨[], x, by rw [bubble_zero]; rfl, List.Perm.refl _, ?_⟩
    intro hst z hz
    simp at hz
    subst hz
    exact hst.1 z
  | succ n ih =>
    intro x rest q hr
    match rest, hr with
    | y :: rest1, hr =>
      have hr1 : rest1.length = n := by simpa using hr
      show ∃ r m, bubble comp (n + 1) (x :: y :: (rest1 ++ q)) = r ++ m :: q ∧ _
      rw [bubble_succ]
      by_cases hc : comp x y = true
      · obtain ⟨r, m, hb, hp, ho⟩ := ih y rest1 q hr1
        refine ⟨x :: r, m, ?_, ?_, ?_⟩
        · simp only [hc, if_true]
          have hb2 : bubble comp n (y :: (rest1 ++ q)) = r ++ m :: q := hb
          rw [hb2]; rfl
        · exact List.Perm.cons x hp
        · intro hst z hz
          rcases List.mem_cons.mp hz with hzx | hz2
          · subst hzx
            have hym := ho hst y (by simp)
            by_contra hcon
            have hmz : comp m z = true := by simpa using hcon
            have := hst.2.1 m z y hmz hc
            rw [hym] at this
            cases this
          · exact ho hst z hz2
      · have hcf : comp x y = false := by simpa using hc
        obtain ⟨r, m, hb, hp, ho⟩ := ih x rest1 q hr1
        refine ⟨y :: r, m, ?_, ?_, ?_⟩
        · simp only [hc, if_false]
          have hb2 : bubble comp n (x :: (rest1 ++ q)) = r ++ m :: q := hb
          rw [hb2]; rfl
        · exact (List.Perm.cons y hp).trans (List.Perm.swap x y rest1)
        · intro hst z hz
          rcases List.mem_cons.mp hz with hzx | hz2
          · subst hzx
            exact ho hst z (by simp)
          · rcases List.mem_cons.mp hz2 with hzy | hz3
            · subst hzy
              exact StrictTotal_neg_trans hst m x z (ho hst x (by simp)) hcf
            · exact ho hst z (List.mem_cons_of_mem _ hz3)

/-- State of the buffer after `k` passes of the bubble sort of an array of `s` elements. -/
theorem bubble_outer (comp : T → T → Bool) (orig : List T) (s : Nat) (k : Nat) :
    ∀ (i : Nat) (data : List T), i + k = s →
    (∃ a srt, data = a ++ srt ++ orig.drop s ∧ a.length = s - i ∧ srt.length = i
      ∧ List.Perm (a ++ srt) (orig.take s)
      ∧ (StrictTotal comp → List.Pairwise (fun u v => comp v u = false) srt
          ∧ ∀ u ∈ a, ∀ v ∈ srt, comp v u = false)) →
    ∃ srt, iterUp k i (fun i1 dt => iterUp (s - i1 - 1) 0 (swapStep comp) dt) data
        = srt ++ orig.drop s ∧ srt.length = s
      ∧ List.Perm srt (orig.take s)
      ∧ (StrictTotal comp → List.Pairwise (fun u v => comp v u = false) srt) := by
  induction k with
  | zero =>
    intro i data hi ⟨a, srt, hd, ha, hs, hp, ho⟩
    have : a = [] := List.eq_nil_of_length_eq_zero (by omega)
    subst this
    refine ⟨srt, by rw [hd]; rfl, by omega, by simpa using hp, fun hst => (ho hst).1⟩
  | succ k ih =>
    intro i data hi ⟨a, srt, hd, ha, hs, hp, ho⟩
    cases a with
    | nil => simp at ha; omega
    | cons x rest =>
      have hrl : rest.length = s - i - 1 := by simp at ha; omega
      obtain ⟨r, m, hb, hbp, hbo⟩ := bubble_shape comp (s - i - 1) x rest
        (srt ++ orig.drop s) hrl
      unfold iterUp
      apply ih (i + 1) _ (by omega)
      refine ⟨r, m :: srt, ?_, ?_, ?_, ?_, ?_⟩
      · have h1 := iterUp_bubble comp (s - i - 1) [] data
          (by rw [hd]; simp only [List.length_append, List.length_cons]; omega)
        simp only [List.nil_append, List.length_nil] at h1
        show iterUp (s - i - 1) 0 (swapStep comp) data = _
        rw [h1, hd]
        have h2 : x :: rest ++ srt ++ orig.drop s = x :: rest ++ (srt ++ orig.drop s) := by
          simp
        rw [h2, hb]
        simp
      · have := hbp.length_eq
        simp only [List.length_append, List.length_singleton, List.length_cons,
          List.length_nil] at this ha
        omega
      · simp only [List.length_cons]; omega
      · have h3 : List.Perm (r ++ m :: srt) ((r ++ [m]) ++ srt) := by
          simp
        exact h3.trans ((List.Perm.append_right srt hbp).trans hp)
      · intro hst
        obtain ⟨hpw, hall⟩ := ho hst
        have hm : m ∈ x :: rest := (hbp.mem_iff).mp (by simp)
        refine ⟨?_, ?_⟩
        · rw [List.pairwise_cons]
          exact ⟨fun v hv => hall m hm v hv, hpw⟩
        · intro u hu v hv
          have hux : u ∈ x :: rest := (hbp.mem_iff).mp (List.mem_append_left _ hu)
          rcases List.mem_cons.mp hv with hvm | hvs
          · subst hvm
            exact hbo hst u hux
          · exact hall u hux v hvs

/-- The bubble sort of `SortInPlace` permutes the elements of the array and, for a strict total
order, leaves them in order. -/
theorem SortInPlace_elems (a : DynamicArray T) (comp : T → T → Bool) (hw : a.WF) :
    List.Perm (a.SortInPlace comp).elems a.elems
      ∧ (StrictTotal comp →
          List.Pairwise (fun u v => comp v u = false) (a.SortInPlace comp).elems) := by
  unfold WF at hw
  obtain ⟨srt, hrun, hlen, hp, ho⟩ := bubble_outer comp a.data a.size a.size 0 a.data
    (by omega)
    ⟨a.data.take a.size, [], by simp, by simp; omega, rfl, by simp,
      fun _ => ⟨List.Pairwise.nil, fun u _ v hv => by simp at hv⟩⟩
  have he : (a.SortInPlace comp).elems = srt := by
    unfold elems SortInPlace
    simp only
    rw [hrun, List.take_append_of_le_length (by omega), List.take_of_length_le (by omega)]
  rw [he]
  exact ⟨hp, ho⟩

end DynamicArray

namespace SegmentedDeque
open DynamicArray
variable {T : Type} [Inhabited T]

/-- Effect of `SortInPlace` on the element sequence. -/
theorem SortInPlace_toList (d : SegmentedDeque T) (hinv : d.Inv) (comp : T → T → Bool) :
    ∃ d1, d.SortInPlace comp = .ok d1 ∧ d1.Inv ∧ d1.totalSize = d.totalSize
      ∧ d1.segmentCapacity = d.segmentCapacity
      ∧ d1.segs.map (fun s => s.data.size) = d.segs.map (fun s => s.data.size)
      ∧ List.Perm d1.toList d.toList
      ∧ (StrictTotal comp → List.Pairwise (fun u v => comp v u = false) d1.toList) := by
  obtain ⟨d1, hrun, hc, ht, hsz, _, hcases⟩ := SortInPlace_spec d hinv comp
  obtain ⟨_, _, hk⟩ := SortInPlace_keeps d d1 hinv comp hrun
  refine ⟨d1, hrun, hk.1, ht, hc, hsz, ?_⟩
  rcases hcases with ⟨h1, hd⟩ | ⟨_, temp, htw, hte, hl⟩
  · subst hd
    refine ⟨List.Perm.refl _, fun _ => ?_⟩
    have hlen := length_toList d1 hinv
    cases hl : d1.toList with
    | nil => exact List.Pairwise.nil
    | cons x xs =>
      rw [hl] at hlen
      simp only [List.length_cons] at hlen
      have : xs = [] := List.eq_nil_of_length_eq_zero (by omega)
      subst this
      exact List.pairwise_singleton _ _
  · obtain ⟨hp, ho⟩ := SortInPlace_elems temp comp htw
    rw [hl, ← hte]
    exact ⟨hp, ho⟩


theorem StrictTotal_intLess : StrictTotal intLess := by
  unfold StrictTotal intLess
  refine ⟨fun a => by simp, fun a b c h1 h2 => ?_, fun a b h => ?_⟩
  · simp only [decide_eq_true_eq] at h1 h2 ⊢
    omega
  · simp only [decide_eq_true_eq]
    omega

/-- C15: on a deque that satisfies the structural invariant and for a comparator that is a
strict total order, `SortInPlace(comparator)` succeeds, keeps the length, and afterwards
`comparator(Get(j), Get(i))` is false for all `0 <= i < j < totalSize`. -/
theorem C15_sortInPlace_sorted (d : SegmentedDeque T) (comp : T → T → Bool) (hinv : d.Inv)
    (hst : StrictTotal comp) :
    ∃ d1, d.SortInPlace comp = .ok d1 ∧ d1.GetLength = d.GetLength ∧
      ∀ i j : Int, 0 ≤ i → i < j → j < d1.totalSize →
        ∃ vi vj, d1.Get i = .ok vi ∧ d1.Get j = .ok vj ∧ comp vj vi = false := by
  obtain ⟨d1, hrun, hinv1, ht, _, _, _, hsorted⟩ := SortInPlace_toList d hinv comp
  refine ⟨d1, hrun, ht, ?_⟩
  intro i j hi hij hj
  obtain ⟨vi, hgi, hli⟩ := toList_of_Get d1 hinv1 i hi (by omega)
  obtain ⟨vj, hgj, hlj⟩ := toList_of_Get d1 hinv1 j (by omega) hj
  refine ⟨vi, vj, hgi, hgj, ?_⟩
  have hpw := List.pairwise_iff_getElem.mp (hsorted hst)
  have hlen := length_toList d1 hinv1
  have h1 : i.toNat < d1.toList.length := by omega
  have h2 : j.toNat < d1.toList.length := by omega
  have := hpw i.toNat j.toNat h1 h2 (by omega)
  rw [List.getElem?_eq_getElem h1] at hli
  rw [List.getElem?_eq_getElem h2] at hlj
  injection hli with hli
  injection hlj with hlj
  rw [hli, hlj] at this
  exact this

/-- Witness of C15: the deque 9, 8, ..., 0 of capacity 3 with the comparator `a < b`. -/
theorem C15_sortInPlace_sorted_witness :
    stateDesc.Inv ∧ StrictTotal intLess ∧
    ∃ d1, stateDesc.SortInPlace intLess = .ok d1 ∧ d1.GetLength = stateDesc.GetLength ∧
      ∀ i j : Int, 0 ≤ i → i < j → j < d1.totalSize →
        ∃ vi vj, d1.Get i = .ok vi ∧ d1.Get j = .ok vj ∧ intLess vj vi = false :=
  ⟨by decide, StrictTotal_intLess,
    C15_sortInPlace_sorted stateDesc intLess (by decide) StrictTotal_intLess⟩

/-- C16: on a deque that satisfies the structural invariant and for every comparator,
`SortInPlace(comparator)` succeeds, keeps the length, and the element sequence after the call
is a permutation of the element sequence before it. -/
theorem C16_sortInPlace_perm (d : SegmentedDeque T) (comp : T → T → Bool) (hinv : d.Inv) :
    ∃ d1, d.SortInPlace comp = .ok d1 ∧ d1.GetLength = d.GetLength
      ∧ List.Perm d1.toList d.toList := by
  obtain ⟨d1, hrun, _, ht, _, _, hp, _⟩ := SortInPlace_toList d hinv comp
  exact ⟨d1, hrun, ht, hp⟩

/-- Witness of C16: the deque 9, 8, ..., 0 with a comparator that is constantly true. -/
theorem C16_sortInPlace_perm_witness :
    stateDesc.Inv ∧
    ∃ d1, stateDesc.SortInPlace (fun _ _ => true) = .ok d1
      ∧ d1.GetLength = stateDesc.GetLength ∧ List.Perm d1.toList stateDesc.toList :=
  ⟨by decide, C16_sortInPlace_perm stateDesc (fun _ _ => true) (by decide)⟩

/-- C17: on a deque that satisfies the structural invariant, `SortInPlace` succeeds and keeps
the number of segments and the list of their sizes from head to tail. -/
theorem C17_sortInPlace_boundaries (d : SegmentedDeque T) (comp : T → T → Bool)
    (hinv : d.Inv) :
    ∃ d1, d.SortInPlace comp = .ok d1 ∧ d1.segs.length = d.segs.length
      ∧ d1.segs.map (fun s => s.data.GetSize) = d.segs.map (fun s => s.data.GetSize) := by
  obtain ⟨d1, hrun, _, _, _, hsz, _, _⟩ := SortInPlace_toList d hinv comp
  refine ⟨d1, hrun, ?_, ?_⟩
  · have := congrArg List.length hsz
    simpa using this
  · have := congrArg (List.map (fun n : Nat => (n : Int))) hsz
    simpa [List.map_map, GetSize, Function.comp] using this

/-- Witness of C17: the deque 9, 8, ..., 0 of capacity 3 (sizes 3, 3, 3, 1). -/
theorem C17_sortInPlace_boundaries_witness :
    stateDesc.Inv ∧
    ∃ d1, stateDesc.SortInPlace intLess = .ok d1 ∧ d1.segs.length = stateDesc.segs.length
      ∧ d1.segs.map (fun s => s.data.GetSize) = stateDesc.segs.map (fun s => s.data.GetSize) :=
  ⟨by decide, C17_sortInPlace_boundaries stateDesc intLess (by decide)⟩


/-- The inner loop of `ContainsSubsequence` returns whether the window at offset `i` agrees
with the pattern on the positions it still has to compare. -/
theorem matchLoop_spec [DecidableEq T] (d : SegmentedDeque T) (hinv : d.Inv)
    (subseq : Sequence T) (i : Int) (hi : 0 ≤ i) (n : Nat) : ∀ (j0 : Int), 0 ≤ j0 →
    i + j0 + n ≤ d.totalSize →
    (∀ j, j0 ≤ j → j < j0 + n → ∃ v, subseq.Get j = .ok v) →
    ∃ b, matchLoop d subseq i n j0 = .ok b
      ∧ (b = true ↔ ∀ j, j0 ≤ j → j < j0 + n → d.Get (i + j) = subseq.Get j) := by
  induction n with
  | zero =>
    intro j0 _ _ _
    refine ⟨true, rfl, ?_⟩
    simp only [true_iff]
    intro j h1 h2
    simp at h2
    omega
  | succ n ih =>
    intro j0 hj0 hle hsub
    obtain ⟨a, hga, _⟩ := toList_of_Get d hinv (i + j0) (by omega) (by push_cast at hle; omega)
    obtain ⟨w, hgw⟩ := hsub j0 (by omega) (by push_cast; omega)
    obtain ⟨b, hrun, hb⟩ := ih (j0 + 1) (by omega) (by push_cast at hle ⊢; omega)
      (fun j h1 h2 => hsub j (by omega) (by push_cast at h2 ⊢; omega))
    by_cases hne : a ≠ w
    · refine ⟨false, ?_, ?_⟩
      · unfold matchLoop
        simp only [hga, hgw, bind_ok]
        rw [if_pos hne]
        rfl
      · constructor
        · intro h
          cases h
        · intro h
          have := h j0 (by omega) (by push_cast; omega)
          rw [hga, hgw] at this
          injection this with this
          exact absurd this hne
    · have hne1 : a = w := by
        by_contra hc
        exact hne hc
      refine ⟨b, ?_, ?_⟩
      · unfold matchLoop
        simp only [hga, hgw, bind_ok]
        rw [if_neg hne]
        exact hrun
      · rw [hb]
        constructor
        · intro h j h1 h2
          by_cases hj : j = j0
          · subst hj
            rw [hga, hgw, hne1]
          · exact h j (by omega) (by push_cast at h2 ⊢; omega)
        · intro h j h1 h2
          exact h j (by omega) (by push_cast at h2 ⊢; omega)

/-- The outer loop of `ContainsSubsequence` returns whether one of the offsets it still has to
try starts a window that agrees with the whole pattern. -/
theorem searchLoop_spec [DecidableEq T] (d : SegmentedDeque T) (hinv : d.Inv)
    (subseq : Sequence T)
    (hsub : ∀ j, 0 ≤ j → j < subseq.GetLength → ∃ v, subseq.Get j = .ok v)
    (hpos : 0 ≤ subseq.GetLength) (n : Nat) :
    ∀ (i0 : Int), 0 ≤ i0 → (0 < n → i0 + n - 1 + subseq.GetLength ≤ d.totalSize) →
    ∃ b, searchLoop d subseq n i0 = .ok b
      ∧ (b = true ↔ ∃ i, i0 ≤ i ∧ i < i0 + n
          ∧ ∀ j, 0 ≤ j → j < subseq.GetLength → d.Get (i + j) = subseq.Get j) := by
  induction n with
  | zero =>
    intro i0 _ _
    refine ⟨false, rfl, ?_⟩
    constructor
    · intro h
      cases h
    · rintro ⟨i, h1, h2, _⟩
      simp at h2
      omega
  | succ n ih =>
    intro i0 hi0 hle
    have hle1 := hle (by omega)
    push_cast at hle1
    obtain ⟨m, hm, hmb⟩ := matchLoop_spec d hinv subseq i0 hi0 subseq.GetLength.toNat 0
      (by omega) (by omega) (fun j h1 h2 => hsub j h1 (by omega))
    obtain ⟨b, hrun, hb⟩ := ih (i0 + 1) (by omega) (fun _ => by omega)
    have hwin : m = true ↔
        ∀ j, 0 ≤ j → j < subseq.GetLength → d.Get (i0 + j) = subseq.Get j := by
      rw [hmb]
      constructor
      · intro h j h1 h2
        exact h j h1 (by omega)
      · intro h j h1 h2
        exact h j h1 (by omega)
    cases hmv : m with
    | true =>
      refine ⟨true, ?_, ?_⟩
      · unfold searchLoop
        simp only [hm, bind_ok, hmv]
        rfl
      · simp only [true_iff]
        exact ⟨i0, by omega, by push_cast; omega, hwin.mp hmv⟩
    | false =>
      refine ⟨b, ?_, ?_⟩
      · unfold searchLoop
        simp only [hm, bind_ok, hmv]
        exact hrun
      · rw [hb]
        constructor
        · rintro ⟨i, h1, h2, h3⟩
          exact ⟨i, by omega, by push_cast; omega, h3⟩
        · rintro ⟨i, h1, h2, h3⟩
          by_cases hi : i = i0
          · subst hi
            rw [hwin.mpr h3] at hmv
            cases hmv
          · exact ⟨i, by omega, by push_cast at h2; omega, h3⟩

/-- C18: on a deque that satisfies the structural invariant and for a pattern whose `Get`
returns a value at every index below its length, `ContainsSubsequence(pattern)` returns a
boolean that is true exactly when there is an offset `i` with
`0 <= i <= totalSize - |pattern|` such that `Get(i + j)` equals `pattern.Get(j)` for every
`0 <= j < |pattern|`; it is true for an empty pattern and false for a pattern longer than the
deque. -/
theorem C18_containsSubsequence_iff [DecidableEq T] (d : SegmentedDeque T)
    (subseq : Sequence T) (hinv : d.Inv)
    (hsub : ∀ j, 0 ≤ j → j < subseq.GetLength → ∃ v, subseq.Get j = .ok v) :
    ∃ b, d.ContainsSubsequence subseq = .ok b
      ∧ (b = true ↔ ∃ i, 0 ≤ i ∧ i ≤ d.totalSize - subseq.GetLength
          ∧ ∀ j, 0 ≤ j → j < subseq.GetLength → d.Get (i + j) = subseq.Get j)
      ∧ (subseq.GetLength = 0 → b = true)
      ∧ (d.totalSize < subseq.GetLength → b = false) := by
  have hlen := length_toList d hinv
  have htot : 0 ≤ d.totalSize := by omega
  by_cases h0 : subseq.GetLength = 0
  · refine ⟨true, ?_, ?_, fun _ => rfl, fun h => by omega⟩
    · unfold ContainsSubsequence
      rw [if_pos h0]
      rfl
    · simp only [true_iff]
      exact ⟨0, by omega, by omega, fun j h1 h2 => by omega⟩
  by_cases h1 : subseq.GetLength > d.totalSize
  · refine ⟨false, ?_, ?_, fun h => absurd h h0, fun _ => rfl⟩
    · unfold ContainsSubsequence
      rw [if_neg h0, if_pos h1]
      rfl
    · constructor
      · intro h
        cases h
      · rintro ⟨i, hi0, hi1, _⟩
        omega
  by_cases hneg : subseq.GetLength < 0
  · obtain ⟨k, hk⟩ : ∃ k, (d.totalSize - subseq.GetLength + 1).toNat = k + 1 :=
      ⟨(d.totalSize - subseq.GetLength).toNat, by omega⟩
    have hz : subseq.GetLength.toNat = 0 := by omega
    refine ⟨true, ?_, ?_, fun h => absurd h h0, fun h => by omega⟩
    · unfold ContainsSubsequence
      rw [if_neg h0, if_neg h1, hk]
      unfold searchLoop
      rw [hz]
      rfl
    · simp only [true_iff]
      exact ⟨0, by omega, by omega, fun j h1 h2 => by omega⟩
  · obtain ⟨b, hrun, hb⟩ := searchLoop_spec d hinv subseq hsub (by omega)
      (d.totalSize - subseq.GetLength + 1).toNat 0 (by omega) (fun _ => by omega)
    refine ⟨b, ?_, ?_, fun h => absurd h h0, fun h => by omega⟩
    · unfold ContainsSubsequence
      rw [if_neg h0, if_neg h1]
      exact hrun
    · rw [hb]
      constructor
      · rintro ⟨i, hi0, hi1, h3⟩
        exact ⟨i, hi0, by omega, h3⟩
      · rintro ⟨i, hi0, hi1, h3⟩
        exact ⟨i, hi0, by omega, h3⟩

/-- Witness of C18: the deque 9, 8, ..., 0 of capacity 3 and the pattern 9, 8, 7. -/
theorem C18_containsSubsequence_iff_witness :
    stateDesc.Inv
    ∧ (∀ j, 0 ≤ j → j < patternNineEightSeven.GetLength →
        ∃ v, patternNineEightSeven.Get j = .ok v)
    ∧ ∃ b, stateDesc.ContainsSubsequence patternNineEightSeven = .ok b
      ∧ (b = true ↔ ∃ i, 0 ≤ i ∧ i ≤ stateDesc.totalSize - patternNineEightSeven.GetLength
          ∧ ∀ j, 0 ≤ j → j < patternNineEightSeven.GetLength →
            stateDesc.Get (i + j) = patternNineEightSeven.Get j)
      ∧ (patternNineEightSeven.GetLength = 0 → b = true)
      ∧ (stateDesc.totalSize < patternNineEightSeven.GetLength → b = false) :=
  ⟨by decide,
   fun j h0 h1 => by
    have h2 : j < 3 := h1
    obtain rfl | rfl | rfl : j = 0 ∨ j = 1 ∨ j = 2 := by omega
    · exact ⟨9, rfl⟩
    · exact ⟨8, rfl⟩
    · exact ⟨7, rfl⟩,
   C18_containsSubsequence_iff stateDesc patternNineEightSeven (by decide)
    (fun j h0 h1 => by
      have h2 : j < 3 := h1
      obtain rfl | rfl | rfl : j = 0 ∨ j = 1 ∨ j = 2 := by omega
      · exact ⟨9, rfl⟩
      · exact ⟨8, rfl⟩
      · exact ⟨7, rfl⟩)⟩


/-- A deque that satisfies the invariant is a pattern whose `Get` returns a value at every
index below its length. -/
theorem toSequence_total (d : SegmentedDeque T) (hinv : d.Inv) :
    ∀ j, 0 ≤ j → j < (toSequence d).GetLength → ∃ v, (toSequence d).Get j = .ok v := by
  intro j h0 h1
  obtain ⟨v, hv, _⟩ := toList_of_Get d hinv j h0 h1
  exact ⟨v, hv⟩

/-- The loop of `GetSubsequence` appends the elements `lo, ..., lo + n - 1` of the source. -/
theorem getRange_spec (d : SegmentedDeque T) (hinv : d.Inv) (n : Nat) :
    ∀ (lo : Nat) (s : SegmentedDeque T), s.Inv → ((lo + n : Nat) : Int) ≤ d.totalSize →
    ∃ s1, forUp n (lo : Int) (fun i s => do
        let v ← d.Get i
        s.AppendInPlace v) s = .ok s1
      ∧ s1.segmentCapacity = s.segmentCapacity ∧ s1.totalSize = s.totalSize + n
      ∧ s1.toList = s.toList ++ (d.toList.drop lo).take n ∧ Keeps s s1 := by
  induction n with
  | zero =>
    intro lo s hs _
    exact ⟨s, rfl, rfl, by simp, by simp, Keeps_refl hs⟩
  | succ n ih =>
    intro lo s hs hlo
    have hlen := length_toList d hinv
    have hl : lo < d.toList.length := by push_cast at hlo; omega
    have hget : d.Get (lo : Int) = .ok d.toList[lo] :=
      Get_of_toList d hinv lo (by omega) (by push_cast at hlo; omega) _
        (by simp only [Int.toNat_ofNat]; exact List.getElem?_eq_getElem hl)
    obtain ⟨s1, hrun1, _⟩ := AppendInPlace_spec s hs d.toList[lo]
    obtain ⟨hc1, ht1, hl1, hk1⟩ := AppendInPlace_keeps s s1 hs _ hrun1
    obtain ⟨s2, hrun2, hc2, ht2, hl2, hk2⟩ := ih (lo + 1) s1 hk1.1 (by push_cast at hlo ⊢; omega)
    refine ⟨s2, ?_, by rw [hc2, hc1], ?_, ?_, Keeps_trans hk1 hk2⟩
    · unfold forUp
      simp only [hget, bind_ok, hrun1]
      have h1 : (lo : Int) + 1 = ((lo + 1 : Nat) : Int) := by omega
      rw [h1]
      exact hrun2
    · rw [ht2, ht1]; push_cast; omega
    · rw [hl2, hl1, List.drop_eq_getElem_cons hl, List.take_succ_cons, List.append_assoc]
      rfl

/-- Result of `GetSubsequence` on valid inclusive bounds. -/
theorem GetSubsequence_spec (d : SegmentedDeque T) (hinv : d.Inv) (startIndex endIndex : Int)
    (h0 : 0 ≤ startIndex) (h1 : startIndex ≤ endIndex) (h2 : endIndex < d.totalSize) :
    ∃ r, d.GetSubsequence startIndex endIndex = .ok r ∧ r.Inv
      ∧ r.segmentCapacity = d.segmentCapacity ∧ r.totalSize = endIndex - startIndex + 1
      ∧ r.toList = (d.toList.drop startIndex.toNat).take (endIndex - startIndex + 1).toNat := by
  have hempty : ({ segs := [], segmentCapacity := d.segmentCapacity, totalSize := 0 } :
      SegmentedDeque T).Inv := ⟨hinv.1, rfl, SegsOK_nil _⟩
  obtain ⟨r, hrun, hc, ht, hl, hk⟩ := getRange_spec d hinv (endIndex - startIndex + 1).toNat
    startIndex.toNat _ hempty (by omega)
  refine ⟨r, ?_, hk.1, hc, ?_, ?_⟩
  · unfold GetSubsequence
    rw [if_neg (by omega)]
    unfold SegmentedDeque.ctor
    rw [if_neg (by have := hinv.1; omega)]
    have hs : ((startIndex.toNat : Nat) : Int) = startIndex := by omega
    rw [hs] at hrun
    exact hrun
  · rw [ht]
    show (0 : Int) + _ = _
    omega
  · rw [hl]
    show flat [] ++ _ = _
    rw [flat_nil, List.nil_append]

/-- C19: on a deque that satisfies the structural invariant and for bounds with
`0 <= start <= end < totalSize`, `GetSubsequence(start, end)` returns a deque of length
`end - start + 1` with the same `segmentCapacity` whose `k`-th element is the element
`start + k` of the source, for every `0 <= k <= end - start`.  The method is `const`: the
source is the same value before and after the call, and `Get` on it still returns its
elements. -/
theorem C19_getSubsequence_range (d : SegmentedDeque T) (startIndex endIndex : Int)
    (hinv : d.Inv) (h0 : 0 ≤ startIndex) (h1 : startIndex ≤ endIndex)
    (h2 : endIndex < d.totalSize) :
    ∃ r, d.GetSubsequence startIndex endIndex = .ok r
      ∧ r.GetLength = endIndex - startIndex + 1
      ∧ r.segmentCapacity = d.segmentCapacity
      ∧ ∀ k, 0 ≤ k → k ≤ endIndex - startIndex →
          ∃ v, r.Get k = .ok v ∧ d.Get (startIndex + k) = .ok v := by
  obtain ⟨r, hrun, hri, hc, ht, hl⟩ := GetSubsequence_spec d hinv startIndex endIndex h0 h1 h2
  refine ⟨r, hrun, ht, hc, ?_⟩
  intro k hk0 hk1
  have hlen := length_toList d hinv
  obtain ⟨v, hgv, hlv⟩ := toList_of_Get d hinv (startIndex + k) (by omega) (by omega)
  refine ⟨v, ?_, hgv⟩
  apply Get_of_toList r hri k hk0 (by omega)
  rw [hl, List.getElem?_take_of_lt (by omega), List.getElem?_drop, ← hlv]
  congr 1
  omega

/-- Witness of C19: `GetSubsequence(1, 3)` on the deque 1, 2, 3, 4, 5 of capacity 3. -/
theorem C19_getSubsequence_range_witness :
    stateFive.Inv ∧ (0 : Int) ≤ 1 ∧ (1 : Int) ≤ 3 ∧ (3 : Int) < stateFive.totalSize
    ∧ ∃ r, stateFive.GetSubsequence 1 3 = .ok r
      ∧ r.GetLength = 3 - 1 + 1
      ∧ r.segmentCapacity = stateFive.segmentCapacity
      ∧ ∀ k, 0 ≤ k → k ≤ 3 - 1 →
          ∃ v, r.Get k = .ok v ∧ stateFive.Get (1 + k) = .ok v :=
  ⟨by decide, by decide, by decide, by decide,
    C19_getSubsequence_range stateFive 1 3 (by decide) (by decide) (by decide) (by decide)⟩

/-- C20: on a deque that satisfies the structural invariant, `GetSubsequence(start, end)`
throws `std::out_of_range("Invalid indices")` when `start < 0` or `end >= totalSize` or
`start > end`, and returns a deque in every other case; on an empty deque it throws for every
pair of bounds. -/
theorem C20_getSubsequence_error (d : SegmentedDeque T) (startIndex endIndex : Int)
    (hinv : d.Inv) :
    ((startIndex < 0 ∨ endIndex ≥ d.totalSize ∨ startIndex > endIndex) →
        d.GetSubsequence startIndex endIndex = .error Err.invalidIndices)
    ∧ (¬ (startIndex < 0 ∨ endIndex ≥ d.totalSize ∨ startIndex > endIndex) →
        ∃ r, d.GetSubsequence startIndex endIndex = .ok r)
    ∧ (d.totalSize = 0 → d.GetSubsequence startIndex endIndex = .error Err.invalidIndices) := by
  have herr : (startIndex < 0 ∨ endIndex ≥ d.totalSize ∨ startIndex > endIndex) →
      d.GetSubsequence startIndex endIndex = .error Err.invalidIndices := by
    intro h
    unfold GetSubsequence
    rw [if_pos h]
    rfl
  refine ⟨herr, ?_, ?_⟩
  · intro h
    obtain ⟨r, hrun, _⟩ := GetSubsequence_spec d hinv startIndex endIndex (by omega) (by omega)
      (by omega)
    exact ⟨r, hrun⟩
  · intro h
    apply herr
    omega

/-- Witness of C20: the deque 1, 2, 3, 4, 5 of capacity 3 with the bounds 3 and 1. -/
theorem C20_getSubsequence_error_witness :
    stateFive.Inv
    ∧ (((3 : Int) < 0 ∨ (1 : Int) ≥ stateFive.totalSize ∨ (3 : Int) > 1) →
        stateFive.GetSubsequence 3 1 = .error Err.invalidIndices)
    ∧ (¬ ((3 : Int) < 0 ∨ (1 : Int) ≥ stateFive.totalSize ∨ (3 : Int) > 1) →
        ∃ r, stateFive.GetSubsequence 3 1 = .ok r)
    ∧ (stateFive.totalSize = 0 → stateFive.GetSubsequence 3 1 = .error Err.invalidIndices) :=
  ⟨by decide, C20_getSubsequence_error stateFive 3 1 (by decide)⟩


/-- A counted loop that reads `cur.Get(i)` for `i = lo, ..., lo + n - 1` is a fold over these
elements of the buffer. -/
theorem forUp_elems_range {σ : Type} (cur : DynamicArray T) (hcw : cur.WF)
    (g : T → σ → Except Err σ) (n : Nat) : ∀ (lo : Nat) (s : σ), lo + n ≤ cur.size →
    forUp n (lo : Int) (fun i s => do
        let v ← cur.Get i
        g v s) s
      = ((cur.elems.drop lo).take n).foldlM (fun s v => g v s) s := by
  induction n with
  | zero =>
    intro lo s _
    simp [forUp]
  | succ n ih =>
    intro lo s hlo
    have hlen := elems_length hcw
    have hl : lo < cur.elems.length := by omega
    unfold forUp
    simp only [Get_ok cur lo _ (List.getElem?_eq_getElem hl), bind_ok]
    rw [List.drop_eq_getElem_cons hl, List.take_succ_cons, List.foldlM_cons]
    congr 1
    funext s1
    have h1 : (lo : Int) + 1 = ((lo + 1 : Nat) : Int) := by omega
    rw [h1]
    exact ih (lo + 1) s1 (by omega)

/-- The loop `for (i = 0; i < cur.GetSize(); ++i)` over a valid buffer is a fold over its
elements. -/
theorem forUp_elems {σ : Type} (cur : DynamicArray T) (hcw : cur.WF)
    (g : T → σ → Except Err σ) (s : σ) :
    forUp cur.size 0 (fun i s => do
        let v ← cur.Get i
        g v s) s
      = cur.elems.foldlM (fun s v => g v s) s := by
  have h := forUp_elems_range cur hcw g cur.size 0 s (by omega)
  rw [List.drop_zero, List.take_of_length_le (by rw [elems_length hcw])] at h
  exact h

theorem copyLoop_eq (segs : List (Segment T)) (hwf : ∀ s ∈ segs, s.data.WF) :
    ∀ d : SegmentedDeque T,
    copyLoop segs d = (flat segs).foldlM (fun s v => s.AppendInPlace v) d := by
  induction segs with
  | nil => intro d; rfl
  | cons c rest ih =>
    intro d
    unfold copyLoop
    rw [forUp_elems c.data (hwf c (by simp)) (fun v s => s.AppendInPlace v) d, flat_cons,
      List.foldlM_append]
    congr 1
    funext d1
    exact ih (fun s hs => hwf s (by simp [hs])) d1

theorem mapLoop_eq (mapper : T → T) (segs : List (Segment T))
    (hwf : ∀ s ∈ segs, s.data.WF) : ∀ d : SegmentedDeque T,
    mapLoop mapper segs d = (flat segs).foldlM (fun s v => s.AppendInPlace (mapper v)) d := by
  induction segs with
  | nil => intro d; rfl
  | cons c rest ih =>
    intro d
    unfold mapLoop
    rw [forUp_elems c.data (hwf c (by simp)) (fun v s => s.AppendInPlace (mapper v)) d,
      flat_cons, List.foldlM_append]
    congr 1
    funext d1
    exact ih (fun s hs => hwf s (by simp [hs])) d1

theorem whereLoop_eq (predicate : T → Bool) (segs : List (Segment T))
    (hwf : ∀ s ∈ segs, s.data.WF) : ∀ d : SegmentedDeque T,
    whereLoop predicate segs d = (flat segs).foldlM
      (fun s v => if predicate v then s.AppendInPlace v else pure s) d := by
  induction segs with
  | nil => intro d; rfl
  | cons c rest ih =>
    intro d
    unfold whereLoop
    rw [forUp_elems c.data (hwf c (by simp))
        (fun v s => if predicate v then s.AppendInPlace v else pure s) d,
      flat_cons, List.foldlM_append]
    congr 1
    funext d1
    exact ih (fun s hs => hwf s (by simp [hs])) d1

theorem reduceLoop_eq (reducer : T → T → T) (segs : List (Segment T))
    (hwf : ∀ s ∈ segs, s.data.WF) : ∀ r : T,
    reduceLoop reducer segs r = .ok ((flat segs).foldl reducer r) := by
  induction segs with
  | nil => intro r; rfl
  | cons c rest ih =>
    intro r
    unfold reduceLoop
    rw [forUp_elems c.data (hwf c (by simp)) (fun v acc => pure (reducer acc v)) r, flat_cons,
      List.foldl_append]
    have hp : ∀ (l : List T) (a : T),
        l.foldlM (fun acc v => (pure (reducer acc v) : Except Err T)) a
          = .ok (l.foldl reducer a) := by
      intro l
      induction l with
      | nil => intro a; rfl
      | cons x l ihl =>
        intro a
        rw [List.foldlM_cons, List.foldl_cons]
        exact ihl (reducer a x)
    rw [hp, bind_ok]
    exact ih (fun s hs => hwf s (by simp [hs])) _

theorem FullFront_nil (cap : Int) : FullFront cap ([] : List (Segment T)) := by
  intro s hs
  simp at hs

/-- A successful `AppendInPlace` keeps every segment before the last full when this was so
before the call. -/
theorem AppendInPlace_fullFront (d d1 : SegmentedDeque T) (hinv : d.Inv) (x : T)
    (h : d.AppendInPlace x = .ok d1) (hp : FullFront d.segmentCapacity d.segs) :
    FullFront d1.segmentCapacity d1.segs := by
  obtain ⟨d2, hrun, hc, _, hcases⟩ := AppendInPlace_spec d hinv x
  rw [hrun] at h
  cases h
  rw [hc]
  rcases hcases with ⟨_, s, hs, _, _⟩ |
    ⟨_, front, tail, hseg, ⟨_, s, hs, _, _⟩ | ⟨hge, s, hs, _, _⟩⟩
  · rw [hs]
    intro t ht
    simp at ht
  · rw [hs, FullFront, dropLast_snoc]
    rw [hseg, FullFront, dropLast_snoc] at hp
    exact hp
  · rw [hs, FullFront, dropLast_snoc]
    intro t ht
    rw [hseg, FullFront, dropLast_snoc] at hp
    rw [hseg, List.mem_append, List.mem_singleton] at ht
    rcases ht with ht | rfl
    · exact hp t ht
    · have := (hinv.2.2 t (by rw [hseg]; simp)).2
      unfold GetSize
      omega

/-- A run of `AppendInPlace(f(v))` over the elements `v` of a list. -/
theorem appendFold_spec (f : T → T) : ∀ (l : List T) (s : SegmentedDeque T), s.Inv →
    ∃ s1, l.foldlM (fun s v => s.AppendInPlace (f v)) s = .ok s1
      ∧ s1.segmentCapacity = s.segmentCapacity ∧ s1.totalSize = s.totalSize + l.length
      ∧ s1.toList = s.toList ++ l.map f ∧ Keeps s s1
      ∧ (FullFront s.segmentCapacity s.segs → FullFront s1.segmentCapacity s1.segs) := by
  intro l
  induction l with
  | nil =>
    intro s hs
    exact ⟨s, rfl, rfl, by simp, by simp, Keeps_refl hs, id⟩
  | cons x l ih =>
    intro s hs
    obtain ⟨s1, hrun1, _⟩ := AppendInPlace_spec s hs (f x)
    obtain ⟨hc1, ht1, hl1, hk1⟩ := AppendInPlace_keeps s s1 hs _ hrun1
    obtain ⟨s2, hrun2, hc2, ht2, hl2, hk2, hf2⟩ := ih s1 hk1.1
    refine ⟨s2, ?_, by rw [hc2, hc1], ?_, ?_, Keeps_trans hk1 hk2, ?_⟩
    · rw [List.foldlM_cons, hrun1, bind_ok]
      exact hrun2
    · rw [ht2, ht1]
      simp only [List.length_cons]
      push_cast
      omega
    · rw [hl2, hl1]
      simp
    · intro hp
      exact hf2 (AppendInPlace_fullFront s s1 hs _ hrun1 hp)

/-- A run of `if (predicate(v)) AppendInPlace(v)` over the elements `v` of a list. -/
theorem whereFold_spec (p : T → Bool) : ∀ (l : List T) (s : SegmentedDeque T), s.Inv →
    ∃ s1, l.foldlM (fun s v => if p v then s.AppendInPlace v else pure s) s = .ok s1
      ∧ s1.segmentCapacity = s.segmentCapacity
      ∧ s1.totalSize = s.totalSize + (l.filter p).length
      ∧ s1.toList = s.toList ++ l.filter p ∧ Keeps s s1 := by
  intro l
  induction l with
  | nil =>
    intro s hs
    exact ⟨s, rfl, rfl, by simp, by simp, Keeps_refl hs⟩
  | cons x l ih =>
    intro s hs
    by_cases hp : p x = true
    · obtain ⟨s1, hrun1, _⟩ := AppendInPlace_spec s hs x
      obtain ⟨hc1, ht1, hl1, hk1⟩ := AppendInPlace_keeps s s1 hs _ hrun1
      obtain ⟨s2, hrun2, hc2, ht2, hl2, hk2⟩ := ih s1 hk1.1
      refine ⟨s2, ?_, by rw [hc2, hc1], ?_, ?_, Keeps_trans hk1 hk2⟩
      · rw [List.foldlM_cons, if_pos hp, hrun1, bind_ok]
        exact hrun2
      · rw [ht2, ht1, List.filter_cons_of_pos hp]
        simp only [List.length_cons]
        push_cast
        omega
      · rw [hl2, hl1, List.filter_cons_of_pos hp]
        simp
    · obtain ⟨s2, hrun2, hc2, ht2, hl2, hk2⟩ := ih s hs
      refine ⟨s2, ?_, hc2, ?_, ?_, hk2⟩
      · rw [List.foldlM_cons, if_neg hp]
        exact hrun2
      · rw [ht2, List.filter_cons_of_neg hp]
      · rw [hl2, List.filter_cons_of_neg hp]

/-- Result of the copy constructor on a donor that satisfies the invariant. -/
theorem copyCtor_spec (other : SegmentedDeque T) (hother : other.Inv) :
    ∃ c, copyCtor other = .ok c ∧ c.segmentCapacity = other.segmentCapacity
      ∧ c.totalSize = other.totalSize ∧ c.toList = other.toList ∧ c.Inv
      ∧ AllNonEmpty c.segs ∧ FullFront c.segmentCapacity c.segs := by
  have hinv0 : ({ segs := [], segmentCapacity := other.segmentCapacity, totalSize := 0 } :
      SegmentedDeque T).Inv := ⟨hother.1, rfl, SegsOK_nil _⟩
  obtain ⟨c, hrun, hc, ht, hl, hk, hf⟩ := appendFold_spec id (flat other.segs) _ hinv0
  refine ⟨c, ?_, hc, ?_, ?_, hk.1, hk.2.2 AllNonEmpty_nil, hf (FullFront_nil _)⟩
  · unfold copyCtor
    rw [copyLoop_eq other.segs (fun s hs => (hother.2.2 s hs).1)]
    exact hrun
  · rw [ht, hother.2.1, ← length_flat hother.2.2]
    show (0 : Int) + _ = _
    omega
  · rw [hl, List.map_id]
    show flat [] ++ _ = _
    rw [flat_nil, List.nil_append]
    rfl

/-- Assignment from another deque builds what the copy constructor builds. -/
theorem operatorAssign_eq_copyCtor (d other : SegmentedDeque T) :
    d.operatorAssign other = copyCtor other := rfl

/-- Two deques with the same element sequence answer every `Get` alike. -/
theorem Get_eq_of_toList (d d1 : SegmentedDeque T) (hd : d.Inv) (hd1 : d1.Inv)
    (h : d1.toList = d.toList) (i : Int) : d1.Get i = d.Get i := by
  have hl := length_toList d hd
  have hl1 := length_toList d1 hd1
  rw [h] at hl1
  by_cases hr : i < 0 ∨ d.totalSize ≤ i
  · rw [Get_error d i hr, Get_error d1 i (by omega)]
  · exact Get_congr d d1 hd hd1 i i (by omega) (by omega) (by omega) (by omega) (by rw [h])


/-- The loop of `Concat` appends the values `other.Get(lo), ..., other.Get(lo + n - 1)`. -/
theorem concatLoop_spec (other : Sequence T) (n : Nat) :
    ∀ (lo : Nat) (s : SegmentedDeque T), s.Inv →
    (∀ j : Int, (lo : Int) ≤ j → j < lo + n → ∃ v, other.Get j = .ok v) →
    ∃ s1 l, forUp n (lo : Int) (fun i s => do
        let v ← other.Get i
        s.AppendInPlace v) s = .ok s1
      ∧ s1.segmentCapacity = s.segmentCapacity ∧ s1.totalSize = s.totalSize + n
      ∧ s1.Inv ∧ l.length = n ∧ s1.toList = s.toList ++ l
      ∧ ∀ (k : Nat) (v : T), l[k]? = some v → other.Get ((lo : Int) + k) = .ok v := by
  induction n with
  | zero =>
    intro lo s hs _
    exact ⟨s, [], rfl, rfl, by simp, hs, rfl, by simp, by simp⟩
  | succ n ih =>
    intro lo s hs hsub
    obtain ⟨v, hv⟩ := hsub lo (by omega) (by push_cast; omega)
    obtain ⟨s1, hrun1, _⟩ := AppendInPlace_spec s hs v
    obtain ⟨hc1, ht1, hl1, hk1⟩ := AppendInPlace_keeps s s1 hs _ hrun1
    obtain ⟨s2, l, hrun2, hc2, ht2, hinv2, hlen2, hl2, hget2⟩ := ih (lo + 1) s1 hk1.1
      (fun j h1 h2 => hsub j (by push_cast at h1; omega) (by push_cast at h2 ⊢; omega))
    refine ⟨s2, v :: l, ?_, by rw [hc2, hc1], ?_, hinv2, by simp [hlen2], ?_, ?_⟩
    · unfold forUp
      simp only [hv, bind_ok, hrun1]
      have h1 : (lo : Int) + 1 = ((lo + 1 : Nat) : Int) := by omega
      rw [h1]
      exact hrun2
    · rw [ht2, ht1]; push_cast; omega
    · rw [hl2, hl1, List.append_assoc]
      rfl
    · intro k w hk
      cases k with
      | zero =>
        simp at hk
        subst hk
        simpa using hv
      | succ k =>
        rw [List.getElem?_cons_succ] at hk
        have := hget2 k w hk
        have h2 : ((lo + 1 : Nat) : Int) + (k : Int) = (lo : Int) + ((k + 1 : Nat) : Int) := by
          push_cast; omega
        rw [h2] at this
        exact this

/-- C21: for a deque `a` that satisfies the structural invariant and a sequence `b` whose
`Get` returns a value at every index below its (non-negative) length, `a.Concat(b)` returns a
deque of length `|a| + |b|` with the `segmentCapacity` of `a` whose element `i` is `a.Get(i)`
for `0 <= i < |a|` and `b.Get(i - |a|)` for `|a| <= i < |a| + |b|`.  The method is `const` and
reads `b` only through `GetLength` and `Get`: both operands are the same values after the
call. -/
theorem C21_concat_elements (d : SegmentedDeque T) (other : Sequence T) (hinv : d.Inv)
    (hlen : 0 ≤ other.GetLength)
    (hsub : ∀ j, 0 ≤ j → j < other.GetLength → ∃ v, other.Get j = .ok v) :
    ∃ r, d.Concat other = .ok r
      ∧ r.GetLength = d.GetLength + other.GetLength
      ∧ r.segmentCapacity = d.segmentCapacity
      ∧ (∀ i, 0 ≤ i → i < d.GetLength → ∃ v, r.Get i = .ok v ∧ d.Get i = .ok v)
      ∧ (∀ i, d.GetLength ≤ i → i < d.GetLength + other.GetLength →
          ∃ v, r.Get i = .ok v ∧ other.Get (i - d.GetLength) = .ok v) := by
  obtain ⟨c, hcopy, hcc, hct, hcl, hci, _, _⟩ := copyCtor_spec d hinv
  obtain ⟨r, l, hrun, hrc, hrt, hri, hll, hrl, hget⟩ := concatLoop_spec other
    other.GetLength.toNat 0 c hci (fun j h1 h2 => hsub j (by omega) (by omega))
  have hdl := length_toList d hinv
  have hrt1 : r.totalSize = d.totalSize + other.GetLength := by rw [hrt, hct]; omega
  refine ⟨r, ?_, hrt1, by rw [hrc, hcc], ?_, ?_⟩
  · unfold Concat
    rw [hcopy, bind_ok]
    exact hrun
  · intro i h0 h1
    have h1a : i < d.totalSize := h1
    obtain ⟨v, hgv, hlv⟩ := toList_of_Get d hinv i h0 h1a
    refine ⟨v, ?_, hgv⟩
    apply Get_of_toList r hri i h0 (by omega)
    rw [hrl, hcl, List.getElem?_append_left (by omega)]
    exact hlv
  · intro i h0 h1
    have h0a : d.totalSize ≤ i := h0
    have h1a : i < d.totalSize + other.GetLength := h1
    have hk : (i - d.totalSize).toNat < l.length := by omega
    refine ⟨l[(i - d.totalSize).toNat], ?_, ?_⟩
    · apply Get_of_toList r hri i (by omega) (by omega)
      rw [hrl, hcl, List.getElem?_append_right (by omega)]
      have : i.toNat - d.toList.length = (i - d.totalSize).toNat := by omega
      rw [this]
      exact List.getElem?_eq_getElem hk
    · have := hget (i - d.totalSize).toNat _ (List.getElem?_eq_getElem hk)
      have h2 : ((0 : Nat) : Int) + (((i - d.totalSize).toNat : Nat) : Int) = i - d.GetLength := by
        show _ = i - d.totalSize
        omega
      rw [h2] at this
      exact this

/-- Witness of C21: `dq.Concat(&dq2)` with `dq` = 1, 2, 3, 4, 5 (capacity 3) and `dq2` =
20, 21, 22 (capacity 2). -/
theorem C21_concat_elements_witness :
    stateFive.Inv ∧ 0 ≤ (toSequence stateTwenty).GetLength
    ∧ (∀ j, 0 ≤ j → j < (toSequence stateTwenty).GetLength →
        ∃ v, (toSequence stateTwenty).Get j = .ok v)
    ∧ ∃ r, stateFive.Concat (toSequence stateTwenty) = .ok r
      ∧ r.GetLength = stateFive.GetLength + (toSequence stateTwenty).GetLength
      ∧ r.segmentCapacity = stateFive.segmentCapacity
      ∧ (∀ i, 0 ≤ i → i < stateFive.GetLength → ∃ v, r.Get i = .ok v ∧ stateFive.Get i = .ok v)
      ∧ (∀ i, stateFive.GetLength ≤ i →
          i < stateFive.GetLength + (toSequence stateTwenty).GetLength →
          ∃ v, r.Get i = .ok v
            ∧ (toSequence stateTwenty).Get (i - stateFive.GetLength) = .ok v) :=
  ⟨by decide, by decide,
   fun j h0 h1 => by
    have h2 : j < 3 := h1
    obtain rfl | rfl | rfl : j = 0 ∨ j = 1 ∨ j = 2 := by omega
    · exact ⟨20, rfl⟩
    · exact ⟨21, rfl⟩
    · exact ⟨22, rfl⟩,
   C21_concat_elements stateFive (toSequence stateTwenty) (by decide) (by decide)
    (fun j h0 h1 => by
      have h2 : j < 3 := h1
      obtain rfl | rfl | rfl : j = 0 ∨ j = 1 ∨ j = 2 := by omega
      · exact ⟨20, rfl⟩
      · exact ⟨21, rfl⟩
      · exact ⟨22, rfl⟩)⟩

/-- C22: for a donor that satisfies the structural invariant, the copy constructor and
the assignment (to any receiver) succeed and build the same deque: it has the length, the
`segmentCapacity` and, at every index, the element of the donor, and each of its segments other
than the last holds exactly `segmentCapacity` elements (and none is empty), whatever the
segments of the donor were. -/
theorem C22_copy_rebuilds_chain (d other : SegmentedDeque T) (hother : other.Inv) :
    ∃ c, copyCtor other = .ok c ∧ d.operatorAssign other = .ok c
      ∧ c.GetLength = other.GetLength
      ∧ c.segmentCapacity = other.segmentCapacity
      ∧ (∀ i, c.Get i = other.Get i)
      ∧ (∀ s ∈ c.segs.dropLast, s.data.GetSize = c.segmentCapacity)
      ∧ (∀ s ∈ c.segs, 1 ≤ s.data.GetSize ∧ s.data.GetSize ≤ c.segmentCapacity) := by
  obtain ⟨c, hcopy, hcc, hct, hcl, hci, hca, hcf⟩ := copyCtor_spec other hother
  refine ⟨c, hcopy, hcopy, hct, hcc, Get_eq_of_toList other c hother hci hcl, hcf, ?_⟩
  intro s hs
  have h1 := hca s hs
  have h2 := (hci.2.2 s hs).2
  unfold GetSize
  omega

/-- Witness of C22: the donor with the segments `[2,3]`, `[4,5]` of capacity 3 (the deque
1, 2, 3, 4, 5 after `PopFront`) and the receiver `dq2(2)`; the copy has the segments
`[2,3,4]`, `[5]`. -/
theorem C22_copy_rebuilds_chain_witness :
    stateSparse.Inv
    ∧ (copyCtor stateSparse).map layout = .ok [[2, 3, 4], [5]]
    ∧ ∃ c, copyCtor stateSparse = .ok c ∧ stateNew2.operatorAssign stateSparse = .ok c
      ∧ c.GetLength = stateSparse.GetLength
      ∧ c.segmentCapacity = stateSparse.segmentCapacity
      ∧ (∀ i, c.Get i = stateSparse.Get i)
      ∧ (∀ s ∈ c.segs.dropLast, s.data.GetSize = c.segmentCapacity)
      ∧ (∀ s ∈ c.segs, 1 ≤ s.data.GetSize ∧ s.data.GetSize ≤ c.segmentCapacity) :=
  ⟨by decide, rfl, C22_copy_rebuilds_chain stateNew2 stateSparse (by decide)⟩

/-- C23: on a deque that satisfies the structural invariant, `Append(item)`, `Prepend(item)`
and, for `0 <= index <= totalSize`, `InsertAt(item, index)` each return what `AppendInPlace`,
`PrependInPlace`, `InsertAtInPlace` return on the deep copy made by the copy constructor; the
copy has the elements of the receiver, and the results hold the receiver's elements with `item`
at the end, at the front, at position `index`.  The three methods are `const`: the receiver is
the same value after the call. -/
theorem C23_copy_returning (d : SegmentedDeque T) (item : T) (index : Int) (hinv : d.Inv)
    (h0 : 0 ≤ index) (h1 : index ≤ d.totalSize) :
    ∃ c, copyCtor d = .ok c ∧ c.GetLength = d.GetLength ∧ (∀ i, c.Get i = d.Get i)
      ∧ (∃ r, d.Append item = .ok r ∧ c.AppendInPlace item = .ok r
          ∧ r.toList = d.toList ++ [item])
      ∧ (∃ r, d.Prepend item = .ok r ∧ c.PrependInPlace item = .ok r
          ∧ r.toList = item :: d.toList)
      ∧ (∃ r, d.InsertAt item index = .ok r ∧ c.InsertAtInPlace item index = .ok r
          ∧ r.toList = d.toList.take index.toNat ++ item :: d.toList.drop index.toNat) := by
  obtain ⟨c, hcopy, hcc, hct, hcl, hci, _, _⟩ := copyCtor_spec d hinv
  refine ⟨c, hcopy, hct, Get_eq_of_toList d c hinv hci hcl, ?_, ?_, ?_⟩
  · obtain ⟨r, hrun, _⟩ := AppendInPlace_spec c hci item
    obtain ⟨_, _, hl, _⟩ := AppendInPlace_keeps c r hci item hrun
    refine ⟨r, ?_, hrun, by rw [hl, hcl]⟩
    unfold Append
    rw [hcopy, bind_ok]
    exact hrun
  · obtain ⟨r, hrun, _⟩ := PrependInPlace_spec c hci item
    obtain ⟨_, _, hl, _⟩ := PrependInPlace_keeps c r hci item hrun
    refine ⟨r, ?_, hrun, by rw [hl, hcl]⟩
    unfold Prepend
    rw [hcopy, bind_ok]
    exact hrun
  · obtain ⟨r, hrun⟩ := InsertAtInPlace_ok c hci item index h0 (by rw [hct]; exact h1)
    obtain ⟨_, _, _, _, hl, _⟩ := InsertAtInPlace_keeps c r hci item index hrun
    refine ⟨r, ?_, hrun, by rw [hl, hcl]⟩
    unfold InsertAt
    rw [hcopy, bind_ok]
    exact hrun

/-- Witness of C23: the deque 1, 2, 3, 4, 5 of capacity 3 with `item = 100` (the call
`dq.Append(100)` of `main`) and `index = 2`. -/
theorem C23_copy_returning_witness :
    stateFive.Inv ∧ (0 : Int) ≤ 2 ∧ (2 : Int) ≤ stateFive.totalSize
    ∧ ∃ c, copyCtor stateFive = .ok c ∧ c.GetLength = stateFive.GetLength
      ∧ (∀ i, c.Get i = stateFive.Get i)
      ∧ (∃ r, stateFive.Append 100 = .ok r ∧ c.AppendInPlace 100 = .ok r
          ∧ r.toList = stateFive.toList ++ [100])
      ∧ (∃ r, stateFive.Prepend 100 = .ok r ∧ c.PrependInPlace 100 = .ok r
          ∧ r.toList = 100 :: stateFive.toList)
      ∧ (∃ r, stateFive.InsertAt 100 2 = .ok r ∧ c.InsertAtInPlace 100 2 = .ok r
          ∧ r.toList = stateFive.toList.take (2 : Int).toNat
              ++ 100 :: stateFive.toList.drop (2 : Int).toNat) :=
  ⟨by decide, by decide, by decide,
    C23_copy_returning stateFive 100 2 (by decide) (by decide) (by decide)⟩


theorem Reachable_stateNew3 : Reachable stateNew3 := ReachableBy.ctor 3 stateNew3 rfl

theorem Reachable_stateNew2 : Reachable stateNew2 := ReachableBy.ctor 2 stateNew2 rfl

/-- `RemoveAt` returns at every index inside `[0, totalSize)` when no segment is empty (the
states reached without `Reserve`). -/
theorem RemoveAt_ok (d : SegmentedDeque T) (hinv : d.Inv) (hall : AllNonEmpty d.segs)
    (index : Int) (h0 : 0 ≤ index) (h1 : index < d.totalSize) :
    ∃ v d1, d.RemoveAt index = .ok (v, d1) := by
  have hc1 : ¬ (index < 0 ∨ index ≥ d.totalSize) := by omega
  by_cases hz : index = 0
  · obtain ⟨_, _, v, _, d1, _, _, hrun, _⟩ :=
      PopFront_ok d hinv (FrontNonEmpty_of_all hall) (by omega)
    refine ⟨v, d1, ?_⟩
    unfold RemoveAt
    rw [if_neg hc1, if_pos hz]
    exact hrun
  by_cases hl : index = d.totalSize - 1
  · obtain ⟨front, tail, hseg⟩ :=
      eq_snoc_of_ne_nil d.segs (segs_ne_nil_of_pos d hinv.2.1 (by omega))
    obtain ⟨v, _, d1, _, hrun, _⟩ :=
      PopBack_spec d hinv front tail hseg (hall tail (by rw [hseg]; simp))
    refine ⟨v, d1, ?_⟩
    unfold RemoveAt
    rw [if_neg hc1, if_neg hz, if_pos hl]
    exact hrun
  · obtain ⟨n, rfl⟩ : ∃ n : Nat, index = (n : Int) := ⟨index.toNat, by omega⟩
    obtain ⟨v, d1, _, _, _, _, hrun, _⟩ := RemoveAt_mid_spec d hinv n (by omega) (by omega)
    exact ⟨v, d1, hrun⟩

/-- Where the index checks throw: `Get` and `RemoveAt` for `index < 0` or
`index >= totalSize`, `InsertAtInPlace` for `index < 0` or `index > totalSize`; `Get` and
`InsertAtInPlace` return at every other index, and so does `RemoveAt` when no segment is
empty. -/
theorem index_checks (d : SegmentedDeque T) (hinv : d.Inv) (index : Int) (item : T) :
    ((index < 0 ∨ index ≥ d.totalSize) →
        d.Get index = .error Err.indexOutOfRange
          ∧ d.RemoveAt index = .error Err.indexOutOfRange)
    ∧ (¬ (index < 0 ∨ index ≥ d.totalSize) → ∃ v, d.Get index = .ok v)
    ∧ (¬ (index < 0 ∨ index ≥ d.totalSize) → AllNonEmpty d.segs →
        ∃ v d1, d.RemoveAt index = .ok (v, d1))
    ∧ ((index < 0 ∨ index > d.totalSize) →
        d.InsertAtInPlace item index = .error Err.indexOutOfRange)
    ∧ (¬ (index < 0 ∨ index > d.totalSize) → ∃ d1, d.InsertAtInPlace item index = .ok d1) := by
  refine ⟨fun h => ⟨Get_error d index (by omega), RemoveAt_error d index (by omega)⟩,
    fun h => ?_, fun h hall => RemoveAt_ok d hinv hall index (by omega) (by omega),
    fun h => InsertAtInPlace_error d item index (by omega),
    fun h => InsertAtInPlace_ok d hinv item index (by omega) (by omega)⟩
  obtain ⟨v, hv, _⟩ := toList_of_Get d hinv index (by omega) (by omega)
  exact ⟨v, hv⟩

/-- C24, failing input: capacity 3, `AppendInPlace` of 1, 2, 3, then `Reserve(4)`.  The index 2
is inside `[0, totalSize)`, yet `RemoveAt(2)` throws `std::out_of_range("Index out of range")`:
it delegates to `PopBack`, which reads `Get(-1)` of the empty tail segment.  So `RemoveAt` does
not fail only for `index < 0` or `index >= totalSize`. -/
theorem C24_removeAt_throws_in_range :
    Reachable stateFullReserved
      ∧ ¬ ((2 : Int) < 0 ∨ (2 : Int) ≥ stateFullReserved.totalSize)
      ∧ stateFullReserved.RemoveAt 2 = .error Err.indexOutOfRange
      ∧ Err.indexOutOfRange.exceptionClass = some ExceptionClass.outOfRange
      ∧ ¬ (∀ d : SegmentedDeque Int, Reachable d → ∀ (index : Int) (e : Err),
            d.RemoveAt index = .error e → index < 0 ∨ index ≥ d.totalSize) := by
  refine ⟨Reachable_stateFullReserved, by decide, rfl, rfl, ?_⟩
  intro h
  have := h stateFullReserved Reachable_stateFullReserved 2 Err.indexOutOfRange rfl
  revert this
  decide

/-- The loop `forUp` returns what `forUpCall` reports. -/
theorem forUp_of_call {σ : Type} (body : Int → σ → Except Err σ) (n : Nat) :
    ∀ (lo : Int) (s : σ), forUp n lo body s =
      (match forUpCall n lo body s with
       | (none, s1) => .ok s1
       | (some e, _) => .error e) := by
  induction n with
  | zero => intro lo s; rfl
  | succ n ih =>
    intro lo s
    unfold forUp forUpCall
    cases hb : body lo s with
    | error e => rfl
    | ok s1 =>
      rw [bind_ok]
      exact ih (lo + 1) s1

/-- The method `PopFront` returns the value and the object that `PopFrontCall` reports, and
throws what it reports. -/
theorem PopFront_of_call (d : SegmentedDeque T) : d.PopFront =
    (match d.PopFrontCall with
     | (.ok v, d1) => .ok (v, d1)
     | (.error e, _) => .error e) := by
  unfold PopFront PopFrontCall
  by_cases h0 : d.totalSize = 0
  · rw [if_pos h0, if_pos h0]
    rfl
  rw [if_neg h0, if_neg h0]
  cases hs : d.segs with
  | nil => rfl
  | cons head rest =>
    dsimp only
    cases hg : head.data.Get 0 with
    | error e => rfl
    | ok result =>
      rw [bind_ok]
      unfold shiftRemove
      rw [forUp_of_call]
      cases hf : forUpCall (head.data.GetSize - 1 - 0).toNat 0
          (fun i b => do
            let v ← b.Get (i + 1)
            b.Set i v) head.data with
      | mk oe a1 =>
        cases oe with
        | some e => rfl
        | none =>
          dsimp only
          rw [bind_ok]
          cases hr : a1.Resize (a1.GetSize - 1) with
          | error e => rfl
          | ok data1 => rfl

/-- The method `PopBack` returns the value and the object that `PopBackCall` reports, and
throws what it reports. -/
theorem PopBack_of_call (d : SegmentedDeque T) : d.PopBack =
    (match d.PopBackCall with
     | (.ok v, d1) => .ok (v, d1)
     | (.error e, _) => .error e) := by
  unfold PopBack PopBackCall
  by_cases h0 : d.totalSize = 0
  · rw [if_pos h0, if_pos h0]
    rfl
  rw [if_neg h0, if_neg h0]
  cases hs : d.segs.getLast? with
  | none => rfl
  | some tail =>
    dsimp only
    cases hg : tail.data.Get (tail.data.GetSize - 1) with
    | error e => rfl
    | ok result =>
      rw [bind_ok]
      cases hr : tail.data.Resize (tail.data.GetSize - 1) with
      | error e => rfl
      | ok data1 => rfl

theorem Get_ne_dequeEmpty (a : DynamicArray T) (i : Int) :
    a.Get i ≠ .error Err.dequeEmpty := by
  unfold DynamicArray.Get
  split
  · intro h; cases h
  · split
    · intro h; cases h
    · intro h; cases h

/-- C25, counterexample: on the freshly constructed deque of capacity 3 the four methods throw
`std::out_of_range("Deque is empty")` and `Get(0)` throws
`std::out_of_range("Index out of range")`: two objects of the same class, so the error of an
empty deque is not of a kind distinct from the index error. -/
theorem C25_counterexample :
    stateNew3.totalSize = 0
      ∧ stateNew3.GetFirst = .error Err.dequeEmpty
      ∧ stateNew3.GetLast = .error Err.dequeEmpty
      ∧ stateNew3.PopFront = .error Err.dequeEmpty
      ∧ stateNew3.PopBack = .error Err.dequeEmpty
      ∧ stateNew3.Get 0 = .error Err.indexOutOfRange
      ∧ Err.dequeEmpty.exceptionClass = Err.indexOutOfRange.exceptionClass
      ∧ ¬ (∀ d : SegmentedDeque Int, d.totalSize = 0 →
            ∃ e, d.PopFront = .error e
              ∧ e.exceptionClass ≠ Err.indexOutOfRange.exceptionClass) := by
  refine ⟨rfl, rfl, rfl, rfl, rfl, rfl, rfl, ?_⟩
  intro h
  obtain ⟨e, he, hne⟩ := h stateNew3 rfl
  have : e = Err.dequeEmpty := by
    have h2 : stateNew3.PopFront = .error Err.dequeEmpty := rfl
    rw [h2] at he
    injection he with he
    exact he.symm
  subst this
  exact hne rfl

/-- C25, amended: on a reachable deque with `totalSize = 0`, `GetFirst`, `GetLast`, `PopFront`
and `PopBack` each throw `std::out_of_range("Deque is empty")`, an object of the class of the
index error `std::out_of_range("Index out of range")` with another message, and leave the deque
empty: `GetFirst` and `GetLast` are `const`, and after the throw of `PopFront` and of `PopBack`
the object is the one before the call; with `totalSize > 0` none of the four throws it. -/
theorem C25_empty_errors_amended (d : SegmentedDeque T) (h : Reachable d) :
    (d.totalSize = 0 →
        d.GetFirst = .error Err.dequeEmpty ∧ d.GetLast = .error Err.dequeEmpty
          ∧ d.PopFront = .error Err.dequeEmpty ∧ d.PopBack = .error Err.dequeEmpty
          ∧ d.PopFrontCall = (.error Err.dequeEmpty, d)
          ∧ d.PopBackCall = (.error Err.dequeEmpty, d)
          ∧ d.IsEmpty = true)
    ∧ Err.dequeEmpty.exceptionClass = some ExceptionClass.outOfRange
    ∧ Err.indexOutOfRange.exceptionClass = some ExceptionClass.outOfRange
    ∧ Err.dequeEmpty ≠ Err.indexOutOfRange
    ∧ (0 < d.totalSize →
        d.GetFirst ≠ .error Err.dequeEmpty ∧ d.GetLast ≠ .error Err.dequeEmpty
          ∧ d.PopFront ≠ .error Err.dequeEmpty ∧ d.PopBack ≠ .error Err.dequeEmpty) := by
  obtain ⟨hinv, hfr, _⟩ := ReachableBy_inv true d h
  refine ⟨fun h0 => ⟨?_, ?_, PopFront_error_empty d h0, PopBack_error_empty d h0, ?_, ?_, ?_⟩,
    rfl, rfl, by decide, fun hpos => ⟨?_, ?_, ?_, ?_⟩⟩
  · unfold GetFirst
    rw [if_pos h0]
    rfl
  · unfold GetLast
    rw [if_pos h0]
    rfl
  · unfold PopFrontCall
    rw [if_pos h0]
    rfl
  · unfold PopBackCall
    rw [if_pos h0]
    rfl
  · unfold IsEmpty
    simp [h0]
  · unfold GetFirst
    rw [if_neg (by omega)]
    split
    · intro hc; cases hc
    · exact Get_ne_dequeEmpty _ _
  · unfold GetLast
    rw [if_neg (by omega)]
    split
    · intro hc; cases hc
    · exact Get_ne_dequeEmpty _ _
  · obtain ⟨_, _, v, _, d1, _, _, hrun, _⟩ := PopFront_ok d hinv hfr (by omega)
    rw [hrun]
    intro hc
    cases hc
  · obtain ⟨front, tail, hseg⟩ :=
      eq_snoc_of_ne_nil d.segs (segs_ne_nil_of_pos d hinv.2.1 (by omega))
    by_cases hz : tail.data.size = 0
    · rw [PopBack_empty_tail d (by omega) front tail hseg hz]
      intro hc
      cases hc
    · obtain ⟨v, _, d1, _, hrun, _⟩ := PopBack_spec d hinv front tail hseg (by omega)
      rw [hrun]
      intro hc
      cases hc

/-- Witness of C25 (amended): the freshly constructed deque of capacity 3. -/
theorem C25_empty_errors_amended_witness :
    Reachable stateNew3
    ∧ (stateNew3.totalSize = 0 →
        stateNew3.GetFirst = .error Err.dequeEmpty ∧ stateNew3.GetLast = .error Err.dequeEmpty
          ∧ stateNew3.PopFront = .error Err.dequeEmpty
          ∧ stateNew3.PopBack = .error Err.dequeEmpty
          ∧ stateNew3.PopFrontCall = (.error Err.dequeEmpty, stateNew3)
          ∧ stateNew3.PopBackCall = (.error Err.dequeEmpty, stateNew3)
          ∧ stateNew3.IsEmpty = true)
    ∧ Err.dequeEmpty.exceptionClass = some ExceptionClass.outOfRange
    ∧ Err.indexOutOfRange.exceptionClass = some ExceptionClass.outOfRange
    ∧ Err.dequeEmpty ≠ Err.indexOutOfRange
    ∧ (0 < stateNew3.totalSize →
        stateNew3.GetFirst ≠ .error Err.dequeEmpty ∧ stateNew3.GetLast ≠ .error Err.dequeEmpty
          ∧ stateNew3.PopFront ≠ .error Err.dequeEmpty
          ∧ stateNew3.PopBack ≠ .error Err.dequeEmpty) :=
  ⟨Reachable_stateNew3, C25_empty_errors_amended stateNew3 Reachable_stateNew3⟩

/-- C26: the constructor throws `std::invalid_argument("Segment size must be positive")` for
`segmentSize <= 0`; for `segmentSize >= 1` it returns a deque of length 0 without segments, for
which `IsEmpty` is true, with `segmentCapacity = segmentSize`. -/
theorem C26_constructor (segmentSize : Int) :
    ((segmentSize ≤ 0 →
        (SegmentedDeque.ctor segmentSize : Except Err (SegmentedDeque T))
          = .error Err.segmentSizeNotPositive)
      ∧ Err.segmentSizeNotPositive.exceptionClass = some ExceptionClass.invalidArgument)
    ∧ (1 ≤ segmentSize →
        ∃ d : SegmentedDeque T, SegmentedDeque.ctor segmentSize = .ok d
          ∧ d.GetLength = 0 ∧ d.segs = [] ∧ d.IsEmpty = true
          ∧ d.segmentCapacity = segmentSize) := by
  refine ⟨⟨fun h => ?_, rfl⟩, fun h => ?_⟩
  · unfold SegmentedDeque.ctor
    rw [if_pos h]
    rfl
  · refine ⟨{ segs := [], segmentCapacity := segmentSize, totalSize := 0 }, ?_, rfl, rfl, rfl,
      rfl⟩
    unfold SegmentedDeque.ctor
    rw [if_neg (by omega)]
    rfl

/-- C27, counterexample: `SegmentedDeque<int> dq2(2); dq2 = dq;` with `dq` = 1, 2, 3, 4, 5 of
capacity 3.  Both deques are reachable, and after the assignment `dq2` has `segmentCapacity`
3, not 2. -/
theorem C27_counterexample :
    Reachable stateNew2 ∧ Reachable stateFive
      ∧ stateNew2.segmentCapacity = 2
      ∧ stateNew2.operatorAssign stateFive = .ok stateFive
      ∧ stateFive.segmentCapacity = 3
      ∧ ¬ (∀ d other d1 : SegmentedDeque Int, Reachable d → Reachable other →
            d.operatorAssign other = .ok d1 → d1.segmentCapacity = d.segmentCapacity) := by
  refine ⟨Reachable_stateNew2, Reachable_stateFive, rfl, rfl, rfl, ?_⟩
  intro h
  have := h stateNew2 stateFive stateFive Reachable_stateNew2 Reachable_stateFive rfl
  revert this
  decide

/-- C27, amended: on a reachable deque, a successful `AppendInPlace`, `PrependInPlace`,
`InsertAtInPlace`, `PopFront`, `PopBack`, `RemoveAt`, `Optimize`, `Reserve` or `SortInPlace`
and `Clear` leave `segmentCapacity` as it was; a successful assignment from a deque `other`
(that satisfies the invariant) sets it to the `segmentCapacity` of `other`. -/
theorem C27_capacity_amended (d : SegmentedDeque T) (h : Reachable d) :
    (∀ x d1, d.AppendInPlace x = .ok d1 → d1.segmentCapacity = d.segmentCapacity)
    ∧ (∀ x d1, d.PrependInPlace x = .ok d1 → d1.segmentCapacity = d.segmentCapacity)
    ∧ (∀ x i d1, d.InsertAtInPlace x i = .ok d1 → d1.segmentCapacity = d.segmentCapacity)
    ∧ (∀ v d1, d.PopFront = .ok (v, d1) → d1.segmentCapacity = d.segmentCapacity)
    ∧ (∀ v d1, d.PopBack = .ok (v, d1) → d1.segmentCapacity = d.segmentCapacity)
    ∧ (∀ i v d1, d.RemoveAt i = .ok (v, d1) → d1.segmentCapacity = d.segmentCapacity)
    ∧ d.Clear.segmentCapacity = d.segmentCapacity
    ∧ (∀ d1, d.Optimize = .ok d1 → d1.segmentCapacity = d.segmentCapacity)
    ∧ (∀ n d1, d.Reserve n = .ok d1 → d1.segmentCapacity = d.segmentCapacity)
    ∧ (∀ comp d1, d.SortInPlace comp = .ok d1 → d1.segmentCapacity = d.segmentCapacity)
    ∧ (∀ other d1, other.Inv → d.operatorAssign other = .ok d1 →
        d1.segmentCapacity = other.segmentCapacity) := by
  obtain ⟨hinv, hfr, _⟩ := ReachableBy_inv true d h
  refine ⟨fun x d1 hr => (AppendInPlace_keeps d d1 hinv x hr).1,
    fun x d1 hr => (PrependInPlace_keeps d d1 hinv x hr).1,
    fun x i d1 hr => (InsertAtInPlace_keeps d d1 hinv x i hr).2.2.1,
    fun v d1 hr => (PopFront_keeps d d1 hinv v hr).1,
    fun v d1 hr => (PopBack_keeps d d1 hinv v hr).1,
    fun i v d1 hr => (RemoveAt_keeps d d1 hinv i v hr).2.2.1,
    rfl,
    fun d1 hr => (Optimize_keeps d d1 hinv hr).1,
    fun n d1 hr => ?_,
    fun comp d1 hr => (SortInPlace_keeps d d1 hinv comp hr).1,
    fun other d1 ho hr => ?_⟩
  · obtain ⟨d2, hrun, hc, _⟩ := Reserve_spec d hinv hfr n
    rw [hrun] at hr
    cases hr
    exact hc
  · obtain ⟨d2, hrun, hc, _⟩ := operatorAssign_spec d other ho
    rw [hrun] at hr
    cases hr
    exact hc

/-- Witness of C27 (amended): the deque 1, 2, 3, 4, 5 of capacity 3. -/
theorem C27_capacity_amended_witness :
    Reachable stateFive
    ∧ (∀ x d1, stateFive.AppendInPlace x = .ok d1 →
        d1.segmentCapacity = stateFive.segmentCapacity)
    ∧ (∀ other d1, other.Inv → stateFive.operatorAssign other = .ok d1 →
        d1.segmentCapacity = other.segmentCapacity) :=
  ⟨Reachable_stateFive, (C27_capacity_amended stateFive Reachable_stateFive).1,
    (C27_capacity_amended stateFive Reachable_stateFive).2.2.2.2.2.2.2.2.2.2⟩


theorem appendAll_eq (xs : List T) : ∀ d : SegmentedDeque T,
    appendAll d xs = xs.foldlM (fun s v => s.AppendInPlace v) d := by
  induction xs with
  | nil => intro d; rfl
  | cons x xs ih =>
    intro d
    unfold appendAll
    rw [List.foldlM_cons]
    congr 1
    funext d1
    exact ih d1

theorem FullFront_cons_cons {cap : Int} {s t : Segment T} {l : List (Segment T)} :
    FullFront cap (s :: t :: l) ↔ s.data.GetSize = cap ∧ FullFront cap (t :: l) := by
  unfold FullFront
  simp

/-- The total size of a chain of full segments. -/
theorem sizeSum_full (cap : Int) (l : List (Segment T)) (h : ∀ s ∈ l, s.data.GetSize = cap) :
    (sizeSum l : Int) = l.length * cap := by
  induction l with
  | nil => simp [sizeSum_nil]
  | cons s l ih =>
    rw [sizeSum_cons, List.length_cons]
    have h1 := h s (by simp)
    have h2 := ih (fun t ht => h t (by simp [ht]))
    unfold GetSize at h1
    push_cast
    rw [h2, h1]
    ring

/-- In a chain whose segments before the last are full, segment `k` holds the elements
`k * cap, ..., k * cap + cap - 1` of the element sequence (as far as they exist). -/
theorem layout_chunks (n : Nat) : ∀ (segs : List (Segment T)), SegsOK (n : Int) segs →
    FullFront (n : Int) segs → ∀ k : Nat, k < segs.length →
    (segs.map (fun s => s.data.elems))[k]? = some (((flat segs).drop (k * n)).take n) := by
  intro segs
  induction segs with
  | nil =>
    intro _ _ k hk
    simp at hk
  | cons s rest ih =>
    intro hok hff k hk
    rw [SegsOK_cons] at hok
    obtain ⟨⟨hsw, hsc⟩, hrok⟩ := hok
    have hlen := elems_length hsw
    cases rest with
    | nil =>
      have hk0 : k = 0 := by simp at hk; omega
      subst hk0
      rw [flat_cons, flat_nil, List.append_nil, Nat.zero_mul, List.drop_zero,
        List.take_of_length_le (by omega)]
      rfl
    | cons t l =>
      rw [FullFront_cons_cons] at hff
      obtain ⟨hs, hrest⟩ := hff
      have hsn : s.data.elems.length = n := by
        unfold GetSize at hs
        omega
      cases k with
      | zero =>
        rw [flat_cons, Nat.zero_mul, List.drop_zero, List.take_left' hsn]
        rfl
      | succ k =>
        have h1 := ih hrok hrest k (by simp at hk ⊢; omega)
        have h2 : (k + 1) * n = s.data.elems.length + k * n := by rw [hsn]; ring
        rw [List.map_cons, List.getElem?_cons_succ, h1, flat_cons s (t :: l), h2,
          List.drop_append]

/-- C28: for every capacity `c >= 1` and every list `xs`, `AppendInPlace` of the elements of
`xs` in order on the freshly constructed deque of capacity `c` succeeds; the result holds `xs`
in order in `ceil(|xs| / c)` segments, every segment other than the last holds exactly `c`
elements (none is empty, segment `k` holds the elements from position `k * c` on), and a
further `AppendInPlace(x)` that lengthens the chain adds one segment at the end that holds
exactly `x`. -/
theorem C28_append_layout (c : Int) (xs : List T) (hc : 1 ≤ c) :
    ∃ d0 d : SegmentedDeque T, SegmentedDeque.ctor c = .ok d0 ∧ appendAll d0 xs = .ok d
      ∧ d.toList = xs
      ∧ (d.segs.length : Int) = ((xs.length : Int) + c - 1) / c
      ∧ (∀ s ∈ d.segs.dropLast, s.data.GetSize = c)
      ∧ (∀ s ∈ d.segs, 1 ≤ s.data.GetSize ∧ s.data.GetSize ≤ c)
      ∧ (∀ k : Nat, k < d.segs.length →
          d.layout[k]? = some ((xs.drop (k * c.toNat)).take c.toNat))
      ∧ (∀ x, ∃ d1, d.AppendInPlace x = .ok d1
          ∧ (d1.segs.length = d.segs.length + 1 →
              ∃ s, d1.segs = d.segs ++ [s] ∧ s.data.elems = [x])) := by
  have hinv0 : ({ segs := [], segmentCapacity := c, totalSize := 0 } :
      SegmentedDeque T).Inv := ⟨hc, rfl, SegsOK_nil _⟩
  obtain ⟨d, hrun, hdc, hdt, hdl, hk, hf⟩ := appendFold_spec id xs _ hinv0
  have hdc1 : d.segmentCapacity = c := hdc
  have hff : FullFront c d.segs := by
    have := hf (FullFront_nil _)
    rw [hdc1] at this
    exact this
  have hall : AllNonEmpty d.segs := hk.2.2 AllNonEmpty_nil
  have hinv : d.Inv := hk.1
  have hl : d.toList = xs := by
    rw [hdl, List.map_id]
    show flat [] ++ xs = xs
    rw [flat_nil, List.nil_append]
  have hlen := length_toList d hinv
  rw [hl] at hlen
  have hok : SegsOK c d.segs := by
    have := hinv.2.2
    rw [hdc1] at this
    exact this
  refine ⟨{ segs := [], segmentCapacity := c, totalSize := 0 }, d, ?_, ?_, hl, ?_, hff, ?_, ?_,
    ?_⟩
  · unfold SegmentedDeque.ctor
    rw [if_neg (by omega)]
    rfl
  · rw [appendAll_eq]
    exact hrun
  · rcases List.eq_nil_or_concat d.segs with hnil | ⟨front, last, hseg⟩
    · have hz : d.totalSize = 0 := by rw [hinv.2.1, hnil, sizeSum_nil]; rfl
      rw [hnil, hlen, hz]
      simp only [List.length_nil, Nat.cast_zero, zero_add]
      exact (Int.ediv_eq_zero_of_lt (by omega) (by omega)).symm
    · rw [List.concat_eq_append] at hseg
      have hfront : ∀ s ∈ front, s.data.GetSize = c := by
        intro s hs
        apply hff s
        rw [hseg, dropLast_snoc]
        exact hs
      have hsum := sizeSum_full c front hfront
      have h1 := hall last (by rw [hseg]; simp)
      have h2 := (hok last (by rw [hseg]; simp)).2
      have ht : d.totalSize = front.length * c + last.data.size := by
        rw [hinv.2.1, hseg, sizeSum_append, sizeSum_cons, sizeSum_nil]
        push_cast
        rw [hsum]
        ring
      have he : (xs.length : Int) + c - 1
          = ((last.data.size : Int) - 1) + ((front.length : Int) + 1) * c := by
        rw [hlen, ht]
        ring
      rw [he, Int.add_mul_ediv_right _ _ (by omega), Int.ediv_eq_zero_of_lt (by omega) (by omega),
        hseg, List.length_append, List.length_singleton]
      push_cast
      ring
  · intro s hs
    have h1 := hall s hs
    have h2 := (hok s hs).2
    unfold GetSize
    omega
  · intro k hk1
    obtain ⟨n, hn⟩ : ∃ n : Nat, c = (n : Int) := ⟨c.toNat, by omega⟩
    subst hn
    have := layout_chunks n d.segs hok hff k hk1
    rw [← toList_eq, hl] at this
    rw [Int.toNat_ofNat]
    exact this
  · intro x
    obtain ⟨d1, hrun1, _, _, hcases⟩ := AppendInPlace_spec d hinv x
    refine ⟨d1, hrun1, ?_⟩
    intro hgrow
    rcases hcases with ⟨h0, s, hs, _, hse⟩ |
      ⟨_, front, tail, hseg, ⟨_, s, hs, _, _⟩ | ⟨_, s, hs, _, hse⟩⟩
    · have hnil : d.segs = [] := by
        cases hsegs : d.segs with
        | nil => rfl
        | cons t l =>
          have h1 := hall t (by rw [hsegs]; simp)
          have h2 := hinv.2.1
          rw [hsegs, sizeSum_cons] at h2
          omega
      exact ⟨s, by rw [hs, hnil]; rfl, hse⟩
    · rw [hs, hseg] at hgrow
      simp at hgrow
    · exact ⟨s, hs, hse⟩

/-- Witness of C28: capacity 3 and the values 1, 2, 3, 4, 5 (the first test of `main`): the
segments are `[1,2,3]`, `[4,5]`, `Get(3)` is 4, `GetFirst` is 1 and `GetLast` is 5. -/
theorem C28_append_layout_witness :
    (1 : Int) ≤ 3
    ∧ appendAll stateNew3 [1, 2, 3, 4, 5] = .ok stateFive
    ∧ stateFive.layout = [[1, 2, 3], [4, 5]]
    ∧ stateFive.Get 3 = .ok 4 ∧ stateFive.GetFirst = .ok 1 ∧ stateFive.GetLast = .ok 5
    ∧ ∃ d0 d : SegmentedDeque Int, SegmentedDeque.ctor 3 = .ok d0
      ∧ appendAll d0 [1, 2, 3, 4, 5] = .ok d
      ∧ d.toList = [1, 2, 3, 4, 5]
      ∧ (d.segs.length : Int) = ((([1, 2, 3, 4, 5] : List Int).length : Int) + 3 - 1) / 3
      ∧ (∀ s ∈ d.segs.dropLast, s.data.GetSize = 3)
      ∧ (∀ s ∈ d.segs, 1 ≤ s.data.GetSize ∧ s.data.GetSize ≤ 3)
      ∧ (∀ k : Nat, k < d.segs.length →
          d.layout[k]? = some ((([1, 2, 3, 4, 5] : List Int).drop (k * (3 : Int).toNat)).take
            (3 : Int).toNat))
      ∧ (∀ x, ∃ d1, d.AppendInPlace x = .ok d1
          ∧ (d1.segs.length = d.segs.length + 1 →
              ∃ s, d1.segs = d.segs ++ [s] ∧ s.data.elems = [x])) :=
  ⟨by decide, rfl, rfl, rfl, rfl, rfl, C28_append_layout 3 [1, 2, 3, 4, 5] (by decide)⟩

/-- C29: on a deque that satisfies the structural invariant, `Map(mapper)` returns a deque of
the same length and `segmentCapacity` whose `i`-th element is `mapper(Get(i))`, and
`Where(predicate)` returns a deque of the same `segmentCapacity` whose element sequence is the
filter of the receiver's by `predicate`.  Both methods are `const`: the receiver is the same
value after the call. -/
theorem C29_map_where (d : SegmentedDeque T) (mapper : T → T) (predicate : T → Bool)
    (hinv : d.Inv) :
    (∃ r, d.Map mapper = .ok r ∧ r.GetLength = d.GetLength
        ∧ r.segmentCapacity = d.segmentCapacity
        ∧ r.toList = d.toList.map mapper
        ∧ ∀ i, 0 ≤ i → i < d.GetLength → ∃ v, d.Get i = .ok v ∧ r.Get i = .ok (mapper v))
    ∧ (∃ r, d.Where predicate = .ok r
        ∧ r.segmentCapacity = d.segmentCapacity
        ∧ r.toList = d.toList.filter predicate
        ∧ r.GetLength = ((d.toList.filter predicate).length : Int)) := by
  have hinv0 : ({ segs := [], segmentCapacity := d.segmentCapacity, totalSize := 0 } :
      SegmentedDeque T).Inv := ⟨hinv.1, rfl, SegsOK_nil _⟩
  have hwf : ∀ s ∈ d.segs, s.data.WF := fun s hs => (hinv.2.2 s hs).1
  have hlen := length_toList d hinv
  constructor
  · obtain ⟨r, hrun, hc, ht, hl, hk, _⟩ := appendFold_spec mapper (flat d.segs) _ hinv0
    have hl1 : r.toList = d.toList.map mapper := by
      rw [hl]
      show flat [] ++ _ = _
      rw [flat_nil, List.nil_append]
      rfl
    have ht1 : r.totalSize = d.totalSize := by
      rw [ht, ← toList_eq, ← hlen]
      show (0 : Int) + _ = _
      omega
    refine ⟨r, ?_, ht1, hc, hl1, ?_⟩
    · unfold Map SegmentedDeque.ctor
      rw [if_neg (by have := hinv.1; omega)]
      show mapLoop mapper d.segs _ = _
      rw [mapLoop_eq mapper d.segs hwf]
      exact hrun
    · intro i h0 h1
      have h1a : i < d.totalSize := h1
      obtain ⟨v, hgv, hlv⟩ := toList_of_Get d hinv i h0 h1a
      refine ⟨v, hgv, ?_⟩
      apply Get_of_toList r hk.1 i h0 (by omega)
      rw [hl1, List.getElem?_map, hlv]
      rfl
  · obtain ⟨r, hrun, hc, ht, hl, hk⟩ := whereFold_spec predicate (flat d.segs) _ hinv0
    refine ⟨r, ?_, hc, ?_, ?_⟩
    · unfold Where SegmentedDeque.ctor
      rw [if_neg (by have := hinv.1; omega)]
      show whereLoop predicate d.segs _ = _
      rw [whereLoop_eq predicate d.segs hwf]
      exact hrun
    · rw [hl]
      show flat [] ++ _ = _
      rw [flat_nil, List.nil_append]
      rfl
    · show r.totalSize = _
      rw [ht, toList_eq]
      show (0 : Int) + _ = _
      omega

/-- Witness of C29: the deque 1, 2, 3, 4, 5 of capacity 3 with the mapper `x * x` and the
predicate `x % 2 == 0` of `main`. -/
theorem C29_map_where_witness :
    stateFive.Inv
    ∧ (∃ r, stateFive.Map (fun x => x * x) = .ok r ∧ r.GetLength = stateFive.GetLength
        ∧ r.segmentCapacity = stateFive.segmentCapacity
        ∧ r.toList = stateFive.toList.map (fun x => x * x)
        ∧ ∀ i, 0 ≤ i → i < stateFive.GetLength →
            ∃ v, stateFive.Get i = .ok v ∧ r.Get i = .ok (v * v))
    ∧ (∃ r, stateFive.Where (fun x => x % 2 == 0) = .ok r
        ∧ r.segmentCapacity = stateFive.segmentCapacity
        ∧ r.toList = stateFive.toList.filter (fun x => x % 2 == 0)
        ∧ r.GetLength = ((stateFive.toList.filter (fun x => x % 2 == 0)).length : Int)) :=
  ⟨by decide, C29_map_where stateFive (fun x => x * x) (fun x => x % 2 == 0) (by decide)⟩

/-- C30: on a deque that satisfies the structural invariant, `Reduce(reducer, initial)` returns
the left fold of `reducer` over the element sequence starting from `initial`; it returns
`initial` when `totalSize = 0`, and the same value for every other deque with the same element
sequence, however its segments are cut. -/
theorem C30_reduce_foldl (d : SegmentedDeque T) (reducer : T → T → T) (initial : T)
    (hinv : d.Inv) :
    d.Reduce reducer initial = .ok (d.toList.foldl reducer initial)
      ∧ (d.totalSize = 0 → d.Reduce reducer initial = .ok initial)
      ∧ (∀ d2 : SegmentedDeque T, d2.Inv → d2.toList = d.toList →
          d2.Reduce reducer initial = d.Reduce reducer initial) := by
  have hred : ∀ e : SegmentedDeque T, e.Inv →
      e.Reduce reducer initial = .ok (e.toList.foldl reducer initial) := by
    intro e he
    unfold Reduce
    rw [reduceLoop_eq reducer e.segs (fun s hs => (he.2.2 s hs).1), toList_eq]
  refine ⟨hred d hinv, ?_, ?_⟩
  · intro h0
    have hlen := length_toList d hinv
    have hnil : d.toList = [] := List.length_eq_zero.mp (by omega)
    rw [hred d hinv, hnil]
    rfl
  · intro d2 h2 hl
    rw [hred d hinv, hred d2 h2, hl]

/-- Witness of C30: the sum of the deque 1, 2, 3, 4, 5 of capacity 3, which is 15, as for the
deque with the segments `[1,2,3]`, `[4,5]` replaced by any other cut. -/
theorem C30_reduce_foldl_witness :
    stateFive.Inv
    ∧ stateFive.Reduce (fun a b => a + b) 0 = .ok 15
    ∧ stateFive.Reduce (fun a b => a + b) 0
        = .ok (stateFive.toList.foldl (fun a b => a + b) 0)
    ∧ (stateFive.totalSize = 0 → stateFive.Reduce (fun a b => a + b) 0 = .ok 0)
    ∧ (∀ d2 : SegmentedDeque Int, d2.Inv → d2.toList = stateFive.toList →
        d2.Reduce (fun a b => a + b) 0 = stateFive.Reduce (fun a b => a + b) 0) :=
  ⟨by decide, rfl, C30_reduce_foldl stateFive (fun a b => a + b) 0 (by decide)⟩

end SegmentedDeque
end Lab

namespace Lab
namespace DynamicArray
variable {T : Type} [Inhabited T]

/-- What `Resize` to a size not below the current one does: the size is the new one and the
old elements stay; the new slots hold `default` when the buffer had to be reallocated
(`new_size > capacity`), and otherwise the buffer is not touched, so they show whatever it
held. -/
theorem Resize_grow_spec (a : DynamicArray T) (h : a.WF) (m : Nat) (hm : a.size ≤ m) :
    ∃ b, a.Resize (m : Int) = .ok b ∧ b.WF ∧ b.size = m ∧ b.elems.take a.size = a.elems
      ∧ ((a.capacity : Int) < m → ∀ i, a.size ≤ i → i < m → b.elems[i]? = some default)
      ∧ ((m : Int) ≤ a.capacity → b.data = a.data) := by
  have h1 : ¬ ((m : Int) < 0) := by omega
  by_cases hc : (m : Int) > a.capacity
  · have hs := reallocate_size a (max (m : Int) ((a.capacity : Int) * 2))
    have hcap := reallocate_capacity a (max (m : Int) ((a.capacity : Int) * 2))
    have he := reallocate_elems a (max (m : Int) ((a.capacity : Int) * 2)) h
    have heq := reallocate_eq a (max (m : Int) ((a.capacity : Int) * 2))
    obtain ⟨r, hr⟩ : ∃ r, r = a.reallocate (max (m : Int) ((a.capacity : Int) * 2)) := ⟨_, rfl⟩
    rw [← hr] at hs hcap he heq
    have hlen : m ≤ r.data.length := by omega
    refine ⟨{ r with size := m }, ?_, ?_, rfl, ?_, ?_, fun h2 => by omega⟩
    · unfold Resize
      simp only [h1, hc, if_false, if_true, Int.toNat_ofNat]
      rw [← hr]
      rfl
    · unfold WF
      exact hlen
    · unfold elems at he ⊢
      show (r.data.take m).take a.size = _
      rw [List.take_take, Nat.min_eq_left hm]
      rw [hs] at he
      exact he
    · intro _ i hi1 hi2
      unfold capacity at hc
      have hne : ¬ (max (max (m : Int) ((a.data.length : Int) * 2)) (a.size : Int)
          = (a.data.length : Int)) := by omega
      unfold capacity at heq
      rw [if_neg hne] at heq
      unfold elems
      show (r.data.take m)[i]? = _
      rw [List.getElem?_take_of_lt hi2, heq]
      simp only [List.getElem?_map]
      have hir : i < (max (max (m : Int) ((a.data.length : Int) * 2)) (a.size : Int)).toNat := by
        omega
      rw [List.getElem?_range hir]
      simp only [Option.map_some']
      rw [if_neg (by omega)]
  · refine ⟨{ a with size := m }, ?_, ?_, rfl, ?_, fun h2 => by omega, fun _ => rfl⟩
    · unfold Resize
      simp only [h1, hc, if_false, Int.toNat_ofNat]
      rfl
    · unfold WF capacity at *
      show m ≤ a.data.length
      omega
    · unfold elems
      show (a.data.take m).take a.size = _
      rw [List.take_take, Nat.min_eq_left hm]

end DynamicArray

namespace SegmentedDeque
open DynamicArray
variable {T : Type} [Inhabited T]

/-- C31, failing input: `DynamicArray<int> a; a.Append(1); a.Append(2); a.Append(3);
a.Resize(1); a.Resize(3);`.  The second `Resize` grows the array from size 1 to size 3 inside
its capacity 4: `Resize` only sets `size`, so the slots 1 and 2 show the values 2 and 3 that
the shrink left in the buffer, not the default value 0. -/
theorem C31_resize_shows_stale_slots :
    ∃ a1 a2 : DynamicArray Int,
      ((((DynamicArray.ctor : DynamicArray Int).Append 1).Append 2).Append 3).Resize 1 = .ok a1
      ∧ a1.GetSize = 1 ∧ a1.GetCapacity = 4
      ∧ a1.Resize 3 = .ok a2 ∧ a2.GetSize = 3
      ∧ a2.Get 0 = .ok 1 ∧ a2.Get 1 = .ok 2 ∧ a2.Get 2 = .ok 3
      ∧ (default : Int) = 0 :=
  ⟨{ data := [1, 2, 3, 0], size := 1 }, { data := [1, 2, 3, 0], size := 3 },
    rfl, rfl, rfl, rfl, rfl, rfl, rfl, rfl, rfl⟩

/-- C36: on a deque that satisfies the structural invariant, `Optimize` returns (the merge
sweep is a total function: every step either unlinks a segment or moves on), and afterwards
`totalSize`, `segmentCapacity`, every `Get(i)` and the concatenation of the segment buffers are
what they were, and the chain has no more segments than before. -/
theorem C36_optimize_keeps_content (d : SegmentedDeque T) (hinv : d.Inv) :
    ∃ d1, d.Optimize = .ok d1 ∧ d1.GetLength = d.GetLength
      ∧ d1.segmentCapacity = d.segmentCapacity
      ∧ (∀ i, d1.Get i = d.Get i)
      ∧ d1.toList = d.toList
      ∧ d1.segs.length ≤ d.segs.length := by
  obtain ⟨d1, hrun, hc, ht, hl, hle, hk⟩ := Optimize_spec d hinv
  exact ⟨d1, hrun, ht, hc, Get_eq_of_toList d d1 hinv hk.1 hl, hl, hle⟩

/-- Witness of C36: the deque of `main` before `Optimize`, capacity 3 with the segments
`[1,2]`, `[4,5]`, `[7,8]`, `[10]`. -/
theorem C36_optimize_keeps_content_witness :
    stateGaps.Inv
    ∧ ∃ d1, stateGaps.Optimize = .ok d1 ∧ d1.GetLength = stateGaps.GetLength
      ∧ d1.segmentCapacity = stateGaps.segmentCapacity
      ∧ (∀ i, d1.Get i = stateGaps.Get i)
      ∧ d1.toList = stateGaps.toList
      ∧ d1.segs.length ≤ stateGaps.segs.length :=
  ⟨by decide, C36_optimize_keeps_content stateGaps (by decide)⟩

/-- Where a successful `RemoveAt` takes the chain: the owner of the removed element is
unlinked when it held one element and shrinks in place otherwise, and the segments before and
after it are not touched; only a removal that empties the deque drops every segment. -/
theorem RemoveAt_frame (d : SegmentedDeque T) (hinv : d.Inv) (index : Int) (v : T)
    (d1 : SegmentedDeque T) (hrun : d.RemoveAt index = .ok (v, d1)) :
    ∃ pre seg post, ∃ o : Nat, d.segs = pre ++ seg :: post
      ∧ (sizeSum pre : Int) + o = index ∧ seg.data.elems[o]? = some v ∧
      ((seg.data.size = 1 ∧ d1.segs = pre ++ post) ∨
       (seg.data.size = 1 ∧ d1.totalSize = 0 ∧ d1.segs = []) ∨
       (1 < seg.data.size ∧ ∃ s : Segment T, d1.segs = pre ++ s :: post
          ∧ s.data.elems = seg.data.elems.eraseIdx o)) := by
  obtain ⟨hcap, hsum, hok⟩ := hinv
  have hinv : d.Inv := ⟨hcap, hsum, hok⟩
  by_cases hr : index < 0 ∨ d.totalSize ≤ index
  · rw [RemoveAt_error d index hr] at hrun
    cases hrun
  have hc1 : ¬ (index < 0 ∨ index ≥ d.totalSize) := by omega
  have h0 : d.totalSize ≠ 0 := by omega
  by_cases hz : index = 0
  · subst hz
    have hpf : d.PopFront = .ok (v, d1) := by
      unfold RemoveAt at hrun
      rw [if_neg hc1, if_pos rfl] at hrun
      exact hrun
    obtain ⟨head, rest, hseg⟩ := List.exists_cons_of_ne_nil (segs_ne_nil_of_pos d hsum h0)
    by_cases hhz : head.data.size = 0
    · rw [PopFront_empty_head d h0 head rest hseg hhz] at hpf
      cases hpf
    obtain ⟨v2, l, d2, hvl, hrun2, _, ht2, hcases⟩ :=
      PopFront_spec d hinv head rest hseg (by omega)
    rw [hrun2] at hpf
    cases hpf
    have hhw := (hok head (by rw [hseg]; simp)).1
    have hlen := elems_length hhw
    rw [hvl] at hlen
    simp only [List.length_cons] at hlen
    refine ⟨[], head, rest, 0, by rw [hseg]; rfl, by simp [sizeSum_nil], by rw [hvl]; simp, ?_⟩
    have hsz : sizeSum d.segs = head.data.size + sizeSum rest := by rw [hseg, sizeSum_cons]
    rcases hcases with ⟨h1, hs⟩ | ⟨_, hl, _, hs⟩ | ⟨_, hl, s, hs, _, hse⟩
    · exact Or.inr (Or.inl ⟨by omega, by omega, hs⟩)
    · subst hl
      exact Or.inl ⟨by simp at hlen; omega, by rw [hs]; rfl⟩
    · refine Or.inr (Or.inr ⟨?_, s, by rw [hs]; rfl, by rw [hse, hvl]; rfl⟩)
      have : l.length ≠ 0 := fun hc => hl (List.eq_nil_of_length_eq_zero hc)
      omega
  by_cases hl : index = d.totalSize - 1
  · have hpb : d.PopBack = .ok (v, d1) := by
      unfold RemoveAt at hrun
      rw [if_neg hc1, if_neg hz, if_pos hl] at hrun
      exact hrun
    obtain ⟨front, tail, hseg⟩ := eq_snoc_of_ne_nil d.segs (segs_ne_nil_of_pos d hsum h0)
    by_cases htz : tail.data.size = 0
    · rw [PopBack_empty_tail d h0 front tail hseg htz] at hpb
      cases hpb
    obtain ⟨v2, l, d2, hvl, hrun2, _, ht2, hcases⟩ :=
      PopBack_spec d hinv front tail hseg (by omega)
    rw [hrun2] at hpb
    cases hpb
    have htw := (hok tail (by rw [hseg]; simp)).1
    have hlen := elems_length htw
    rw [hvl] at hlen
    simp only [List.length_append, List.length_singleton] at hlen
    have hsz : sizeSum d.segs = sizeSum front + tail.data.size := by
      rw [hseg, sizeSum_append, sizeSum_cons, sizeSum_nil]
      rfl
    refine ⟨front, tail, [], l.length, hseg, by omega, ?_, ?_⟩
    · rw [hvl, List.getElem?_append_right (Nat.le_refl _)]
      simp
    rcases hcases with ⟨h1, _⟩ | ⟨_, hl2, _, hs⟩ | ⟨_, hl2, s, hs, _, hse⟩
    · omega
    · subst hl2
      exact Or.inl ⟨by simp at hlen; omega, by rw [hs, List.append_nil]⟩
    · refine Or.inr (Or.inr ⟨?_, s, hs, ?_⟩)
      · have : l.length ≠ 0 := fun hc => hl2 (List.eq_nil_of_length_eq_zero hc)
        omega
      · rw [hse, hvl, List.eraseIdx_append_of_length_le (Nat.le_refl _)]
        simp
  · obtain ⟨n, rfl⟩ : ∃ n : Nat, index = (n : Int) := ⟨index.toNat, by omega⟩
    obtain ⟨v2, d2, pre, seg, post, o, hrun2, _, _, hseg, ho, hs, hv, hcases⟩ :=
      RemoveAt_mid_spec d hinv n (by omega) (by omega)
    rw [hrun2] at hrun
    cases hrun
    refine ⟨pre, seg, post, o, hseg, by omega, hv, ?_⟩
    rcases hcases with ⟨h1, hs1⟩ | ⟨h1, s, hs1, _, hse⟩
    · exact Or.inl ⟨h1, hs1⟩
    · exact Or.inr (Or.inr ⟨by omega, s, hs1, hse⟩)

/-- C34, counterexample: capacity 1, `AppendInPlace(1)`, `Reserve(2)` gives the reachable deque
with the segments `[1]`, `[]`.  `RemoveAt(0)` returns 1 and leaves no segment at all: the chain
loses two segments, and the empty segment, which did not own the removed element, is gone. -/
theorem C34_counterexample :
    Reachable stateOneReserved
      ∧ stateOneReserved.layout = [[1], []]
      ∧ stateOneReserved.RemoveAt 0 = .ok (1, stateNew1)
      ∧ stateNew1.segs = []
      ∧ ¬ (∀ d : SegmentedDeque Int, Reachable d → ∀ (index v : Int) (d1 : SegmentedDeque Int),
            d.RemoveAt index = .ok (v, d1) →
            d1.segs.length = d.segs.length ∨ d1.segs.length + 1 = d.segs.length) := by
  refine ⟨Reachable_stateOneReserved, rfl, rfl, rfl, ?_⟩
  intro h
  have := h stateOneReserved Reachable_stateOneReserved 0 1 stateNew1 rfl
  revert this
  decide

/-- C34, amended: on a deque reached without `Reserve` (no segment is empty), `RemoveAt`
returns at every index in `[0, totalSize)`; the segments before and after the owner of the
removed element are the same objects in the same order, the owner is unlinked when it held one
element and otherwise stays in place with the element erased, and the number of segments goes
down by one in the first case and stays the same in the second.  Nothing is merged. -/
theorem C34_removeAt_no_merge_amended (d : SegmentedDeque T) (h : ReachableBy false d)
    (index : Int) (h0 : 0 ≤ index) (h1 : index < d.totalSize) :
    ∃ v d1 pre seg post, ∃ o : Nat, d.RemoveAt index = .ok (v, d1)
      ∧ d.segs = pre ++ seg :: post
      ∧ (sizeSum pre : Int) + o = index ∧ seg.data.elems[o]? = some v ∧
      ((seg.data.size = 1 ∧ d1.segs = pre ++ post ∧ d1.segs.length + 1 = d.segs.length) ∨
       (1 < seg.data.size ∧ d1.segs.length = d.segs.length
          ∧ ∃ s : Segment T, d1.segs = pre ++ s :: post
            ∧ s.data.elems = seg.data.elems.eraseIdx o)) := by
  obtain ⟨hinv, _, hall⟩ := ReachableBy_inv false d h
  have hall := hall rfl
  obtain ⟨v, d1, hrun⟩ := RemoveAt_ok d hinv hall index h0 h1
  obtain ⟨pre, seg, post, o, hseg, hs, hv, hcases⟩ := RemoveAt_frame d hinv index v d1 hrun
  refine ⟨v, d1, pre, seg, post, o, hrun, hseg, hs, hv, ?_⟩
  rcases hcases with ⟨hz, hs1⟩ | ⟨hz, ht, hs1⟩ | ⟨hz, s, hs1, hse⟩
  · exact Or.inl ⟨hz, hs1, by rw [hs1, hseg]; simp; omega⟩
  · have hk := (RemoveAt_keeps d d1 hinv index v hrun).2.2.2.1
    have hsum := hinv.2.1
    rw [hseg, sizeSum_append, sizeSum_cons] at hsum
    have hpre : pre = [] := by
      cases pre with
      | nil => rfl
      | cons t l =>
        have := hall t (by rw [hseg]; simp)
        rw [sizeSum_cons] at hsum
        omega
    have hpost : post = [] := by
      cases post with
      | nil => rfl
      | cons t l =>
        have := hall t (by rw [hseg]; simp)
        rw [sizeSum_cons] at hsum
        omega
    subst hpre
    subst hpost
    exact Or.inl ⟨hz, by rw [hs1]; rfl, by rw [hs1, hseg]; rfl⟩
  · exact Or.inr ⟨hz, by rw [hs1, hseg]; simp, s, hs1, hse⟩

/-- Witness of C34 (amended): `RemoveAt(1)` on the deque with the segments `[2,3]`, `[4,5]` of
capacity 3 (1, 2, 3, 4, 5 appended, then `PopFront`): afterwards `[2]` and `[4,5]` would fit in
one segment and stay apart. -/
theorem C34_removeAt_no_merge_amended_witness :
    ReachableBy false stateSparse ∧ (0 : Int) ≤ 1 ∧ (1 : Int) < stateSparse.totalSize
    ∧ (stateSparse.RemoveAt 1).map (fun r => r.2.layout) = .ok [[2], [4, 5]]
    ∧ ∃ v d1 pre seg post, ∃ o : Nat, stateSparse.RemoveAt 1 = .ok (v, d1)
      ∧ stateSparse.segs = pre ++ seg :: post
      ∧ (sizeSum pre : Int) + o = 1 ∧ seg.data.elems[o]? = some v ∧
      ((seg.data.size = 1 ∧ d1.segs = pre ++ post
          ∧ d1.segs.length + 1 = stateSparse.segs.length) ∨
       (1 < seg.data.size ∧ d1.segs.length = stateSparse.segs.length
          ∧ ∃ s : Segment Int, d1.segs = pre ++ s :: post
            ∧ s.data.elems = seg.data.elems.eraseIdx o)) :=
  ⟨ReachableBy.popFront stateFive stateSparse 1
      (ReachableBy_appendAll false [1, 2, 3, 4, 5] stateNew3 stateFive
        (ReachableBy.ctor 3 stateNew3 rfl) rfl) rfl,
    by decide, by decide, rfl,
    C34_removeAt_no_merge_amended stateSparse
      (ReachableBy.popFront stateFive stateSparse 1
        (ReachableBy_appendAll false [1, 2, 3, 4, 5] stateNew3 stateFive
          (ReachableBy.ctor 3 stateNew3 rfl) rfl) rfl)
      1 (by decide) (by decide)⟩


theorem split_at_length {α : Type} (s1 s2 p : List α) (k : Nat) (h : s1 ++ s2 = p)
    (hl : s1.length = k) : s1 = p.take k ∧ s2 = p.drop k := by
  subst h
  exact ⟨(List.take_left' hl).symm, (List.drop_left' hl).symm⟩

/-- C32, counterexample: `InsertAtInPlace(10, 2)` on the deque `[1,2,3],[4,5]` of capacity 3
splits the full head at offset 2 with `mid = 1`.  The order after the insertion is
1, 2, 10, 3; the elements at the local indices 0 and 1 (`<= mid`) are 1 and 2, but the original
segment keeps only 1 and the new segment holds 2, 10, 3. -/
theorem C32_counterexample :
    stateFive.Inv ∧ stateFive.findSegmentAndIndex 2 = .ok (0, 2)
      ∧ (stateFive.InsertAtInPlace 10 2).map layout = .ok [[1], [2, 10, 3], [4, 5]]
      ∧ (3 : Int).tdiv 2 = 1
      ∧ ¬ (∀ (d : SegmentedDeque Int) (item : Int) (n : Nat) (pre : List (Segment Int))
            (seg : Segment Int) (post : List (Segment Int)) (o : Nat),
            d.Inv → 0 < n → (n : Int) < d.totalSize → d.segs = pre ++ seg :: post →
            d.findSegmentAndIndex (n : Int) = .ok (pre.length, (o : Int)) →
            seg.data.GetSize = d.segmentCapacity →
            ∃ d1 s1 s2, d.InsertAtInPlace item (n : Int) = .ok d1
              ∧ d1.segs = pre ++ s1 :: s2 :: post
              ∧ s1.data.elems = (seg.data.elems.take o ++ item :: seg.data.elems.drop o).take
                  ((d.segmentCapacity.tdiv 2).toNat + 1)) := by
  refine ⟨by decide, rfl, rfl, by decide, ?_⟩
  intro h
  obtain ⟨d1, s1, s2, hrun, hsegs, he⟩ := h stateFive 10 2 []
    (⟨⟨[1, 2, 3], 3⟩⟩ : Segment Int) [(⟨⟨[4, 5, 0], 2⟩⟩ : Segment Int)] 2
    (by decide) (by decide) (by decide) rfl rfl rfl
  have hev : stateFive.InsertAtInPlace 10 ((2 : Nat) : Int)
      = .ok { segs := [⟨⟨[1, 2, 3], 1⟩⟩, ⟨⟨[2, 10, 3], 3⟩⟩, ⟨⟨[4, 5, 0], 2⟩⟩],
              segmentCapacity := 3, totalSize := 6 } := rfl
  rw [hev] at hrun
  have hd := Except_ok_inj hrun
  subst hd
  simp only [List.nil_append, List.cons.injEq] at hsegs
  obtain ⟨h1, _⟩ := hsegs
  subst h1
  revert he
  decide

/-- C32, amended: when `InsertAtInPlace` finds the index in a full segment at the local offset
`o`, with `mid = segmentCapacity / 2` and the order after the insertion written as one list
`p` (the old elements with the item at position `o`): for `o <= mid` the original segment
keeps `p[0..mid]` (`mid + 1` elements, the item among them) and the new segment receives the
rest; for `o > mid` the original segment keeps only `p[0..mid-1]` (`mid` elements) and the new
segment receives `p[mid..]`, the item among them. -/
theorem C32_split_partition_amended (d : SegmentedDeque T) (item : T) (n : Nat)
    (pre : List (Segment T)) (seg : Segment T) (post : List (Segment T)) (o : Nat)
    (hinv : d.Inv) (h0 : 0 < n) (hn : (n : Int) < d.totalSize)
    (hseg : d.segs = pre ++ seg :: post)
    (hfind : d.findSegmentAndIndex (n : Int) = .ok (pre.length, (o : Int)))
    (hfull : seg.data.GetSize = d.segmentCapacity) :
    ∃ d1 s1 s2, d.InsertAtInPlace item (n : Int) = .ok d1
      ∧ d1.segs = pre ++ s1 :: s2 :: post
      ∧ (o ≤ (d.segmentCapacity.tdiv 2).toNat →
          s1.data.elems = (seg.data.elems.take o ++ item :: seg.data.elems.drop o).take
              ((d.segmentCapacity.tdiv 2).toNat + 1)
          ∧ s2.data.elems = (seg.data.elems.take o ++ item :: seg.data.elems.drop o).drop
              ((d.segmentCapacity.tdiv 2).toNat + 1))
      ∧ ((d.segmentCapacity.tdiv 2).toNat < o →
          s1.data.elems = (seg.data.elems.take o ++ item :: seg.data.elems.drop o).take
              (d.segmentCapacity.tdiv 2).toNat
          ∧ s2.data.elems = (seg.data.elems.take o ++ item :: seg.data.elems.drop o).drop
              (d.segmentCapacity.tdiv 2).toNat) := by
  obtain ⟨d1, pre2, seg2, post2, o2, hrun, _, _, hseg2, hfind2, ho2, _, hcases⟩ :=
    InsertAtInPlace_mid_spec d hinv item n h0 hn
  rw [hfind] at hfind2
  have hpair := Except_ok_inj hfind2
  have hlen : pre.length = pre2.length := by injection hpair
  have hoo : o = o2 := by
    injection hpair with _ h2
    omega
  subst hoo
  rw [hseg] at hseg2
  obtain ⟨hp, hrest⟩ := List.append_inj hseg2 hlen
  subst hp
  injection hrest with hs hpost
  subst hs
  subst hpost
  unfold GetSize at hfull
  rcases hcases with ⟨hlt, _⟩ | ⟨heq, s1, s2, hsegs, hs1w, hs2w, hsplit⟩
  · omega
  have hsw := (hinv.2.2 seg (by rw [hseg]; simp)).1
  have hel := elems_length hsw
  have hmid : (d.segmentCapacity.tdiv 2).toNat = seg.data.size / 2 := by
    rw [← hfull, tdiv_two_cast, Int.toNat_ofNat]
  obtain ⟨hcat, _, _, _, _, _⟩ :=
    split_facts seg s1 s2 item o d.segmentCapacity hsw hs1w hs2w ho2 hinv.1 heq hsplit
  refine ⟨d1, s1, s2, hrun, hsegs, ?_, ?_⟩
  · intro hom
    rw [hmid] at hom ⊢
    rcases hsplit with ⟨_, h1e, _⟩ | ⟨hc, _, _⟩
    · apply split_at_length _ _ _ _ hcat
      rw [h1e]
      simp only [List.length_append, List.length_take, List.length_cons, List.length_drop, hel]
      omega
    · omega
  · intro hom
    rw [hmid] at hom ⊢
    rcases hsplit with ⟨hc, _, _⟩ | ⟨_, h1e, _⟩
    · omega
    · apply split_at_length _ _ _ _ hcat
      rw [h1e]
      simp only [List.length_take, hel]
      omega

/-- Witness of C32 (amended): `InsertAtInPlace(10, 2)` on the deque `[1,2,3],[4,5]` of
capacity 3: offset 2, `mid = 1`. -/
theorem C32_split_partition_amended_witness :
    stateFive.Inv ∧ 0 < 2 ∧ ((2 : Nat) : Int) < stateFive.totalSize
    ∧ stateFive.segs = [] ++ (⟨⟨[1, 2, 3], 3⟩⟩ : Segment Int) :: [⟨⟨[4, 5, 0], 2⟩⟩]
    ∧ stateFive.findSegmentAndIndex ((2 : Nat) : Int)
        = .ok (([] : List (Segment Int)).length, ((2 : Nat) : Int))
    ∧ (⟨⟨[1, 2, 3], 3⟩⟩ : Segment Int).data.GetSize = stateFive.segmentCapacity
    ∧ ∃ d1 s1 s2, stateFive.InsertAtInPlace 10 ((2 : Nat) : Int) = .ok d1
      ∧ d1.segs = [] ++ s1 :: s2 :: [(⟨⟨[4, 5, 0], 2⟩⟩ : Segment Int)]
      ∧ (2 ≤ (stateFive.segmentCapacity.tdiv 2).toNat →
          s1.data.elems = (([1, 2, 3] : List Int).take 2 ++ 10 :: ([1, 2, 3] : List Int).drop 2).take
              ((stateFive.segmentCapacity.tdiv 2).toNat + 1)
          ∧ s2.data.elems = (([1, 2, 3] : List Int).take 2 ++ 10 :: ([1, 2, 3] : List Int).drop 2).drop
              ((stateFive.segmentCapacity.tdiv 2).toNat + 1))
      ∧ ((stateFive.segmentCapacity.tdiv 2).toNat < 2 →
          s1.data.elems = (([1, 2, 3] : List Int).take 2 ++ 10 :: ([1, 2, 3] : List Int).drop 2).take
              (stateFive.segmentCapacity.tdiv 2).toNat
          ∧ s2.data.elems = (([1, 2, 3] : List Int).take 2 ++ 10 :: ([1, 2, 3] : List Int).drop 2).drop
              (stateFive.segmentCapacity.tdiv 2).toNat) :=
  ⟨by decide, by decide, by decide, rfl, rfl, rfl,
    C32_split_partition_amended stateFive 10 2 [] (⟨⟨[1, 2, 3], 3⟩⟩ : Segment Int)
      [(⟨⟨[4, 5, 0], 2⟩⟩ : Segment Int)] 2 (by decide) (by decide) (by decide) rfl rfl rfl⟩

end SegmentedDeque
end Lab

namespace Lab
namespace DynamicArray
variable {T : Type} [Inhabited T]

theorem bubble_length (comp : T → T → Bool) (n : Nat) : ∀ l : List T,
    (bubble comp n l).length = l.length := by
  induction n with
  | zero => intro l; rw [bubble_zero]
  | succ n ih =>
    intro l
    match l with
    | [] => simp [bubble]
    | [x] => simp [bubble]
    | x :: y :: rest =>
      rw [bubble_succ]
      split
      · simp only [List.length_cons, ih]
      · simp only [List.length_cons, ih]

/-- A bubble pass over the first `n + 1` elements does not touch what follows them. -/
theorem bubble_append (comp : T → T → Bool) (n : Nat) : ∀ (l q : List T), n + 1 ≤ l.length →
    bubble comp n (l ++ q) = bubble comp n l ++ q := by
  induction n with
  | zero => intro l q _; rw [bubble_zero, bubble_zero]
  | succ n ih =>
    intro l q hl
    match l, hl with
    | x :: y :: rest, hl =>
      rw [List.cons_append, List.cons_append, bubble_succ, bubble_succ]
      split
      · rw [← List.cons_append, ih (y :: rest) q (by simp at hl ⊢; omega)]
        rfl
      · rw [← List.cons_append, ih (x :: rest) q (by simp at hl ⊢; omega)]
        rfl

theorem bubbleSort_length (comp : T → T → Bool) (s : Nat) (k : Nat) : ∀ (i : Nat) (l : List T),
    (bubbleSort comp s k i l).length = l.length := by
  induction k with
  | zero => intro i l; rfl
  | succ k ih =>
    intro i l
    rw [bubbleSort, ih, bubble_length]

/-- The outer loop of `SortInPlace` on a buffer whose first `s` slots are `e`: the passes
`i, ..., s - 1` compute `bubbleSort` on `e` and leave the rest of the buffer alone. -/
theorem iterUp_bubbleSort (comp : T → T → Bool) (s : Nat) (q : List T) (k : Nat) :
    ∀ (i : Nat) (e : List T), e.length = s → i + k = s →
    iterUp k i (fun i1 dt => iterUp (s - i1 - 1) 0 (swapStep comp) dt) (e ++ q)
      = bubbleSort comp s k i e ++ q := by
  induction k with
  | zero => intro i e _ _; rfl
  | succ k ih =>
    intro i e he hik
    unfold iterUp
    rw [bubbleSort]
    have h1 := iterUp_bubble comp (s - i - 1) [] (e ++ q) (by simp; omega)
    simp only [List.length_nil, List.nil_append] at h1
    show iterUp k (i + 1) _ (iterUp (s - i - 1) 0 (swapStep comp) (e ++ q)) = _
    rw [h1, bubble_append comp (s - i - 1) e q (by omega)]
    exact ih (i + 1) _ (by rw [bubble_length]; exact he) (by omega)

/-- The elements after `SortInPlace` are a function of the elements before it. -/
theorem SortInPlace_elems_eq (a : DynamicArray T) (comp : T → T → Bool) (hw : a.WF) :
    (a.SortInPlace comp).elems = bubbleSort comp a.size a.size 0 a.elems := by
  have hlen := elems_length hw
  unfold WF at hw
  have hd : a.data = a.elems ++ a.data.drop a.size := by
    unfold elems
    rw [List.take_append_drop]
  have h := iterUp_bubbleSort comp a.size (a.data.drop a.size) a.size 0 a.elems hlen (by omega)
  rw [← hd] at h
  unfold SortInPlace
  show List.take a.size (iterUp a.size 0 _ a.data) = _
  rw [h, List.take_left' (by rw [bubbleSort_length, hlen])]

/-- A bubble pass keeps the subsequence of the elements that satisfy `p` when it never swaps
two of them. -/
theorem bubble_filter (comp : T → T → Bool) (p : T → Bool)
    (hp : ∀ a b, comp a b = false → ¬ (p a = true ∧ p b = true)) (n : Nat) :
    ∀ l : List T, (bubble comp n l).filter p = l.filter p := by
  induction n with
  | zero => intro l; rw [bubble_zero]
  | succ n ih =>
    intro l
    match l with
    | [] => simp [bubble]
    | [x] => simp [bubble]
    | x :: y :: rest =>
      rw [bubble_succ]
      by_cases hc : comp x y = true
      · rw [if_pos hc, List.filter_cons, ih (y :: rest), ← List.filter_cons]
      · rw [if_neg hc, List.filter_cons, ih (x :: rest)]
        have hn := hp x y (by simpa using hc)
        by_cases hx : p x = true
        · have hy : p y = false := by
            by_contra hy
            exact hn ⟨hx, by simpa using hy⟩
          simp [List.filter_cons, hx, hy]
        · have hx1 : p x = false := by simpa using hx
          simp [List.filter_cons, hx1]

theorem bubbleSort_filter (comp : T → T → Bool) (p : T → Bool)
    (hp : ∀ a b, comp a b = false → ¬ (p a = true ∧ p b = true)) (s : Nat) (k : Nat) :
    ∀ (i : Nat) (l : List T), (bubbleSort comp s k i l).filter p = l.filter p := by
  induction k with
  | zero => intro i l; rfl
  | succ k ih =>
    intro i l
    rw [bubbleSort, ih, bubble_filter comp p hp]

/-- For a transitive comparator under which tied elements are in order, two elements that the
sort would swap do not both tie with a third. -/
theorem ties_not_swapped (comp : T → T → Bool)
    (htie : ∀ a b, ties comp a b = true → comp a b = true)
    (htrans : ∀ a b c, comp a b = true → comp b c = true → comp a c = true) (x a b : T)
    (hab : comp a b = false) : ¬ (ties comp x a = true ∧ ties comp x b = true) := by
  rintro ⟨h1, h2⟩
  have hxa := htie x a h1
  have hxb := htie x b h2
  have hax : comp a x = true := by
    unfold ties at h1
    rw [hxa] at h1
    simpa using h1.symm
  have := htrans a x b hax hxb
  rw [hab] at this
  cases this

end DynamicArray

namespace SegmentedDeque
open DynamicArray
variable {T : Type} [Inhabited T]

/-- The element sequence after `SortInPlace` is `bubbleSort` of the sequence before. -/
theorem SortInPlace_toList_eq (d : SegmentedDeque T) (hinv : d.Inv) (comp : T → T → Bool) :
    ∃ d1, d.SortInPlace comp = .ok d1 ∧ d1.Inv ∧ d1.segmentCapacity = d.segmentCapacity
      ∧ d1.toList = bubbleSort comp d.toList.length d.toList.length 0 d.toList := by
  obtain ⟨d1, hrun, hc, _, _, _, hcases⟩ := SortInPlace_spec d hinv comp
  obtain ⟨_, _, hk⟩ := SortInPlace_keeps d d1 hinv comp hrun
  refine ⟨d1, hrun, hk.1, hc, ?_⟩
  have hlen := length_toList d hinv
  rcases hcases with ⟨h1, rfl⟩ | ⟨_, temp, htw, hte, hl⟩
  · match hdl : d1.toList, hlen with
    | [], _ => rfl
    | [x], _ => rfl
    | x :: y :: rest, hlen =>
      simp only [List.length_cons] at hlen
      push_cast at hlen
      omega
  · rw [hl, SortInPlace_elems_eq temp comp htw, ← elems_length htw, hte]

theorem pairLeq_ties (a b : Int × Int) (h : ties pairLeq a b = true) : pairLeq a b = true := by
  unfold ties pairLeq at *
  by_cases h1 : a.1 ≤ b.1
  · simpa using h1
  · have h2 : b.1 ≤ a.1 := by omega
    simp [h1, h2] at h

theorem pairLeq_trans (a b c : Int × Int) (h1 : pairLeq a b = true) (h2 : pairLeq b c = true) :
    pairLeq a c = true := by
  unfold pairLeq at *
  simp only [decide_eq_true_eq] at *
  omega

/-- With the strict comparator `a.key < b.key` the sort is not stable: the two pairs with key 1
change places. -/
theorem SortInPlace_strict_swaps_ties :
    (statePairs.SortInPlace (fun a b => decide (a.1 < b.1))).map toList
      = .ok [(1, 2), (1, 1), (2, 0)] := rfl

/-- C33: on a deque that satisfies the structural invariant and for a transitive comparator
that answers `true` on every pair of tied elements (as `<=` does), `SortInPlace` succeeds and
is stable: for every element `x`, the elements that tie with `x` appear in the result in the
order they had before. -/
theorem C33_sortInPlace_stable (d : SegmentedDeque T) (comp : T → T → Bool) (hinv : d.Inv)
    (htie : ∀ a b, ties comp a b = true → comp a b = true)
    (htrans : ∀ a b c, comp a b = true → comp b c = true → comp a c = true) :
    ∃ d1, d.SortInPlace comp = .ok d1
      ∧ ∀ x, d1.toList.filter (ties comp x) = d.toList.filter (ties comp x) := by
  obtain ⟨d1, hrun, _, _, hl⟩ := SortInPlace_toList_eq d hinv comp
  refine ⟨d1, hrun, fun x => ?_⟩
  rw [hl]
  exact bubbleSort_filter comp (ties comp x)
    (fun a b hab => ties_not_swapped comp htie htrans x a b hab) _ _ _ _

/-- Witness of C33: the pairs (2,0), (1,1), (1,2) sorted by `a.key <= b.key`; the result is
(1,1), (1,2), (2,0). -/
theorem C33_sortInPlace_stable_witness :
    statePairs.Inv
    ∧ (∀ a b, ties pairLeq a b = true → pairLeq a b = true)
    ∧ (∀ a b c, pairLeq a b = true → pairLeq b c = true → pairLeq a c = true)
    ∧ (statePairs.SortInPlace pairLeq).map toList = .ok [(1, 1), (1, 2), (2, 0)]
    ∧ ∃ d1, statePairs.SortInPlace pairLeq = .ok d1
      ∧ ∀ x, d1.toList.filter (ties pairLeq x) = statePairs.toList.filter (ties pairLeq x) :=
  ⟨by decide, pairLeq_ties, pairLeq_trans, rfl,
    C33_sortInPlace_stable statePairs pairLeq (by decide) pairLeq_ties pairLeq_trans⟩

end SegmentedDeque
end Lab

namespace Lab
namespace DynamicArray
variable {T : Type} [Inhabited T]

/-- Copy assignment yields a valid array with the size and the elements of the donor. -/
theorem arrayAssign_spec (a other : DynamicArray T) (h : other.WF) :
    (a.operatorAssign other).WF ∧ (a.operatorAssign other).size = other.size
      ∧ (a.operatorAssign other).elems = other.elems := by
  unfold WF at h
  refine ⟨?_, rfl, ?_⟩
  · unfold WF operatorAssign capacity
    simp only [List.length_map, List.length_range]
    exact h
  · apply List.ext_getElem?
    intro i
    unfold elems operatorAssign capacity
    simp only [List.getElem?_take]
    split
    · rename_i hi
      have hlen : i < other.data.length := by omega
      rw [List.getElem?_map, List.getElem?_range hlen, Option.map_some', if_pos hi,
        List.getElem?_eq_getElem hlen, List.getD_eq_getElem?_getD, List.getElem?_eq_getElem hlen]
      rfl
    · rfl

end DynamicArray

namespace SegmentedDeque
open DynamicArray
variable {T : Type} [Inhabited T]

theorem appendRange_zero (src : DynamicArray T) (n : Nat) (tgt : DynamicArray T)
    (htw : tgt.WF) (hn : n ≤ src.size) (hsw : src.WF) :
    ∃ t, appendRange src n 0 tgt = .ok t ∧ t.WF ∧ t.size = tgt.size + n
      ∧ t.elems = tgt.elems ++ src.elems.take n := by
  obtain ⟨t, hrun, hw, hs, he⟩ := appendRange_spec src n 0 tgt htw (by omega) hsw
  exact ⟨t, hrun, hw, hs, by rw [he, List.drop_zero]⟩

/-- Effect of `PrependInPlace` of the basic variant. -/
theorem basicPrepend_spec (d : SegmentedDeque T) (hinv : d.Inv) (x : T) :
    ∃ d1, Basic.PrependInPlace d x = .ok d1 ∧ d1.Inv
      ∧ d1.segmentCapacity = d.segmentCapacity ∧ d1.totalSize = d.totalSize + 1
      ∧ d1.toList = x :: d.toList := by
  obtain ⟨hcap, hsum, hok⟩ := hinv
  have hnw : (Segment.ctor d.segmentCapacity : Segment T).data.WF := Segment_ctor_WF _
  have hne : (Segment.ctor d.segmentCapacity : Segment T).data.elems = [] :=
    Segment_ctor_elems _
  have hns : (Segment.ctor d.segmentCapacity : Segment T).data.size = 0 := Segment_ctor_size _
  have hfw := Append_WF (Segment.ctor d.segmentCapacity : Segment T).data x hnw
  have hfe := Append_elems (Segment.ctor d.segmentCapacity : Segment T).data x hnw
  rw [hne, List.nil_append] at hfe
  have hfs := Append_size (Segment.ctor d.segmentCapacity : Segment T).data x
  rw [hns] at hfs
  by_cases h0 : d.totalSize = 0
  · have hnil : flat d.segs = [] := flat_eq_nil_of_sum hok (by omega)
    refine ⟨{ d with
        segs := [{ data := (Segment.ctor d.segmentCapacity).data.Append x }],
        totalSize := d.totalSize + 1 }, ?_, ⟨hcap, ?_, ?_⟩, rfl, rfl, ?_⟩
    · have hens : Basic.ensureCapacityFront d
          = .ok { d with segs := [Segment.ctor d.segmentCapacity] } := by
        unfold Basic.ensureCapacityFront
        rw [if_pos h0]
        rfl
      unfold Basic.PrependInPlace
      rw [hens, bind_ok]
      dsimp only
      rw [if_pos (by unfold GetSize; rw [hns]; rfl)]
      rfl
    · show d.totalSize + 1 = ((sizeSum [_] : Nat) : Int)
      rw [sizeSum_cons, sizeSum_nil, hfs, h0]
      rfl
    · exact SegsOK_one hfw (by rw [hfs]; exact hcap)
    · rw [toList_eq, toList_eq, hnil]
      show flat [_] = _
      rw [flat_cons, flat_nil, hfe]
      rfl
  obtain ⟨head, rest, hseg⟩ := List.exists_cons_of_ne_nil (segs_ne_nil_of_pos d hsum h0)
  have hok2 := hok
  rw [hseg, SegsOK_cons] at hok2
  obtain ⟨⟨hhw, hhc⟩, hrok⟩ := hok2
  have hlen := elems_length hhw
  rw [hseg, sizeSum_cons] at hsum
  by_cases hlt : (head.data.size : Int) < d.segmentCapacity
  · by_cases hz : head.data.size = 0
    · have hhe : head.data.elems = [] := List.eq_nil_of_length_eq_zero (by omega)
      have haw := Append_WF head.data x hhw
      have hae := Append_elems head.data x hhw
      have has := Append_size head.data x
      refine ⟨{ d with
          segs := { data := head.data.Append x } :: rest,
          totalSize := d.totalSize + 1 }, ?_, ⟨hcap, ?_, ?_⟩, rfl, rfl, ?_⟩
      · have hens : Basic.ensureCapacityFront d = .ok d := by
          unfold Basic.ensureCapacityFront
          simp only [h0, if_false, hseg, GetSize, hlt, if_true]
          rfl
        unfold Basic.PrependInPlace
        rw [hens, bind_ok]
        simp only [hseg]
        rw [if_pos (by unfold GetSize; rw [hz]; rfl)]
        rfl
      · show d.totalSize + 1 = ((sizeSum (_ :: rest) : Nat) : Int)
        rw [sizeSum_cons, has]
        push_cast
        omega
      · rw [SegsOK_cons]
        exact ⟨⟨haw, by rw [has]; push_cast; omega⟩, hrok⟩
      · rw [toList_eq, toList_eq, hseg]
        show flat (_ :: rest) = _
        rw [flat_cons, flat_cons, hae, hhe]
        rfl
    · have hcw := Append_WF (DynamicArray.ctor : DynamicArray T) x ctor_WF
      have hce := Append_elems (DynamicArray.ctor : DynamicArray T) x ctor_WF
      rw [ctor_elems, List.nil_append] at hce
      have hcs := Append_size (DynamicArray.ctor : DynamicArray T) x
      obtain ⟨nd, hnd, hndw, hnds, hnde⟩ := appendRange_zero head.data head.data.size
        ((DynamicArray.ctor : DynamicArray T).Append x) hcw (Nat.le_refl _) hhw
      rw [hce, List.take_of_length_le (by omega)] at hnde
      obtain ⟨haw, has, hae⟩ := arrayAssign_spec head.data nd hndw
      have hcs0 : (DynamicArray.ctor : DynamicArray T).size = 0 := rfl
      refine ⟨{ d with
          segs := { data := head.data.operatorAssign nd } :: rest,
          totalSize := d.totalSize + 1 }, ?_, ⟨hcap, ?_, ?_⟩, rfl, rfl, ?_⟩
      · have hens : Basic.ensureCapacityFront d = .ok d := by
          unfold Basic.ensureCapacityFront
          simp only [h0, if_false, hseg, GetSize, hlt, if_true]
          rfl
        unfold Basic.PrependInPlace
        rw [hens, bind_ok]
        simp only [hseg]
        rw [if_neg (by unfold GetSize; omega)]
        simp only [hnd, bind_ok]
        rfl
      · show d.totalSize + 1 = ((sizeSum (_ :: rest) : Nat) : Int)
        rw [sizeSum_cons, has, hnds, hcs, hcs0]
        push_cast
        omega
      · rw [SegsOK_cons]
        exact ⟨⟨haw, by rw [has, hnds, hcs, hcs0]; push_cast; omega⟩, hrok⟩
      · rw [toList_eq, toList_eq, hseg]
        show flat (_ :: rest) = _
        rw [flat_cons, flat_cons, hae, hnde]
        rfl
  · refine ⟨{ d with
        segs := { data := (Segment.ctor d.segmentCapacity).data.Append x } :: head :: rest,
        totalSize := d.totalSize + 1 }, ?_, ⟨hcap, ?_, ?_⟩, rfl, rfl, ?_⟩
    · have hens : Basic.ensureCapacityFront d
          = .ok { d with segs := Segment.ctor d.segmentCapacity :: head :: rest } := by
        unfold Basic.ensureCapacityFront
        simp only [h0, if_false, hseg, GetSize, hlt]
        rfl
      unfold Basic.PrependInPlace
      rw [hens, bind_ok]
      dsimp only
      rw [if_pos (by unfold GetSize; rw [hns]; rfl)]
      rfl
    · show d.totalSize + 1 = ((sizeSum (_ :: head :: rest) : Nat) : Int)
      rw [sizeSum_cons, sizeSum_cons, hfs]
      push_cast
      omega
    · rw [SegsOK_cons, SegsOK_cons]
      exact ⟨⟨hfw, by rw [hfs]; exact hcap⟩, ⟨hhw, hhc⟩, hrok⟩
    · rw [toList_eq, toList_eq, hseg]
      show flat (_ :: head :: rest) = _
      rw [flat_cons, hfe]
      rfl

/-- Outcome of the general branch of `InsertAtInPlace` of the basic variant
(`0 < index < totalSize`): the located segment takes the item in place, or is split at the
insertion offset. -/
theorem basicInsertAt_mid_spec (d : SegmentedDeque T) (hinv : d.Inv) (x : T) (n : Nat)
    (h0 : 0 < n) (hn : (n : Int) < d.totalSize) :
    ∃ d1 pre seg post, ∃ o : Nat, Basic.InsertAtInPlace d x (n : Int) = .ok d1
      ∧ d1.segmentCapacity = d.segmentCapacity ∧ d1.totalSize = d.totalSize + 1
      ∧ d.segs = pre ++ seg :: post ∧ o < seg.data.size ∧ sizeSum pre + o = n ∧
      (((seg.data.size : Int) < d.segmentCapacity ∧ ∃ s : Segment T,
          d1.segs = pre ++ s :: post ∧ s.data.WF
          ∧ s.data.elems = seg.data.elems.take o ++ x :: seg.data.elems.drop o) ∨
       ((seg.data.size : Int) = d.segmentCapacity ∧ ∃ s1 s2 : Segment T,
          d1.segs = pre ++ s1 :: s2 :: post ∧ s1.data.WF ∧ s2.data.WF
          ∧ s1.data.elems = seg.data.elems.take o ++ [x]
          ∧ s2.data.elems = seg.data.elems.drop o)) := by
  obtain ⟨hcap, hsum, hok⟩ := hinv
  obtain ⟨pre, seg, post, o, hseg, hfind, ho, hs⟩ := findSegmentAndIndex_spec d hsum n hn
  obtain ⟨hsw, hsc⟩ := hok seg (by rw [hseg]; simp)
  have hlen := elems_length hsw
  have hc2 : ¬ ((n : Int) = 0) := by omega
  have hc3 : ¬ ((n : Int) = d.totalSize) := by omega
  have hcnt : ((seg.data.size : Int) - (o : Int)).toNat = seg.data.size - o := by omega
  obtain ⟨nd0, hnd0, hnd0w, _, hnd0e⟩ := appendRange_zero seg.data o
    (DynamicArray.ctor : DynamicArray T) ctor_WF (by omega) hsw
  rw [ctor_elems, List.nil_append] at hnd0e
  have hnd1w := Append_WF nd0 x hnd0w
  have hnd1e := Append_elems nd0 x hnd0w
  rw [hnd0e] at hnd1e
  by_cases hlt : (seg.data.size : Int) < d.segmentCapacity
  · obtain ⟨nd, hnd, hndw, _, hnde⟩ := appendRange_spec seg.data (seg.data.size - o) o
      (nd0.Append x) hnd1w (by omega) hsw
    rw [hnd1e, List.take_of_length_le (l := List.drop o seg.data.elems)
      (by rw [List.length_drop]; omega)] at hnde
    obtain ⟨haw, _, hae⟩ := arrayAssign_spec seg.data nd hndw
    refine ⟨{ d with
        segs := pre ++ { data := seg.data.operatorAssign nd } :: post,
        totalSize := d.totalSize + 1 }, pre, seg, post, o, ?_, rfl, rfl, hseg, ho, hs,
      Or.inl ⟨hlt, _, rfl, haw, ?_⟩⟩
    · unfold Basic.InsertAtInPlace
      simp only [hc2, hc3, if_false, hfind, bind_ok, hseg, getElem?_mid, GetSize, hlt,
        if_true, Int.toNat_ofNat, hnd0, hcnt, hnd, set_mid]
      rfl
    · rw [hae, hnde]
      simp
  · have heq : (seg.data.size : Int) = d.segmentCapacity := by omega
    obtain ⟨nd2, hnd2, hnd2w, _, hnd2e⟩ := appendRange_spec seg.data (seg.data.size - o) o
      (DynamicArray.ctor : DynamicArray T) ctor_WF (by omega) hsw
    rw [ctor_elems, List.nil_append, List.take_of_length_le (l := List.drop o seg.data.elems)
      (by rw [List.length_drop]; omega)] at hnd2e
    obtain ⟨ha1w, _, ha1e⟩ := arrayAssign_spec seg.data (nd0.Append x) hnd1w
    obtain ⟨ha2w, _, ha2e⟩ := arrayAssign_spec
      (Segment.ctor d.segmentCapacity : Segment T).data nd2 hnd2w
    refine ⟨{ d with
        segs := pre ++ { data := seg.data.operatorAssign (nd0.Append x) }
          :: { data := (Segment.ctor d.segmentCapacity : Segment T).data.operatorAssign nd2 }
          :: post,
        totalSize := d.totalSize + 1 }, pre, seg, post, o, ?_, rfl, rfl, hseg, ho, hs,
      Or.inr ⟨heq, _, _, rfl, ha1w, ha2w, ?_, ?_⟩⟩
    · unfold Basic.InsertAtInPlace
      simp only [hc2, hc3, if_false, hfind, bind_ok, hseg, getElem?_mid, GetSize, hlt,
        Int.toNat_ofNat, hnd0, hcnt, hnd2, take_mid, drop_mid]
      simp
      rfl
    · rw [ha1e, hnd1e]
    · rw [ha2e, hnd2e]

/-- Effect of `InsertAtInPlace` of the basic variant at an index in `[0, totalSize]`. -/
theorem basicInsertAt_spec (d : SegmentedDeque T) (hinv : d.Inv) (x : T) (index : Int)
    (h0 : 0 ≤ index) (h1 : index ≤ d.totalSize) :
    ∃ d1, Basic.InsertAtInPlace d x index = .ok d1 ∧ d1.Inv
      ∧ d1.segmentCapacity = d.segmentCapacity ∧ d1.totalSize = d.totalSize + 1
      ∧ d1.toList = d.toList.take index.toNat ++ x :: d.toList.drop index.toNat := by
  have hlenl := length_toList d hinv
  by_cases hz : index = 0
  · obtain ⟨d1, hrun, hi, hc, ht, hl⟩ := basicPrepend_spec d hinv x
    refine ⟨d1, ?_, hi, hc, ht, ?_⟩
    · unfold Basic.InsertAtInPlace
      rw [if_pos hz]
      exact hrun
    · rw [hl, hz]
      rfl
  by_cases he : index = d.totalSize
  · obtain ⟨d1, hrun, _⟩ := AppendInPlace_spec d hinv x
    obtain ⟨hc, ht, hl, hk⟩ := AppendInPlace_keeps d d1 hinv x hrun
    refine ⟨d1, ?_, hk.1, hc, ht, ?_⟩
    · unfold Basic.InsertAtInPlace
      rw [if_neg hz, if_pos he]
      exact hrun
    · have hn : index.toNat = d.toList.length := by omega
      rw [hl, hn, List.take_length, List.drop_length]
  obtain ⟨n, rfl⟩ : ∃ n : Nat, index = (n : Int) := ⟨index.toNat, by omega⟩
  obtain ⟨d1, pre, seg, post, o, hrun, hc, ht, hseg, ho, hs, hcases⟩ :=
    basicInsertAt_mid_spec d hinv x n (by omega) (by omega)
  obtain ⟨hcap, hsum, hok⟩ := hinv
  have hsegok := hok
  rw [hseg, SegsOK_append, SegsOK_cons] at hsegok
  obtain ⟨hpre, ⟨hsw, hsc⟩, hpost⟩ := hsegok
  have hlen := elems_length hsw
  have hP : (flat pre).length + o = n := by rw [length_flat hpre]; exact hs
  rw [hseg, sizeSum_append, sizeSum_cons] at hsum
  rw [Int.toNat_ofNat]
  refine ⟨d1, hrun, ?_, hc, ht, ?_⟩
  · rcases hcases with ⟨hlt, s, hs1, hs1w, hs1e⟩ | ⟨heq, s1, s2, hs1, hs1w, hs2w, h1e, h2e⟩
    · have hsz := size_of_elems hs1w hs1e
      simp only [List.length_append, List.length_take, List.length_cons, List.length_drop,
        hlen] at hsz
      refine ⟨by omega, ?_, ?_⟩
      · rw [ht, hs1, hsum, sizeSum_append, sizeSum_cons, hsz]
        push_cast
        omega
      · rw [hs1, hc, SegsOK_append, SegsOK_cons]
        exact ⟨hpre, ⟨hs1w, by omega⟩, hpost⟩
    · have hsz1 := size_of_elems hs1w h1e
      have hsz2 := size_of_elems hs2w h2e
      simp only [List.length_append, List.length_take, List.length_singleton,
        List.length_drop, hlen] at hsz1 hsz2
      refine ⟨by omega, ?_, ?_⟩
      · rw [ht, hs1, hsum, sizeSum_append, sizeSum_cons, sizeSum_cons, hsz1, hsz2]
        push_cast
        omega
      · rw [hs1, hc, SegsOK_append, SegsOK_cons, SegsOK_cons]
        exact ⟨hpre, ⟨hs1w, by omega⟩, ⟨hs2w, by omega⟩, hpost⟩
  · rcases hcases with ⟨hlt, s, hs1, hs1w, hs1e⟩ | ⟨heq, s1, s2, hs1, hs1w, hs2w, h1e, h2e⟩
    · rw [toList_eq, toList_eq, hs1, hseg, flat_append, flat_append, flat_cons, flat_cons,
        hs1e, ← hP]
      exact (list_insert_mid _ _ _ o x (by omega)).symm
    · rw [toList_eq, toList_eq, hs1, hseg, flat_append, flat_append, flat_cons, flat_cons,
        flat_cons, ← List.append_assoc s1.data.elems, h1e, h2e, ← hP]
      rw [List.append_assoc (List.take o seg.data.elems), List.singleton_append]
      exact (list_insert_mid _ _ _ o x (by omega)).symm

/-- Effect of `SortInPlace` of the basic variant. -/
theorem basicSort_spec (d : SegmentedDeque T) (hinv : d.Inv) (comp : T → T → Bool) :
    ∃ d1, Basic.SortInPlace d comp = .ok d1 ∧ d1.Inv
      ∧ d1.segmentCapacity = d.segmentCapacity
      ∧ d1.toList = bubbleSort comp d.toList.length d.toList.length 0 d.toList := by
  obtain ⟨temp, htrun, htw, hte⟩ := collect_spec d.segmentCapacity d.segs DynamicArray.ctor
    hinv.2.2 ctor_WF
  rw [ctor_elems, List.nil_append, ← toList_eq] at hte
  have hsw := SortInPlace_WF temp comp htw
  obtain ⟨hcc, _, _, hck⟩ := Clear_keeps d hinv
  obtain ⟨d1, hrun, hc, _, hl, hk⟩ := appendElems_spec (temp.SortInPlace comp) hsw
    (temp.SortInPlace comp).size 0 d.Clear hck.1 (by omega)
  refine ⟨d1, ?_, hk.1, by rw [hc, hcc], ?_⟩
  · unfold Basic.SortInPlace
    simp only [htrun, bind_ok]
    exact hrun
  · rw [hl, List.drop_zero, List.take_of_length_le (by rw [elems_length hsw]),
      SortInPlace_elems_eq temp comp htw, ← elems_length htw, hte]
    show flat [] ++ _ = _
    rw [flat_nil, List.nil_append]

/-- The two variants, started on deques with the same element sequence, perform the same calls
successfully and end with the same element sequence. -/
theorem run_agree (ops : List (Op T)) : ∀ (r b : SegmentedDeque T), r.Inv → b.Inv →
    r.toList = b.toList → OpsValid r.totalSize ops →
    ∃ r1 b1, runRich ops r = .ok r1 ∧ runBasic ops b = .ok b1 ∧ r1.Inv ∧ b1.Inv
      ∧ r1.toList = b1.toList := by
  induction ops with
  | nil =>
    intro r b hr hb hl _
    exact ⟨r, b, rfl, rfl, hr, hb, hl⟩
  | cons op rest ih =>
    intro r b hr hb hl hv
    have hlr := length_toList r hr
    have hlb := length_toList b hb
    cases op with
    | appendInPlace x =>
      obtain ⟨r1, hrun1, _⟩ := AppendInPlace_spec r hr x
      obtain ⟨_, ht1, hl1, hk1⟩ := AppendInPlace_keeps r r1 hr x hrun1
      obtain ⟨b1, hrun2, _⟩ := AppendInPlace_spec b hb x
      obtain ⟨_, _, hl2, hk2⟩ := AppendInPlace_keeps b b1 hb x hrun2
      have hv1 : OpsValid r1.totalSize rest := by
        rw [ht1]
        exact hv
      obtain ⟨r2, b2, h1, h2, h3⟩ := ih r1 b1 hk1.1 hk2.1 (by rw [hl1, hl2, hl]) hv1
      refine ⟨r2, b2, ?_, ?_, h3⟩
      · unfold runRich
        rw [hrun1, bind_ok]
        exact h1
      · unfold runBasic
        rw [hrun2, bind_ok]
        exact h2
    | prependInPlace x =>
      obtain ⟨r1, hrun1, _⟩ := PrependInPlace_spec r hr x
      obtain ⟨_, ht1, hl1, hk1⟩ := PrependInPlace_keeps r r1 hr x hrun1
      obtain ⟨b1, hrun2, hi2, _, _, hl2⟩ := basicPrepend_spec b hb x
      have hv1 : OpsValid r1.totalSize rest := by
        rw [ht1]
        exact hv
      obtain ⟨r2, b2, h1, h2, h3⟩ := ih r1 b1 hk1.1 hi2 (by rw [hl1, hl2, hl]) hv1
      refine ⟨r2, b2, ?_, ?_, h3⟩
      · unfold runRich
        rw [hrun1, bind_ok]
        exact h1
      · unfold runBasic
        rw [hrun2, bind_ok]
        exact h2
    | insertAtInPlace x index =>
      obtain ⟨hi0, hi1, hvr⟩ := hv
      obtain ⟨r1, hrun1⟩ := InsertAtInPlace_ok r hr x index hi0 hi1
      obtain ⟨_, _, _, ht1, hl1, hk1⟩ := InsertAtInPlace_keeps r r1 hr x index hrun1
      have hbt : b.totalSize = r.totalSize := by
        rw [← hlr, ← hlb, hl]
      obtain ⟨b1, hrun2, hi2, _, _, hl2⟩ := basicInsertAt_spec b hb x index hi0
        (by rw [hbt]; exact hi1)
      have hv1 : OpsValid r1.totalSize rest := by
        rw [ht1]
        exact hvr
      obtain ⟨r2, b2, h1, h2, h3⟩ := ih r1 b1 hk1.1 hi2 (by rw [hl1, hl2, hl]) hv1
      refine ⟨r2, b2, ?_, ?_, h3⟩
      · unfold runRich
        rw [hrun1, bind_ok]
        exact h1
      · unfold runBasic
        rw [hrun2, bind_ok]
        exact h2
    | sortInPlace comp =>
      obtain ⟨r1, hrun1, hi1, _, hl1⟩ := SortInPlace_toList_eq r hr comp
      obtain ⟨_, ht1, _⟩ := SortInPlace_keeps r r1 hr comp hrun1
      obtain ⟨b1, hrun2, hi2, _, hl2⟩ := basicSort_spec b hb comp
      have hv1 : OpsValid r1.totalSize rest := by
        rw [ht1]
        exact hv
      obtain ⟨r2, b2, h1, h2, h3⟩ := ih r1 b1 hi1 hi2 (by rw [hl1, hl2, hl]) hv1
      refine ⟨r2, b2, ?_, ?_, h3⟩
      · unfold runRich
        rw [hrun1, bind_ok]
        exact h1
      · unfold runBasic
        rw [hrun2, bind_ok]
        exact h2

/-- C35: for every `segmentCapacity >= 1` and every list of `AppendInPlace`, `PrependInPlace`,
`InsertAtInPlace` (each with `0 <= index <= length` at its call) and `SortInPlace` calls, both
variants perform the calls on the freshly constructed deque without throwing and end with the
same length and the same `Get(i)` for every `i`. -/
theorem C35_variants_agree (segmentSize : Int) (ops : List (Op T)) (hcap : 1 ≤ segmentSize)
    (hv : OpsValid 0 ops) :
    ∃ d0 r b : SegmentedDeque T, SegmentedDeque.ctor segmentSize = .ok d0
      ∧ runRich ops d0 = .ok r ∧ runBasic ops d0 = .ok b
      ∧ r.GetLength = b.GetLength ∧ (∀ i, r.Get i = b.Get i) := by
  have hinv0 : ({ segs := [], segmentCapacity := segmentSize, totalSize := 0 } :
      SegmentedDeque T).Inv := ⟨hcap, rfl, SegsOK_nil _⟩
  obtain ⟨r, b, h1, h2, hri, hbi, hl⟩ := run_agree ops _ _ hinv0 hinv0 rfl hv
  refine ⟨_, r, b, ?_, h1, h2, ?_, Get_eq_of_toList b r hbi hri hl⟩
  · unfold SegmentedDeque.ctor
    rw [if_neg (by omega)]
    rfl
  · have hlr := length_toList r hri
    have hlb := length_toList b hbi
    show r.totalSize = b.totalSize
    rw [← hlr, ← hlb, hl]

/-- Witness of C35: capacity 3 and the calls `AppendInPlace` of 1, 2, 3, `InsertAtInPlace(10,
2)`, `PrependInPlace(7)`, `SortInPlace()`.  After the first four calls the richer variant has
the segments `[1]`, `[2,10,3]` and the basic one `[1,2,10]`, `[3]`; at the end they have
`[1,2]`, `[3,7,10]` and `[1,2,3]`, `[7,10]`. -/
theorem C35_variants_agree_witness :
    (1 : Int) ≤ 3 ∧ OpsValid 0 opsDemo
    ∧ (runRich (opsDemo.take 4) stateNew3).map layout = .ok [[1], [2, 10, 3]]
    ∧ (runBasic (opsDemo.take 4) stateNew3).map layout = .ok [[1, 2, 10], [3]]
    ∧ (runRich opsDemo stateNew3).map layout = .ok [[1, 2], [3, 7, 10]]
    ∧ (runBasic opsDemo stateNew3).map layout = .ok [[1, 2, 3], [7, 10]]
    ∧ ∃ d0 r b : SegmentedDeque Int, SegmentedDeque.ctor 3 = .ok d0
      ∧ runRich opsDemo d0 = .ok r ∧ runBasic opsDemo d0 = .ok b
      ∧ r.GetLength = b.GetLength ∧ (∀ i, r.Get i = b.Get i) :=
  ⟨by decide, by simp [opsDemo, OpsValid], rfl, rfl, rfl, rfl,
    C35_variants_agree 3 opsDemo (by decide) (by simp [opsDemo, OpsValid])⟩

end SegmentedDeque
end Lab
